import Mathlib

/-!
Union-find (`union-find.hpp`): shallow embedding

The C++ class `UNION::UnionFind<DATA>` keeps heap-allocated `UpNode` objects and
two vectors of pointers to them (`nodes`, `sets`).  The embedding makes the
heap explicit: an address is a natural number, `heap a = none` means that no
object lives at `a` (never allocated, or deleted), and `new` hands out the
fresh address `brk`.  A pointer is an `Option Nat` (`none` is `NULL`).

Every operation returns a `Res`: a normal result, a thrown exception (the state
is the one before the call), or undefined behaviour (reading a vector past its
end, using a deleted object or a null pointer).

Identifiers and counters are `size_t` in the source and unbounded naturals
here; the only place where the unsigned wrap-around is visible is `id - 1` at
`id = 0` and `--counter` at `0`, and both are modelled explicitly.
-/

set_option autoImplicit false

namespace UNION

/-- Policy of the structure (`UNION::POLICY`). -/
inductive POLICY where
  | U_NONE
  | U_OPTIMIZE
  | U_SENSITIVE_ORDER
  | U_BOTH
deriving DecidableEq

/-- The two exception classes derived from `uf_error`. -/
inductive uf_error where
  | uf_set_not_exists
  | uf_item_not_exists
deriving DecidableEq

/-- Ways in which a call leaves defined behaviour. -/
inductive Fault where
  | out_of_bounds
  | dangling
  | null_deref
  | empty_back
deriving DecidableEq

/-- Outcome of a call: value, exception, undefined behaviour, or the walk of
`FindSet` exceeding the fuel the model gives it. -/
inductive Res (α : Type) where
  | ok (v : α)
  | throw (e : uf_error)
  | ub (f : Fault)
  | nofuel

/-- Sequencing of outcomes: the first failure ends the call. -/
def Res.bind {α β : Type} (r : Res α) (f : α → Res β) : Res β :=
  match r with
  | .ok v => f v
  | .throw e => .throw e
  | .ub f => .ub f
  | .nofuel => .nofuel

/-- Class `SetData`: the aggregate of a representative.  The singly linked
member list is a `List Nat`; `last` is the position in `members` of the cell the
tail pointer refers to (`none`: an indeterminate pointer). -/
structure SetData where
  set_id : Nat
  size : Nat
  members : List Nat
  last : Option Nat
deriving DecidableEq

/-- Constructor `SetData(size_t id)`: one cell, `last = members`. -/
def SetData.create (id : Nat) : SetData :=
  { set_id := id, size := 1, members := [id], last := some 0 }

/-- Copy constructor `SetData(const SetData&)`: copies the cells, leaves `last`
uninitialised. -/
def SetData.copy (data : SetData) : SetData :=
  { set_id := data.set_id, size := data.size, members := data.members, last := none }

/-- Method `SetData::Join`: `size += data.size; last->next = data.members;
last = data.last`.  Writing `next` of the cell at position `i` keeps the first
`i + 1` cells and continues with the cells of `data`. -/
def SetData.Join (this data : SetData) : Res SetData :=
  match this.last with
  | none => .ub .dangling
  | some i =>
    if i < this.members.length then
      .ok { set_id := this.set_id
            size := this.size + data.size
            members := this.members.take (i + 1) ++ data.members
            last := data.last.map (fun j => i + 1 + j) }
    else .ub .dangling

/-- Class `UpNode`: `parent` is a pointer to another node, `data` a pointer to
the payload owned by the caller, `info` the owned aggregate (`none`: `NULL`). -/
structure UpNode where
  id : Nat
  parent : Option Nat
  data : Option Nat
  info : Option SetData
deriving DecidableEq

/-- Constructor `UpNode(size_t id, DATA *data)`. -/
def UpNode.create (id : Nat) (data : Option Nat) : UpNode :=
  { id := id, parent := none, data := data, info := some (SetData.create id) }

/-- Copy constructor `UpNode(const UpNode&)`: it reads `*nod.info`. -/
def UpNode.copy (nod : UpNode) : Res UpNode :=
  match nod.info with
  | none => .ub .null_deref
  | some i => .ok { id := nod.id, parent := none, data := nod.data, info := some i.copy }

/-- The store of `UpNode` objects. -/
abbrev Heap := Nat → Option UpNode

/-- Store `v` at address `a`. -/
def Heap.write (h : Heap) (a : Nat) (v : Option UpNode) : Heap :=
  fun b => if b = a then v else h b

/-- Assign fields of the object at address `a`. -/
def Heap.modify (h : Heap) (a : Nat) (f : UpNode → UpNode) : Heap :=
  fun b => if b = a then (h b).map f else h b

/-- Read through a non-null pointer. -/
def deref (h : Heap) (a : Nat) : Res UpNode :=
  match h a with
  | some n => .ok n
  | none => .ub .dangling

/-- Read through `node->info`. -/
def derefInfo (n : UpNode) : Res SetData :=
  match n.info with
  | some i => .ok i
  | none => .ub .null_deref

/-- Class `UnionFind`: the members of the source plus the object store. -/
structure UnionFind where
  sets : List (Option Nat)
  nodes : List (Option Nat)
  free_ids : List Nat
  sets_amount : Nat
  items_amount : Nat
  policy : POLICY
  heap : Heap
  brk : Nat

/-- Constructor `UnionFind(POLICY policy)`. -/
def UnionFind.create (policy : POLICY) : UnionFind :=
  { sets := [], nodes := [], free_ids := [], sets_amount := 0, items_amount := 0
    policy := policy, heap := fun _ => none, brk := 0 }

/-- The unsigned `--n`. -/
def dec (n : Nat) : Nat := if n = 0 then 18446744073709551615 else n - 1

/-- The assignment `v[id - 1] = x`; at `id = 0` the index wraps to `SIZE_MAX`. -/
def vset (v : List (Option Nat)) (id : Nat) (x : Option Nat) : Res (List (Option Nat)) :=
  if id = 0 then .ub .out_of_bounds
  else if id - 1 < v.length then .ok (v.set (id - 1) x)
  else .ub .out_of_bounds

/-- Method `GetSetPointer`.  At `id = 0` both disjuncts of the guard hold in the
source (`id - 1` wraps), so the truncated subtraction gives the same answer. -/
def GetSetPointer (this : UnionFind) (id : Nat) : Res Nat :=
  if this.nodes.length < id - 1 ∨ id = 0 then .throw .uf_set_not_exists
  else
    match this.sets[id - 1]? with
    | none => .ub .out_of_bounds
    | some none => .throw .uf_set_not_exists
    | some (some set) => .ok set

/-- Method `MakeSet`. -/
def MakeSet (this : UnionFind) (data : Option Nat) : Res (Nat × UnionFind) :=
  let pick : Nat × List Nat :=
    match this.free_ids.getLast? with
    | none => (this.nodes.length + 1, this.free_ids)
    | some x => (x, this.free_ids.dropLast)
  let id := pick.1
  let new_item := this.brk
  let heap := this.heap.write new_item (some (UpNode.create id data))
  if id = 0 then .ub .out_of_bounds
  else if id - 1 = this.nodes.length then
    .ok (id, { sets := this.sets ++ [some new_item]
               nodes := this.nodes ++ [some new_item]
               free_ids := pick.2
               sets_amount := this.sets_amount + 1
               items_amount := this.items_amount + 1
               policy := this.policy
               heap := heap
               brk := this.brk + 1 })
  else if id - 1 < this.nodes.length ∧ id - 1 < this.sets.length then
    .ok (id, { sets := this.sets.set (id - 1) (some new_item)
               nodes := this.nodes.set (id - 1) (some new_item)
               free_ids := pick.2
               sets_amount := this.sets_amount + 1
               items_amount := this.items_amount + 1
               policy := this.policy
               heap := heap
               brk := this.brk + 1 })
  else .ub .out_of_bounds

/-- Method `GetSetsAmount`. -/
def GetSetsAmount (this : UnionFind) : Nat := this.sets_amount

/-- Method `GetItemsAmount`. -/
def GetItemsAmount (this : UnionFind) : Nat := this.items_amount

/-- The loop `while (node->parent) { path.push_back(node); node = node->parent; }`
of `FindSet`, run for at most `fuel` nodes: the root reached and the nodes
pushed on `path` (in the order visited; nothing is pushed unless `compress`). -/
def walk (h : Heap) (compress : Bool) : Nat → Nat → Res (Nat × List Nat)
  | 0, _ => .nofuel
  | fuel + 1, node =>
    match h node with
    | none => .ub .dangling
    | some n =>
      match n.parent with
      | none => .ok (node, [])
      | some b =>
        match walk h compress fuel b with
        | .ok (root, path) => .ok (root, if compress then node :: path else path)
        | .throw e => .throw e
        | .ub f => .ub f
        | .nofuel => .nofuel

/-- The loop `for (p_node : path) p_node->parent = node;`. -/
def shrink (h : Heap) (path : List Nat) (node : Nat) : Heap :=
  path.foldl (fun h p_node => h.modify p_node (fun n => { n with parent := some node })) h

/-- Method `FindSet`: the copy of the root, and the state after the call.  The
walk gets `nodes.size()` as fuel. -/
def FindSet (this : UnionFind) (id : Nat) : Res (UpNode × UnionFind) :=
  if this.nodes.length < id ∨ id = 0 then .throw .uf_set_not_exists
  else
    match this.nodes[id - 1]? with
    | none => .ub .out_of_bounds
    | some none => .throw .uf_set_not_exists
    | some (some node) =>
      (walk this.heap (decide (this.policy = .U_OPTIMIZE ∨ this.policy = .U_BOTH))
          this.nodes.length node).bind fun r =>
      let heap := shrink this.heap r.2 r.1
      (deref heap r.1).bind fun root =>
      root.copy.bind fun res =>
      .ok (res, { this with heap := heap })

/-- Method `GetSet`. -/
def GetSet (this : UnionFind) (id : Nat) : Res UpNode :=
  if this.nodes.length ≥ id ∨ id = 0 then .throw .uf_set_not_exists
  else
    match this.sets[id - 1]? with
    | none => .ub .out_of_bounds
    | some none => .throw .uf_set_not_exists
    | some (some set) => (deref this.heap set).bind fun n => n.copy

/-- Method `GetItem`. -/
def GetItem (this : UnionFind) (id : Nat) : Res UpNode :=
  if this.nodes.length < id ∨ id = 0 then .throw .uf_item_not_exists
  else
    match this.nodes[id - 1]? with
    | none => .ub .out_of_bounds
    | some none => .throw .uf_item_not_exists
    | some (some node) => (deref this.heap node).bind fun n => n.copy

/-- The end of `Join`: `sets[y_node->id - 1] = NULL; --sets_amount;`. -/
def Join.finish (this : UnionFind) (heap : Heap) (nodes sets : List (Option Nat))
    (y_node : Nat) : Res UnionFind :=
  (deref heap y_node).bind fun y =>
  (vset sets y.id none).bind fun sets1 =>
  .ok { this with heap := heap, nodes := nodes, sets := sets1
                  sets_amount := dec this.sets_amount }

/-- The body of `Join` once `x_node` (the larger set) and `y_node` are chosen:
`y_node->parent = x_node; x_node->info->Join(*y_node->info); delete y_node->info;
y_node->info = NULL;`, then the exchange of `id` and `data` and the four slot
assignments under the order-sensitive policies, then `Join.finish`. -/
def Join.link (this : UnionFind) (p_node q_node x_node y_node : Nat) : Res UnionFind :=
  let h1 := this.heap.modify y_node (fun n => { n with parent := some x_node })
  (deref h1 x_node).bind fun xn =>
  (derefInfo xn).bind fun xinfo =>
  (deref h1 y_node).bind fun yn =>
  (derefInfo yn).bind fun yinfo =>
  (SetData.Join xinfo yinfo).bind fun joined =>
  let h2 := h1.modify x_node (fun n => { n with info := some joined })
  let h3 := h2.modify y_node (fun n => { n with info := none })
  if this.policy = .U_SENSITIVE_ORDER ∨ this.policy = .U_BOTH then
    (deref h3 p_node).bind fun p_copy =>
    (deref h3 q_node).bind fun q_copy =>
    let h4 := h3.modify x_node (fun n => { n with id := p_copy.id, data := p_copy.data })
    let h5 := h4.modify y_node (fun n => { n with id := q_copy.id, data := q_copy.data })
    (vset this.nodes p_copy.id (some x_node)).bind fun nodes1 =>
    (vset nodes1 q_copy.id (some y_node)).bind fun nodes2 =>
    (vset this.sets p_copy.id (some x_node)).bind fun sets1 =>
    (vset sets1 q_copy.id (some y_node)).bind fun sets2 =>
    Join.finish this h5 nodes2 sets2 y_node
  else Join.finish this h3 this.nodes this.sets y_node

/-- Method `Join`.  With `p != q` the two pointers are different objects on
every state the structure can reach (`Join_post`); a member list spliced onto
itself, which two equal pointers would give, has no counterpart in `List`. -/
def Join (this : UnionFind) (p q : Nat) : Res UnionFind :=
  if p = q then .ok this
  else
    (GetSetPointer this p).bind fun p_node =>
    (GetSetPointer this q).bind fun q_node =>
    (deref this.heap q_node).bind fun qn =>
    (derefInfo qn).bind fun qinfo =>
    (deref this.heap p_node).bind fun pn =>
    (derefInfo pn).bind fun pinfo =>
    let q_is_bigger : Bool := decide (qinfo.size > pinfo.size)
    Join.link this p_node q_node (if q_is_bigger then q_node else p_node)
      (if q_is_bigger then p_node else q_node)

/-- Method `SetExists`. -/
def SetExists (this : UnionFind) (set_id : Nat) : Bool :=
  if set_id > this.nodes.length ∨ set_id = 0 then false
  else
    match this.sets[set_id - 1]? with
    | some (some _) => true
    | _ => false

/-- Method `ItemExists`. -/
def ItemExists (this : UnionFind) (item_id : Nat) : Bool :=
  if item_id > this.nodes.length ∨ item_id = 0 then false
  else
    match this.nodes[item_id - 1]? with
    | some (some _) => true
    | _ => false

/-- The part of the state the member loop of `RemoveSet` works on. -/
structure RemoveState where
  nodes : List (Option Nat)
  free_ids : List Nat
  heap : Heap
  items_amount : Nat

/-- The loop `for (auto member : members)` of `RemoveSet`:
`node = nodes[member - 1]; nodes[member - 1] = NULL; free_ids.push_back(member);
delete node; --items_amount;`. -/
def RemoveSet.loop : List Nat → RemoveState → Res RemoveState
  | [], st => .ok st
  | member :: rest, st =>
    if member = 0 then .ub .out_of_bounds
    else
      match st.nodes[member - 1]? with
      | none => .ub .out_of_bounds
      | some node =>
        let nodes := st.nodes.set (member - 1) none
        let free_ids := st.free_ids ++ [member]
        match node with
        | none =>
          RemoveSet.loop rest
            { nodes := nodes, free_ids := free_ids, heap := st.heap
              items_amount := dec st.items_amount }
        | some a =>
          match st.heap a with
          | none => .ub .dangling
          | some _ =>
            RemoveSet.loop rest
              { nodes := nodes, free_ids := free_ids, heap := st.heap.write a none
                items_amount := dec st.items_amount }

/-- The loop `while (*(nodes.rbegin()) == NULL) { nodes.pop_back(); sets.pop_back(); }`
of `RemoveSet`; every round shortens `nodes`, so `nodes.size() + 1` rounds of
fuel are never used up. -/
def RemoveSet.trim : Nat → List (Option Nat) → List (Option Nat) →
    Res (List (Option Nat) × List (Option Nat))
  | 0, _, _ => .nofuel
  | fuel + 1, nodes, sets =>
    match nodes.getLast? with
    | none => .ub .empty_back
    | some (some _) => .ok (nodes, sets)
    | some none =>
      if sets = [] then .ub .empty_back
      else RemoveSet.trim fuel nodes.dropLast sets.dropLast

/-- Method `RemoveSet`. -/
def RemoveSet (this : UnionFind) (set_id : Nat) : Res UnionFind :=
  (GetSetPointer this set_id).bind fun set =>
  (deref this.heap set).bind fun sn =>
  (derefInfo sn).bind fun info =>
  (RemoveSet.loop info.members
      { nodes := this.nodes, free_ids := this.free_ids, heap := this.heap
        items_amount := this.items_amount }).bind fun st =>
  (RemoveSet.trim (st.nodes.length + 1) st.nodes this.sets).bind fun v =>
  .ok { sets := v.2, nodes := v.1, free_ids := st.free_ids
        sets_amount := dec this.sets_amount, items_amount := st.items_amount
        policy := this.policy, heap := st.heap, brk := this.brk }


/-! ## Vocabulary of the statements -/

/-- The calls that change the structure. -/
inductive Op where
  | MakeSet (data : Option Nat)
  | FindSet (id : Nat)
  | Join (p q : Nat)
  | RemoveSet (set_id : Nat)

/-- One call, keeping only the state after it. -/
def step (s : UnionFind) : Op → Res UnionFind
  | .MakeSet data => (MakeSet s data).bind fun r => .ok r.2
  | .FindSet id => (FindSet s id).bind fun r => .ok r.2
  | .Join p q => Join s p q
  | .RemoveSet set_id => RemoveSet s set_id

/-- The states a caller can bring the structure to: the empty structure of some
policy, followed by calls that return.  (A call that throws leaves the state as
it was; after undefined behaviour there is no state.) -/
inductive Reachable : UnionFind → Prop where
  | create (policy : POLICY) : Reachable (UnionFind.create policy)
  | step {s s1 : UnionFind} (op : Op) : Reachable s → step s op = .ok s1 → Reachable s1

/-- Run a list of calls; a call that does not return normally is skipped. -/
def runD (s : UnionFind) : List Op → UnionFind
  | [] => s
  | op :: ops =>
    match step s op with
    | .ok s1 => runD s1 ops
    | _ => runD s ops

/-- The live object in the slot of identifier `id`. -/
def liveNode (s : UnionFind) (id : Nat) : Option UpNode :=
  if id = 0 then none
  else
    match s.nodes[id - 1]? with
    | some (some a) => s.heap a
    | _ => none

/-- Identifier `id` names a live item without parent: a live representative. -/
def isRep (s : UnionFind) (id : Nat) : Bool :=
  match liveNode s id with
  | some n => n.parent.isNone
  | none => false

/-- The aggregate of the live item `id` (`none` when it has none). -/
def infoOf (s : UnionFind) (id : Nat) : Option SetData :=
  match liveNode s id with
  | some n => n.info
  | none => none

/-- Aggregate size of the live item `id`. -/
def setSize (s : UnionFind) (id : Nat) : Nat :=
  match infoOf s id with
  | some i => i.size
  | none => 0

/-- Member sequence of the live item `id`. -/
def membersOf (s : UnionFind) (id : Nat) : List Nat :=
  match infoOf s id with
  | some i => i.members
  | none => []

/-- The identifier of the representative `FindSet(x)` returns. -/
def findId (s : UnionFind) (x : Nat) : Option Nat :=
  match FindSet s x with
  | .ok r => some r.1.id
  | _ => none

/-- Following `parent` from the object at `a` reaches the parentless object at
`r` after `k` steps. -/
inductive Chain (h : Heap) : Nat → Nat → Nat → Prop where
  | root {a : Nat} {n : UpNode} : h a = some n → n.parent = none → Chain h a a 0
  | link {a b r k : Nat} {n : UpNode} :
      h a = some n → n.parent = some b → Chain h b r k → Chain h a r (k + 1)

/-- What a returning `MakeSet` did: the new object sits at the fresh address
`s.brk` in the vacant slot `id - 1`, everything else is as before. -/
structure MakeSetPost (s : UnionFind) (data : Option Nat) (id : Nat) (s1 : UnionFind) : Prop where
  id_pos : 1 ≤ id
  vacant : ∀ a, s.nodes[id - 1]? ≠ some (some a)
  heap_eq : s1.heap = s.heap.write s.brk (some (UpNode.create id data))
  brk_eq : s1.brk = s.brk + 1
  nodes_eq : ∀ k, s1.nodes[k]? = if k = id - 1 then some (some s.brk) else s.nodes[k]?
  sets_eq : ∀ k, s1.sets[k]? = if k = id - 1 then some (some s.brk) else s.sets[k]?
  len_nodes : s1.nodes.length = max s.nodes.length id
  len_sets : s1.sets.length = max s.sets.length id
  free_eq : s1.free_ids = s.free_ids.dropLast
  id_eq : s.free_ids.getLast? = some id ∨ (s.free_ids = [] ∧ id = s.nodes.length + 1)
  sets_amount_eq : s1.sets_amount = s.sets_amount + 1
  items_amount_eq : s1.items_amount = s.items_amount + 1
  policy_eq : s1.policy = s.policy

/-- What `Join(p, q)` did on two live representatives: the object `y` (the
smaller set) hangs under the object `x`, whose aggregate absorbed the other;
`xn`, `yn` are the two objects before the call and `xn1`, `yn1` after it. -/
structure JoinPost (s s1 : UnionFind) (p q x y : Nat) (xn yn xn1 yn1 : UpNode)
    (xi yi xi1 : SetData) : Prop where
  xy : x ≠ y
  hx : s.heap x = some xn
  hy : s.heap y = some yn
  xroot : xn.parent = none
  yroot : yn.parent = none
  xinfo : xn.info = some xi
  yinfo : yn.info = some yi
  pick : (xn.id = p ∧ yn.id = q ∧ yi.size ≤ xi.size) ∨ (xn.id = q ∧ yn.id = p ∧ yi.size < xi.size)
  hx1 : s1.heap x = some xn1
  hy1 : s1.heap y = some yn1
  ho : ∀ a, a ≠ x → a ≠ y → s1.heap a = s.heap a
  xroot1 : xn1.parent = none
  yparent1 : yn1.parent = some x
  xinfo1 : xn1.info = some xi1
  yinfo1 : yn1.info = none
  set_id1 : xi1.set_id = xi.set_id
  size1 : xi1.size = xi.size + yi.size
  members1 : xi1.members = xi.members ++ yi.members
  last1 : xi1.last = some (xi.members.length + yi.members.length - 1)
  swap : (xn1.id = xn.id ∧ xn1.data = xn.data ∧ yn1.id = yn.id ∧ yn1.data = yn.data) ∨
    (xn1.id = yn.id ∧ xn1.data = yn.data ∧ yn1.id = xn.id ∧ yn1.data = xn.data)
  order : (s.policy = .U_SENSITIVE_ORDER ∨ s.policy = .U_BOTH) → xn1.id = p ∧ yn1.id = q
  plain : ¬ (s.policy = .U_SENSITIVE_ORDER ∨ s.policy = .U_BOTH) → xn1.id = xn.id ∧ yn1.id = yn.id
  nodes_eq : ∀ k, s1.nodes[k]? =
    if k = xn1.id - 1 then some (some x) else if k = yn1.id - 1 then some (some y) else s.nodes[k]?
  sets_eq : ∀ k, s1.sets[k]? =
    if k = xn1.id - 1 then some (some x) else if k = yn1.id - 1 then some none else s.sets[k]?
  len_nodes : s1.nodes.length = s.nodes.length
  len_sets : s1.sets.length = s.sets.length
  free_eq : s1.free_ids = s.free_ids
  brk_eq : s1.brk = s.brk
  policy_eq : s1.policy = s.policy
  sets_amount_eq : s1.sets_amount + 1 = s.sets_amount
  items_amount_eq : s1.items_amount = s.items_amount

/-- What a returning `RemoveSet(set_id)` did: `a` is the object of the
representative, `info` its aggregate before the call. -/
structure RemovePost (s s1 : UnionFind) (set_id a : Nat) (sn : UpNode) (info : SetData) :
    Prop where
  ha : s.heap a = some sn
  sid : sn.id = set_id
  sroot : sn.parent = none
  sinfo : sn.info = some info
  gone : ∀ c n, s.heap c = some n → n.id ∈ info.members → s1.heap c = none
  kept : ∀ c n, s.heap c = some n → n.id ∉ info.members → s1.heap c = some n
  unalloc : ∀ c, s.heap c = none → s1.heap c = none
  len_le : s1.nodes.length ≤ s.nodes.length
  len_pos : 1 ≤ s1.nodes.length
  len_sets : s1.sets.length = s1.nodes.length
  nodes_in : ∀ k, k < s1.nodes.length → k + 1 ∈ info.members → s1.nodes[k]? = some none
  nodes_out : ∀ k, k < s1.nodes.length → k + 1 ∉ info.members → s1.nodes[k]? = s.nodes[k]?
  sets_eq : ∀ k, k < s1.nodes.length → s1.sets[k]? = s.sets[k]?
  trimmed : ∀ k, s1.nodes.length ≤ k → k < s.nodes.length →
    k + 1 ∈ info.members ∨ s.nodes[k]? = some none
  last_live : ∃ c, s1.nodes[s1.nodes.length - 1]? = some (some c)
  free_eq : s1.free_ids = s.free_ids ++ info.members
  items_amount_eq : s1.items_amount + info.members.length = s.items_amount
  sets_amount_eq : s1.sets_amount + 1 = s.sets_amount
  brk_eq : s1.brk = s.brk
  policy_eq : s1.policy = s.policy

/-- A well-formed aggregate: no identifier twice, `size` is the number of cells,
and the tail pointer is at the last cell. -/
def InfoOK (i : SetData) : Prop :=
  i.members.Nodup ∧ i.size = i.members.length ∧ ∃ j, i.last = some j ∧ j + 1 = i.members.length

/-- Slot `k` holds a live item. -/
def liveSlot (s : UnionFind) (k : Nat) : Bool :=
  match s.nodes[k]? with
  | some (some _) => true
  | _ => false

/-- Slot `k` holds a live item that is registered as a set. -/
def rootSlot (s : UnionFind) (k : Nat) : Bool :=
  liveSlot s k &&
  match s.sets[k]? with
  | some (some _) => true
  | _ => false

/-- The slots that hold a live item. -/
def liveSet (s : UnionFind) : Finset Nat :=
  (Finset.range s.nodes.length).filter (fun k => liveSlot s k)

/-- The slots that hold a live representative. -/
def rootSet (s : UnionFind) : Finset Nat :=
  (Finset.range s.nodes.length).filter (fun k => rootSlot s k)

/-- The representation invariant of the structure. -/
structure WF (s : UnionFind) : Prop where
  len_eq : s.sets.length = s.nodes.length
  node_heap : ∀ k a, s.nodes[k]? = some (some a) → ∃ n, s.heap a = some n ∧ n.id = k + 1
  heap_node : ∀ a n, s.heap a = some n → 1 ≤ n.id ∧ s.nodes[n.id - 1]? = some (some a)
  heap_brk : ∀ a n, s.heap a = some n → a < s.brk
  root_ok : ∀ a n, s.heap a = some n → n.parent = none →
    s.sets[n.id - 1]? = some (some a) ∧ ∃ i, n.info = some i ∧ InfoOK i
  child_ok : ∀ a n b, s.heap a = some n → n.parent = some b →
    s.sets[n.id - 1]? = some none ∧ n.info = none
  set_brk : ∀ (k a : Nat), s.sets[k]? = some (some a) → a < s.brk
  set_node : ∀ (k a : Nat) (n : UpNode), s.sets[k]? = some (some a) → s.heap a = some n →
    s.nodes[k]? = some (some a)
  free_nodup : s.free_ids.Nodup
  free_dead : ∀ x ∈ s.free_ids, 1 ≤ x ∧ ∀ a, s.nodes[x - 1]? ≠ some (some a)
  chain : ∀ a n, s.heap a = some n →
    ∃ r rn i k, Chain s.heap a r k ∧ s.heap r = some rn ∧ rn.info = some i ∧ k + 1 ≤ i.size
  members : ∀ r rn i, s.heap r = some rn → rn.info = some i →
    ∀ x, x ∈ i.members ↔ ∃ a n k, s.heap a = some n ∧ n.id = x ∧ Chain s.heap a r k
  sets_cnt : s.sets_amount = (rootSet s).card
  items_cnt : s.items_amount = (liveSet s).card

/-- Run a list of calls; the first call that does not return normally ends the
run with its outcome. -/
def run (s : UnionFind) : List Op → Res UnionFind
  | [] => .ok s
  | op :: ops => (step s op).bind fun s1 => run s1 ops

/-- Run a list of calls the way a caller that catches `uf_error` sees them: a
call that throws leaves the state as it was, undefined behaviour ends the run. -/
def runC (s : UnionFind) : List Op → Res UnionFind
  | [] => .ok s
  | op :: ops =>
    match step s op with
    | .ok s1 => runC s1 ops
    | .throw _ => runC s ops
    | .ub f => .ub f
    | .nofuel => .nofuel

/-- A call returned normally. -/
def Res.isOk {α : Type} : Res α → Bool
  | .ok _ => true
  | _ => false

/-- The undefined behaviour a call ran into. -/
def Res.fault {α : Type} : Res α → Option Fault
  | .ub f => some f
  | _ => none

/-- The exception a call threw. -/
def Res.thrown {α : Type} : Res α → Option uf_error
  | .throw e => some e
  | _ => none

/-- The calls of `MakeSetsTest` in `main.cpp`: 1000 times `MakeSet()`. -/
def MakeSetsTest : List Op := List.replicate 1000 (.MakeSet none)

/-- The calls of `JoinTest` in `main.cpp`: 22 times `MakeSet()`, then for
`i = 1 .. 22` the call `Join(2, i)` when `i` is even and `Join(1, i)` otherwise. -/
def JoinTest : List Op :=
  List.replicate 22 (.MakeSet none) ++
    (List.range 22).map (fun j => if (j + 1) % 2 = 0 then Op.Join 2 (j + 1) else Op.Join 1 (j + 1))

/-- Three fresh singleton sets `1`, `2`, `3` under the given policy. -/
def exThree (policy : POLICY) : UnionFind :=
  runD (UnionFind.create policy) [.MakeSet none, .MakeSet none, .MakeSet none]

/-- The sets `{1}` and `{2, 3}` under the given policy. -/
def exPair (policy : POLICY) : UnionFind :=
  runD (UnionFind.create policy) [.MakeSet none, .MakeSet none, .MakeSet none, .Join 2 3]

/-- The call is a `RemoveSet`. -/
def Op.isRemoveSet : Op → Bool
  | .RemoveSet _ => true
  | _ => false

/-- The call is a `MakeSet`. -/
def Op.isMakeSet : Op → Bool
  | .MakeSet _ => true
  | _ => false

/-- Run a list of calls and collect, in order, the identifiers the `MakeSet`
calls returned. -/
def runIds (s : UnionFind) : List Op → Res (List Nat × UnionFind)
  | [] => .ok ([], s)
  | .MakeSet data :: ops =>
    (MakeSet s data).bind fun r => (runIds r.2 ops).bind fun v => .ok (r.1 :: v.1, v.2)
  | .FindSet id :: ops => (FindSet s id).bind fun r => runIds r.2 ops
  | .Join p q :: ops => (Join s p q).bind fun s1 => runIds s1 ops
  | .RemoveSet set_id :: ops => (RemoveSet s set_id).bind fun s1 => runIds s1 ops

/-- The value a call returned. -/
def Res.val {α : Type} : Res α → Option α
  | .ok v => some v
  | _ => none

/-- Two sets `1`, `2`, then `RemoveSet(1)`: slot 1 is vacant, slot 2 is live. -/
def exRemoved : UnionFind :=
  runD (UnionFind.create .U_NONE) [.MakeSet none, .MakeSet none, .RemoveSet 1]

/-- The sets `{1}` and `{2, 3}`, then `RemoveSet(2)`: the two trailing slots
are trimmed while their identifiers sit in the free pool. -/
def exStale : UnionFind :=
  runD (exPair .U_NONE) [.RemoveSet 2]

/-- One fresh singleton set. -/
def exOne : UnionFind :=
  runD (UnionFind.create .U_NONE) [.MakeSet none]

/-- Sets `1` and `2`, then `Join(1, 2)`: item 2 is a child of the
representative 1 and has no aggregate any more. -/
def exChild : UnionFind :=
  runD (UnionFind.create .U_NONE) [.MakeSet none, .MakeSet none, .Join 1 2]

/-- Following `parent` from the object at `a` passes the objects of `l` (first
`a` itself), each of which has a parent, and ends at the parentless object `r`:
`l` lists the non-root objects of the parent chain of `a`, in the order the
walk of `FindSet` visits them. -/
inductive Path (h : Heap) : Nat → List Nat → Nat → Prop where
  | root {a : Nat} {n : UpNode} : h a = some n → n.parent = none → Path h a [] a
  | link {a b r : Nat} {l : List Nat} {n : UpNode} :
      h a = some n → n.parent = some b → Path h b l r → Path h a (a :: l) r

/-- Four sets under `U_OPTIMIZE`, joined into one tree of height 2: item 4 hangs
under item 3, which hangs under the representative 1. -/
def exDeep : UnionFind :=
  runD (UnionFind.create .U_OPTIMIZE)
    [.MakeSet none, .MakeSet none, .MakeSet none, .MakeSet none, .Join 1 2, .Join 3 4, .Join 1 3]

/-- The identifiers of the live items, in increasing order. -/
def liveIds (s : UnionFind) : List Nat :=
  (List.range (s.nodes.length + 1)).filter (ItemExists s)

/-- The identifiers of the live representatives, in increasing order. -/
def repIds (s : UnionFind) : List Nat :=
  (List.range (s.nodes.length + 1)).filter (isRep s)

/-- Every parent chain of `k` links ends at a root whose aggregate counts at
least `2 ^ k` items: the height bound of union by size. -/
def Balanced (s : UnionFind) : Prop :=
  ∀ (a r k : Nat) (rn : UpNode) (i : SetData),
    Chain s.heap a r k → s.heap r = some rn → rn.info = some i → 2 ^ k ≤ i.size

/-- Number of parent links between the live item `x` and its root (`0` when
`x` names no live item). -/
def depth (s : UnionFind) (x : Nat) : Nat :=
  if x = 0 then 0
  else
    match s.nodes[x - 1]? with
    | some (some a) =>
      match walk s.heap true s.nodes.length a with
      | .ok v => v.2.length
      | _ => 0
    | _ => 0

/-- Height of the tree of the representative `r`: the length of the longest
parent chain from a live item to `r`. -/
def height (s : UnionFind) (r : Nat) : Nat :=
  (((liveIds s).filter (fun x => decide (findId s x = some r))).map (depth s)).foldr max 0

/-! # Theorems -/

/-! ## Outcomes and the object store -/

@[simp] theorem Res.bind_ok {α β : Type} (v : α) (f : α → Res β) : (Res.ok v).bind f = f v := rfl
@[simp] theorem Res.bind_throw {α β : Type} (e : uf_error) (f : α → Res β) :
    (Res.throw e : Res α).bind f = .throw e := rfl
@[simp] theorem Res.bind_ub {α β : Type} (e : Fault) (f : α → Res β) :
    (Res.ub e : Res α).bind f = .ub e := rfl
@[simp] theorem Res.bind_nofuel {α β : Type} (f : α → Res β) :
    (Res.nofuel : Res α).bind f = .nofuel := rfl

theorem Res.bind_eq_ok {α β : Type} {r : Res α} {f : α → Res β} {w : β}
    (h : r.bind f = .ok w) : ∃ v, r = .ok v ∧ f v = .ok w := by
  cases r with
  | ok v => exact ⟨v, rfl, h⟩
  | throw e => simp at h
  | ub e => simp at h
  | nofuel => simp at h

@[simp] theorem Heap.write_same (h : Heap) (a : Nat) (v : Option UpNode) :
    h.write a v a = v := by simp [Heap.write]

theorem Heap.write_other (h : Heap) {a b : Nat} (v : Option UpNode) (hab : b ≠ a) :
    h.write a v b = h b := by simp [Heap.write, hab]

@[simp] theorem Heap.modify_same (h : Heap) (a : Nat) (f : UpNode → UpNode) :
    h.modify a f a = (h a).map f := by simp [Heap.modify]

theorem Heap.modify_other (h : Heap) {a b : Nat} (f : UpNode → UpNode) (hab : b ≠ a) :
    h.modify a f b = h b := by simp [Heap.modify, hab]

theorem deref_eq_ok {h : Heap} {a : Nat} {n : UpNode} (e : h a = some n) : deref h a = .ok n := by
  simp [deref, e]

/-! ## Parent chains -/

theorem Chain.src {h : Heap} {a r k : Nat} (c : Chain h a r k) : ∃ n, h a = some n := by
  cases c with
  | root e _ => exact ⟨_, e⟩
  | link e _ _ => exact ⟨_, e⟩

theorem Chain.dst {h : Heap} {a r k : Nat} (c : Chain h a r k) :
    ∃ n, h r = some n ∧ n.parent = none := by
  induction c with
  | root e p => exact ⟨_, e, p⟩
  | link _ _ _ ih => exact ih

theorem Chain.det {h : Heap} {a r k : Nat} (c : Chain h a r k) :
    ∀ {r1 k1 : Nat}, Chain h a r1 k1 → r1 = r ∧ k1 = k := by
  induction c with
  | root e p =>
    intro r1 k1 c1
    cases c1 with
    | root _ _ => exact ⟨rfl, rfl⟩
    | link e1 p1 _ => rw [e] at e1; cases e1; rw [p] at p1; cases p1
  | link e p _ ih =>
    intro r1 k1 c1
    cases c1 with
    | root e1 p1 => rw [e] at e1; cases e1; rw [p] at p1; cases p1
    | link e1 p1 c2 =>
      rw [e] at e1; cases e1; rw [p] at p1; cases p1
      obtain ⟨h1, h2⟩ := ih c2
      exact ⟨h1, by rw [h2]⟩

/-- A chain that starts at a parentless object stays there. -/
theorem Chain.of_root {h : Heap} {a r k : Nat} {n : UpNode} (c : Chain h a r k)
    (e : h a = some n) (p : n.parent = none) : r = a ∧ k = 0 :=
  (Chain.root e p).det c

/-- Chains only read the `parent` fields. -/
theorem Chain.congr {h h1 : Heap} (hp : ∀ a, (h1 a).map (·.parent) = (h a).map (·.parent))
    {a r k : Nat} (c : Chain h a r k) : Chain h1 a r k := by
  induction c with
  | @root a n e p =>
    have := hp a
    rw [e] at this
    cases e1 : h1 a with
    | none => simp [e1] at this
    | some m =>
      simp [e1] at this
      exact Chain.root e1 (by rw [this, p])
  | @link a b r k n e p _ ih =>
    have := hp a
    rw [e] at this
    cases e1 : h1 a with
    | none => simp [e1] at this
    | some m =>
      simp [e1] at this
      exact Chain.link e1 (by rw [this, p]) ih

/-- A fresh object does not disturb the chains that exist. -/
theorem Chain.write_fresh {h : Heap} {a0 : Nat} (v : Option UpNode) (hf : h a0 = none)
    {a r k : Nat} (c : Chain h a r k) : Chain (h.write a0 v) a r k := by
  induction c with
  | @root a n e p =>
    have : a ≠ a0 := by rintro rfl; rw [hf] at e; cases e
    exact Chain.root (by rw [Heap.write_other _ _ this]; exact e) p
  | @link a b r k n e p _ ih =>
    have : a ≠ a0 := by rintro rfl; rw [hf] at e; cases e
    exact Chain.link (by rw [Heap.write_other _ _ this]; exact e) p ih

/-- Hanging the root `y` under the root `x`: chains that ended at `y` go one
step further, the others are untouched. -/
theorem Chain.attach {h h1 : Heap} {x y : Nat}
    (hx : (h1 x).map (·.parent) = some none)
    (hy : (h1 y).map (·.parent) = some (some x))
    (hy0 : (h y).map (·.parent) = some none)
    (ho : ∀ a, a ≠ y → (h1 a).map (·.parent) = (h a).map (·.parent))
    {a r k : Nat} (c : Chain h a r k) :
    (r = y → Chain h1 a x (k + 1)) ∧ (r ≠ y → Chain h1 a r k) := by
  have rootx : Chain h1 x x 0 := by
    cases e : h1 x with
    | none => simp [e] at hx
    | some m => simp [e] at hx; exact Chain.root e hx
  induction c with
  | @root a n e p =>
    constructor
    · rintro rfl
      cases e1 : h1 a with
      | none => simp [e1] at hy
      | some m => simp [e1] at hy; exact Chain.link e1 hy rootx
    · intro hne
      have := ho a hne
      rw [e] at this
      cases e1 : h1 a with
      | none => simp [e1] at this
      | some m => simp [e1] at this; exact Chain.root e1 (by rw [this, p])
  | @link a b r k n e p _ ih =>
    have hne : a ≠ y := by
      rintro rfl
      rw [e] at hy0
      simp [p] at hy0
    have := ho a hne
    rw [e] at this
    cases e1 : h1 a with
    | none => simp [e1] at this
    | some m =>
      simp [e1] at this
      have pm : m.parent = some b := by rw [this, p]
      exact ⟨fun hr => Chain.link e1 pm (ih.1 hr), fun hr => Chain.link e1 pm (ih.2 hr)⟩

/-- Deleting the objects of one tree leaves the chains of the other trees. -/
theorem Chain.delete {h h1 : Heap} {rs : Nat} (D : Nat → Prop)
    (hkeep : ∀ a, ¬ D a → h1 a = h a) (hD : ∀ a, D a → ∃ k, Chain h a rs k)
    {a r k : Nat} (c : Chain h a r k) (hr : r ≠ rs) : Chain h1 a r k := by
  induction c with
  | @root a n e p =>
    have nd : ¬ D a := by
      intro d
      obtain ⟨k1, c1⟩ := hD a d
      exact hr (c1.det (Chain.root e p)).1
    exact Chain.root (by rw [hkeep a nd]; exact e) p
  | @link a b r k n e p c ih =>
    have nd : ¬ D a := by
      intro d
      obtain ⟨k1, c1⟩ := hD a d
      exact hr (c1.det (Chain.link e p c)).1
    exact Chain.link (by rw [hkeep a nd]; exact e) p (ih hr)

/-! ## The walk of `FindSet` -/

theorem shrink_apply (path : List Nat) (r : Nat) : ∀ (h : Heap) (b : Nat),
    shrink h path r b
      = if b ∈ path then (h b).map (fun n => { n with parent := some r }) else h b := by
  induction path with
  | nil => intro h b; simp [shrink]
  | cons p ps ih =>
    intro h b
    have : shrink h (p :: ps) r = shrink (h.modify p (fun n => { n with parent := some r })) ps r := rfl
    rw [this, ih]
    by_cases hb : b = p
    · subst hb
      by_cases hm : b ∈ ps
      · simp only [hm, if_true, Heap.modify_same, List.mem_cons, or_true]
        cases h b <;> rfl
      · simp [hm]
    · by_cases hm : b ∈ ps
      · simp [hm, Heap.modify_other _ _ hb]
      · simp [hm, hb, Heap.modify_other _ _ hb]

/-- With enough fuel the walk returns the root of the chain; every node it
pushed is a non-root node of that chain. -/
theorem walk_of_chain {h : Heap} (compress : Bool) {a r k : Nat} (c : Chain h a r k) :
    ∀ fuel, k < fuel → ∃ path, walk h compress fuel a = .ok (r, path) ∧
      (∀ p ∈ path, ∃ j, Chain h p r (j + 1)) ∧ (compress = false → path = []) := by
  induction c with
  | @root a n e p =>
    intro fuel hk
    obtain ⟨f, rfl⟩ : ∃ f, fuel = f + 1 := ⟨fuel - 1, by omega⟩
    exact ⟨[], by simp [walk, e, p], by simp, fun _ => rfl⟩
  | @link a b r k n e p c ih =>
    intro fuel hk
    obtain ⟨f, rfl⟩ : ∃ f, fuel = f + 1 := ⟨fuel - 1, by omega⟩
    obtain ⟨path, hw, hp, hc⟩ := ih f (by omega)
    refine ⟨if compress then a :: path else path, by simp [walk, e, p, hw], ?_, ?_⟩
    · intro q hq
      cases compress with
      | false => exact hp q (by simpa using hq)
      | true =>
        simp at hq
        rcases hq with rfl | hq
        · exact ⟨k, Chain.link e p c⟩
        · exact hp q hq
    · intro hcf
      subst hcf
      simpa using hc rfl

/-- Path compression keeps the root of every chain and does not lengthen it. -/
theorem Chain.compress {h : Heap} {path : List Nat} {r : Nat}
    (hpath : ∀ p ∈ path, ∃ j, Chain h p r (j + 1))
    {a r1 k : Nat} (c : Chain h a r1 k) : ∃ k1, k1 ≤ k ∧ Chain (shrink h path r) a r1 k1 := by
  induction c with
  | @root a n e p =>
    have hn : a ∉ path := by
      intro hm
      obtain ⟨j, cj⟩ := hpath a hm
      have := (cj.det (Chain.root e p)).2
      omega
    exact ⟨0, le_refl _, Chain.root (by rw [shrink_apply]; simp [hn, e]) p⟩
  | @link a b r1 k n e p c ih =>
    obtain ⟨k1, hk1, c1⟩ := ih
    by_cases hm : a ∈ path
    · obtain ⟨j, cj⟩ := hpath a hm
      have hr : r1 = r := ((cj.det (Chain.link e p c)).1)
      subst hr
      obtain ⟨rn, er, pr⟩ := c.dst
      have hn : r1 ∉ path := by
        intro hm1
        obtain ⟨j1, cj1⟩ := hpath r1 hm1
        have := (cj1.det (Chain.root er pr)).2
        omega
      have rootr : Chain (shrink h path r1) r1 r1 0 :=
        Chain.root (by rw [shrink_apply]; simp [hn, er]) pr
      refine ⟨1, by omega, Chain.link (n := { n with parent := some r1 }) ?_ rfl rootr⟩
      rw [shrink_apply]; simp [hm, e]
    · exact ⟨k1 + 1, by omega, Chain.link (by rw [shrink_apply]; simp [hm, e]) p c1⟩

/-! ## Slots -/

theorem liveSlot_iff {s : UnionFind} {k : Nat} :
    liveSlot s k = true ↔ ∃ a, s.nodes[k]? = some (some a) := by
  unfold liveSlot
  cases h : s.nodes[k]? with
  | none => simp
  | some o => cases o <;> simp

theorem rootSlot_iff {s : UnionFind} {k : Nat} :
    rootSlot s k = true ↔ (∃ a, s.nodes[k]? = some (some a)) ∧ ∃ b, s.sets[k]? = some (some b) := by
  unfold rootSlot
  rw [Bool.and_eq_true, liveSlot_iff]
  cases h : s.sets[k]? with
  | none => simp
  | some o => cases o <;> simp

theorem mem_liveSet {s : UnionFind} {k : Nat} :
    k ∈ liveSet s ↔ ∃ a, s.nodes[k]? = some (some a) := by
  unfold liveSet
  rw [Finset.mem_filter, liveSlot_iff, Finset.mem_range]
  constructor
  · exact fun h => h.2
  · rintro ⟨a, ha⟩
    refine ⟨?_, a, ha⟩
    by_contra hlt
    rw [List.getElem?_eq_none (by omega)] at ha
    cases ha

theorem mem_rootSet {s : UnionFind} {k : Nat} :
    k ∈ rootSet s ↔ (∃ a, s.nodes[k]? = some (some a)) ∧ ∃ b, s.sets[k]? = some (some b) := by
  unfold rootSet
  rw [Finset.mem_filter, rootSlot_iff, Finset.mem_range]
  constructor
  · exact fun h => h.2
  · rintro ⟨⟨a, ha⟩, hb⟩
    refine ⟨?_, ⟨a, ha⟩, hb⟩
    by_contra hlt
    rw [List.getElem?_eq_none (by omega)] at ha
    cases ha

/-! ## `MakeSet` -/

theorem MakeSet_post {s s1 : UnionFind} {data : Option Nat} {id : Nat} (wf : WF s)
    (h : MakeSet s data = .ok (id, s1)) : MakeSetPost s data id s1 := by
  unfold MakeSet at h
  cases hf : s.free_ids.getLast? with
  | none =>
    have hnil : s.free_ids = [] := List.getLast?_eq_none_iff.mp hf
    simp only [hf] at h
    simp at h
    obtain ⟨rfl, rfl⟩ := h
    refine ⟨by omega, ?_, rfl, rfl, ?_, ?_, ?_, ?_, ?_, Or.inr ⟨hnil, rfl⟩, rfl, rfl, rfl⟩
    · intro a; simp
    · intro k
      simp only [Nat.add_sub_cancel]
      by_cases hk : k = s.nodes.length
      · subst hk; simp
      · simp only [hk, if_false]
        by_cases hlt : k < s.nodes.length
        · rw [List.getElem?_append_left hlt]
        · rw [List.getElem?_eq_none (by simp; omega), List.getElem?_eq_none (by omega)]
    · intro k
      simp only [Nat.add_sub_cancel]
      by_cases hk : k = s.nodes.length
      · subst hk; rw [← wf.len_eq]; simp
      · simp only [hk, if_false]
        by_cases hlt : k < s.sets.length
        · rw [List.getElem?_append_left hlt]
        · rw [List.getElem?_eq_none (by simp; have := wf.len_eq; omega),
            List.getElem?_eq_none (by omega)]
    · simp
    · simp [wf.len_eq]
    · simp [hnil]
  | some x =>
    simp only [hf] at h
    have hx : x ∈ s.free_ids := by
      obtain ⟨ys, hys⟩ := List.getLast?_eq_some_iff.mp hf
      rw [hys]; simp
    obtain ⟨hx1, hxd⟩ := wf.free_dead x hx
    have hx0 : x ≠ 0 := by omega
    simp only [hx0, if_false] at h
    by_cases hpush : x - 1 = s.nodes.length
    · simp only [hpush, if_true] at h
      simp at h
      obtain ⟨rfl, rfl⟩ := h
      refine ⟨hx1, hxd, rfl, rfl, ?_, ?_, ?_, ?_, rfl, Or.inl hf, rfl, rfl, rfl⟩
      · intro k
        rw [hpush]
        by_cases hk : k = s.nodes.length
        · subst hk; simp
        · simp only [hk, if_false]
          by_cases hlt : k < s.nodes.length
          · rw [List.getElem?_append_left hlt]
          · rw [List.getElem?_eq_none (by simp; omega), List.getElem?_eq_none (by omega)]
      · intro k
        rw [hpush]
        by_cases hk : k = s.nodes.length
        · subst hk; rw [← wf.len_eq]; simp
        · simp only [hk, if_false]
          by_cases hlt : k < s.sets.length
          · rw [List.getElem?_append_left hlt]
          · rw [List.getElem?_eq_none (by simp; have := wf.len_eq; omega),
              List.getElem?_eq_none (by omega)]
      · simp; omega
      · simp [wf.len_eq]; omega
    · simp only [hpush, if_false] at h
      by_cases hin : x - 1 < s.nodes.length ∧ x - 1 < s.sets.length
      · simp only [hin, and_self, if_true] at h
        simp at h
        obtain ⟨rfl, rfl⟩ := h
        refine ⟨hx1, hxd, rfl, rfl, ?_, ?_, ?_, ?_, rfl, Or.inl hf, rfl, rfl, rfl⟩
        · intro k
          rw [List.getElem?_set]
          by_cases hk : k = x - 1
          · subst hk; simp [hin.1]
          · simp [hk, Ne.symm hk]
        · intro k
          rw [List.getElem?_set]
          by_cases hk : k = x - 1
          · subst hk; simp [hin.2]
          · simp [hk, Ne.symm hk]
        · simp; omega
        · simp; omega
      · simp only [hin, if_false] at h
        cases h

theorem InfoOK_create (id : Nat) : InfoOK (SetData.create id) := by
  refine ⟨by simp [SetData.create], by simp [SetData.create], 0, rfl, by simp [SetData.create]⟩

theorem WF.fresh {s : UnionFind} (wf : WF s) : s.heap s.brk = none := by
  cases e : s.heap s.brk with
  | none => rfl
  | some n => exact absurd (wf.heap_brk _ _ e) (lt_irrefl _)

/-- The invariant holds for the empty structure. -/
theorem WF.create (policy : POLICY) : WF (UnionFind.create policy) := by
  refine ⟨rfl, ?_, ?_, ?_, ?_, ?_, ?_, ?_, ?_, ?_, ?_, ?_, ?_, ?_⟩ <;>
    simp [UnionFind.create, rootSet, liveSet]

/-- The invariant is kept by a `MakeSet` that returns. -/
theorem WF.MakeSet {s s1 : UnionFind} {data : Option Nat} {id : Nat} (wf : WF s)
    (h : MakeSet s data = .ok (id, s1)) : WF s1 := by
  have P := MakeSet_post wf h
  have fresh := wf.fresh
  have hnew : s1.heap s.brk = some (UpNode.create id data) := by rw [P.heap_eq]; simp
  have hold : ∀ a n, s.heap a = some n → s1.heap a = some n := by
    intro a n e
    have : a ≠ s.brk := by rintro rfl; rw [fresh] at e; cases e
    rw [P.heap_eq, Heap.write_other _ _ this]; exact e
  have hcases : ∀ a n, s1.heap a = some n →
      (a = s.brk ∧ n = UpNode.create id data) ∨ (a ≠ s.brk ∧ s.heap a = some n) := by
    intro a n e
    by_cases ha : a = s.brk
    · subst ha; rw [hnew] at e; cases e; exact Or.inl ⟨rfl, rfl⟩
    · rw [P.heap_eq, Heap.write_other _ _ ha] at e; exact Or.inr ⟨ha, e⟩
  have hslot : ∀ a n, s.heap a = some n → n.id - 1 ≠ id - 1 := by
    intro a n e heq
    have := (wf.heap_node a n e).2
    rw [heq] at this
    exact P.vacant a this
  have htrans : ∀ {a r k}, Chain s.heap a r k → Chain s1.heap a r k := by
    intro a r k c
    rw [P.heap_eq]; exact c.write_fresh _ fresh
  have hroot0 : Chain s1.heap s.brk s.brk 0 := Chain.root hnew rfl
  have hback : ∀ {a n r k}, s.heap a = some n → Chain s1.heap a r k → Chain s.heap a r k := by
    intro a n r k e c
    obtain ⟨r0, rn, i, k0, c0, -⟩ := wf.chain a n e
    obtain ⟨h1, h2⟩ := (htrans c0).det c
    subst h1; subst h2; exact c0
  refine ⟨?_, ?_, ?_, ?_, ?_, ?_, ?_, ?_, ?_, ?_, ?_, ?_, ?_, ?_⟩
  · rw [P.len_nodes, P.len_sets, wf.len_eq]
  · intro k a hk
    rw [P.nodes_eq] at hk
    by_cases hkid : k = id - 1
    · simp only [hkid, if_true] at hk
      cases hk
      exact ⟨_, hnew, by simp [UpNode.create]; have := P.id_pos; omega⟩
    · simp only [hkid, if_false] at hk
      obtain ⟨n, e, hid⟩ := wf.node_heap k a hk
      exact ⟨n, hold a n e, hid⟩
  · intro a n e
    rcases hcases a n e with ⟨rfl, rfl⟩ | ⟨ha, e0⟩
    · refine ⟨P.id_pos, ?_⟩
      rw [P.nodes_eq]; simp [UpNode.create]
    · obtain ⟨h1, h2⟩ := wf.heap_node a n e0
      refine ⟨h1, ?_⟩
      rw [P.nodes_eq]; simp only [hslot a n e0, if_false]; exact h2
  · intro a n e
    rw [P.brk_eq]
    rcases hcases a n e with ⟨rfl, rfl⟩ | ⟨ha, e0⟩
    · omega
    · have := wf.heap_brk a n e0; omega
  · intro a n e p
    rcases hcases a n e with ⟨rfl, rfl⟩ | ⟨ha, e0⟩
    · refine ⟨?_, _, rfl, InfoOK_create id⟩
      rw [P.sets_eq]; simp [UpNode.create]
    · obtain ⟨h1, h2⟩ := wf.root_ok a n e0 p
      refine ⟨?_, h2⟩
      rw [P.sets_eq]; simp only [hslot a n e0, if_false]; exact h1
  · intro a n b e p
    rcases hcases a n e with ⟨rfl, rfl⟩ | ⟨ha, e0⟩
    · simp [UpNode.create] at p
    · obtain ⟨h1, h2⟩ := wf.child_ok a n b e0 p
      refine ⟨?_, h2⟩
      rw [P.sets_eq]; simp only [hslot a n e0, if_false]; exact h1
  · intro k a hk
    rw [P.brk_eq]
    rw [P.sets_eq] at hk
    by_cases hkid : k = id - 1
    · simp only [hkid, if_true] at hk
      cases hk; omega
    · simp only [hkid, if_false] at hk
      have := wf.set_brk k a hk; omega
  · intro k a n hk e
    rw [P.sets_eq] at hk
    rw [P.nodes_eq]
    by_cases hkid : k = id - 1
    · simp only [hkid, if_true] at hk ⊢
      exact hk
    · simp only [hkid, if_false] at hk ⊢
      rcases hcases a n e with ⟨rfl, -⟩ | ⟨ha, e0⟩
      · exact absurd (wf.set_brk k _ hk) (lt_irrefl _)
      · exact wf.set_node k a n hk e0
  · rw [P.free_eq]
    exact wf.free_nodup.sublist (List.dropLast_sublist _)
  · intro x hx
    rw [P.free_eq] at hx
    obtain ⟨h1, h2⟩ := wf.free_dead x (List.dropLast_subset _ hx)
    refine ⟨h1, ?_⟩
    intro a
    rw [P.nodes_eq]
    by_cases hxid : x - 1 = id - 1
    · exfalso
      have hxe : x = id := by have := P.id_pos; omega
      subst hxe
      rcases P.id_eq with hl | ⟨hnil, -⟩
      · obtain ⟨ys, hys⟩ := List.getLast?_eq_some_iff.mp hl
        have nd := wf.free_nodup
        rw [hys] at nd hx
        rw [List.dropLast_concat] at hx
        rw [List.nodup_append] at nd
        exact nd.2.2 hx (by simp)
      · rw [hnil] at hx; simp at hx
    · simp only [hxid, if_false]; exact h2 a
  · intro a n e
    rcases hcases a n e with ⟨rfl, rfl⟩ | ⟨ha, e0⟩
    · exact ⟨s.brk, _, _, 0, hroot0, hnew, rfl, by simp [SetData.create]⟩
    · obtain ⟨r, rn, i, k, c, er, ei, hk⟩ := wf.chain a n e0
      exact ⟨r, rn, i, k, htrans c, hold r rn er, ei, hk⟩
  · intro r rn i er ei x
    rcases hcases r rn er with ⟨rfl, rfl⟩ | ⟨hr, er0⟩
    · simp only [UpNode.create, Option.some.injEq] at ei
      subst ei
      simp only [SetData.create, List.mem_singleton]
      constructor
      · rintro rfl
        exact ⟨s.brk, _, 0, hnew, rfl, hroot0⟩
      · rintro ⟨a, n, k, e, hid, c⟩
        rcases hcases a n e with ⟨rfl, rfl⟩ | ⟨ha, e0⟩
        · exact hid.symm
        · exfalso
          have c0 := hback e0 c
          obtain ⟨m, em, -⟩ := c0.dst
          rw [fresh] at em; cases em
    · rw [wf.members r rn i er0 ei x]
      constructor
      · rintro ⟨a, n, k, e, hid, c⟩
        exact ⟨a, n, k, hold a n e, hid, htrans c⟩
      · rintro ⟨a, n, k, e, hid, c⟩
        rcases hcases a n e with ⟨rfl, rfl⟩ | ⟨ha, e0⟩
        · exact absurd (hroot0.det c).1 hr
        · exact ⟨a, n, k, e0, hid, hback e0 c⟩
  · rw [P.sets_amount_eq, wf.sets_cnt]
    have : rootSet s1 = insert (id - 1) (rootSet s) := by
      ext k
      rw [Finset.mem_insert, mem_rootSet, mem_rootSet, P.nodes_eq, P.sets_eq]
      by_cases hk : k = id - 1
      · simp [hk]
      · simp [hk]
    rw [this, Finset.card_insert_of_not_mem]
    rw [mem_rootSet]
    rintro ⟨⟨a, ha⟩, -⟩
    exact P.vacant a ha
  · rw [P.items_amount_eq, wf.items_cnt]
    have : liveSet s1 = insert (id - 1) (liveSet s) := by
      ext k
      rw [Finset.mem_insert, mem_liveSet, mem_liveSet, P.nodes_eq]
      by_cases hk : k = id - 1
      · simp [hk]
      · simp [hk]
    rw [this, Finset.card_insert_of_not_mem]
    rw [mem_liveSet]
    rintro ⟨a, ha⟩
    exact P.vacant a ha

/-! ## `FindSet` -/

theorem WF.info_root {s : UnionFind} (wf : WF s) {a : Nat} {n : UpNode} {i : SetData}
    (e : s.heap a = some n) (ei : n.info = some i) : n.parent = none := by
  cases p : n.parent with
  | none => rfl
  | some b =>
    have := (wf.child_ok a n b e p).2
    rw [ei] at this; cases this

theorem WF.info_ok {s : UnionFind} (wf : WF s) {a : Nat} {n : UpNode} {i : SetData}
    (e : s.heap a = some n) (ei : n.info = some i) : InfoOK i := by
  obtain ⟨-, j, hj, ok⟩ := wf.root_ok a n e (wf.info_root e ei)
  rw [ei] at hj; cases hj; exact ok

/-- A set is not larger than the slot array. -/
theorem WF.size_le {s : UnionFind} (wf : WF s) {a : Nat} {n : UpNode} {i : SetData}
    (e : s.heap a = some n) (ei : n.info = some i) : i.size ≤ s.nodes.length := by
  obtain ⟨nd, hsz, -⟩ := wf.info_ok e ei
  rw [hsz, ← List.toFinset_card_of_nodup nd]
  have hsub : i.members.toFinset ⊆ Finset.Icc 1 s.nodes.length := by
    intro x hx
    rw [List.mem_toFinset, wf.members a n i e ei x] at hx
    obtain ⟨b, m, k, eb, hid, -⟩ := hx
    obtain ⟨h1, h2⟩ := wf.heap_node b m eb
    rw [Finset.mem_Icc]
    subst hid
    refine ⟨h1, ?_⟩
    by_contra hlt
    rw [List.getElem?_eq_none (by omega)] at h2
    cases h2
  calc i.members.toFinset.card ≤ (Finset.Icc 1 s.nodes.length).card := Finset.card_le_card hsub
    _ = s.nodes.length := by simp

/-- What `FindSet` does on a live item: it returns a copy of the root of the
item and compresses the walked path. -/
theorem FindSet_live {s : UnionFind} (wf : WF s) {x a : Nat} (hx : 1 ≤ x)
    (ha : s.nodes[x - 1]? = some (some a)) :
    ∃ r rn i k path, Chain s.heap a r k ∧ s.heap r = some rn ∧ rn.info = some i ∧
      (∀ p ∈ path, ∃ j, Chain s.heap p r (j + 1)) ∧
      (¬ (s.policy = .U_OPTIMIZE ∨ s.policy = .U_BOTH) → path = []) ∧
      FindSet s x = .ok ({ id := rn.id, parent := none, data := rn.data, info := some i.copy },
        { s with heap := shrink s.heap path r }) := by
  obtain ⟨n, e, -⟩ := wf.node_heap _ _ ha
  obtain ⟨r, rn, i, k, c, er, ei, hk⟩ := wf.chain a n e
  have hsz := wf.size_le er ei
  obtain ⟨path, hw, hp, hc⟩ :=
    walk_of_chain (decide (s.policy = .U_OPTIMIZE ∨ s.policy = .U_BOTH)) c s.nodes.length
      (by omega)
  refine ⟨r, rn, i, k, path, c, er, ei, hp, ?_, ?_⟩
  · intro hnp
    exact hc (by simpa using hnp)
  · have hlt : x - 1 < s.nodes.length := by
      by_contra hlt
      rw [List.getElem?_eq_none (by omega)] at ha
      cases ha
    have hguard : ¬ (s.nodes.length < x ∨ x = 0) := by omega
    have hrp : r ∉ path := by
      intro hm
      obtain ⟨j, cj⟩ := hp r hm
      have := (cj.det (Chain.root er (wf.info_root er ei))).2
      omega
    have hroot : shrink s.heap path r r = some rn := by
      rw [shrink_apply]; simp [hrp, er]
    unfold FindSet
    simp only [hguard, if_false, ha, hw, Res.bind_ok, deref_eq_ok hroot, UpNode.copy, ei]

theorem FindSet_ok_live {s s1 : UnionFind} {x : Nat} {res : UpNode}
    (h : FindSet s x = .ok (res, s1)) : 1 ≤ x ∧ ∃ a, s.nodes[x - 1]? = some (some a) := by
  unfold FindSet at h
  by_cases hg : s.nodes.length < x ∨ x = 0
  · simp [hg] at h
  · simp only [hg, if_false] at h
    refine ⟨by omega, ?_⟩
    cases hn : s.nodes[x - 1]? with
    | none => simp [hn] at h
    | some o =>
      cases o with
      | none => simp [hn] at h
      | some a => exact ⟨a, rfl⟩

/-- The invariant is kept by path compression. -/
theorem WF.shrink {s : UnionFind} (wf : WF s) {path : List Nat} {r : Nat}
    (hp : ∀ p ∈ path, ∃ j, Chain s.heap p r (j + 1)) :
    WF { s with heap := UNION.shrink s.heap path r } := by
  have hcases : ∀ a n1, UNION.shrink s.heap path r a = some n1 →
      ∃ n, s.heap a = some n ∧ n1.id = n.id ∧ n1.info = n.info ∧
        (n1.parent = none → n.parent = none) ∧ (∀ b, n1.parent = some b → ∃ c, n.parent = some c) := by
    intro a n1 e
    rw [shrink_apply] at e
    by_cases hm : a ∈ path
    · simp only [hm, if_true] at e
      cases e0 : s.heap a with
      | none => simp [e0] at e
      | some n =>
        simp [e0] at e
        subst e
        obtain ⟨j, cj⟩ := hp a hm
        refine ⟨n, rfl, rfl, rfl, by simp, ?_⟩
        intro b _
        cases cj with
        | link e2 p2 _ => rw [e0] at e2; cases e2; exact ⟨_, p2⟩
    · simp only [hm, if_false] at e
      exact ⟨n1, e, rfl, rfl, id, fun b hb => ⟨b, hb⟩⟩
  have hkeep : ∀ a n, s.heap a = some n → n.parent = none →
      UNION.shrink s.heap path r a = some n := by
    intro a n e p
    have hm : a ∉ path := by
      intro hm
      obtain ⟨j, cj⟩ := hp a hm
      have := (cj.det (Chain.root e p)).2
      omega
    rw [shrink_apply]; simp [hm, e]
  have hback : ∀ {a n r1 k}, s.heap a = some n → Chain (UNION.shrink s.heap path r) a r1 k →
      ∃ k0, Chain s.heap a r1 k0 := by
    intro a n r1 k e c
    obtain ⟨r0, rn, i, k0, c0, -⟩ := wf.chain a n e
    obtain ⟨k1, -, c1⟩ := c0.compress hp
    obtain ⟨h1, -⟩ := c1.det c
    subst h1; exact ⟨k0, c0⟩
  refine ⟨wf.len_eq, ?_, ?_, ?_, ?_, ?_, wf.set_brk, ?_, wf.free_nodup, wf.free_dead, ?_, ?_,
    wf.sets_cnt, wf.items_cnt⟩
  · intro k a hk
    obtain ⟨n, e, hid⟩ := wf.node_heap k a hk
    show ∃ n, UNION.shrink s.heap path r a = some n ∧ n.id = k + 1
    rw [shrink_apply]
    by_cases hm : a ∈ path
    · simp [hm, e, hid]
    · simp [hm, e, hid]
  · intro a n1 e
    obtain ⟨n, e0, hid, -⟩ := hcases a n1 e
    rw [hid]; exact wf.heap_node a n e0
  · intro a n1 e
    obtain ⟨n, e0, -⟩ := hcases a n1 e
    exact wf.heap_brk a n e0
  · intro a n1 e p
    obtain ⟨n, e0, hid, hinfo, hp0, -⟩ := hcases a n1 e
    rw [hid, hinfo]; exact wf.root_ok a n e0 (hp0 p)
  · intro a n1 b e p
    obtain ⟨n, e0, hid, hinfo, -, hp1⟩ := hcases a n1 e
    obtain ⟨c, hc⟩ := hp1 b p
    rw [hid, hinfo]; exact wf.child_ok a n c e0 hc
  · intro k a n1 hk e
    obtain ⟨n, e0, -⟩ := hcases a n1 e
    exact wf.set_node k a n hk e0
  · intro a n1 e
    obtain ⟨n, e0, -⟩ := hcases a n1 e
    obtain ⟨r0, rn, i, k, c, er, ei, hk⟩ := wf.chain a n e0
    obtain ⟨k1, hk1, c1⟩ := c.compress hp
    exact ⟨r0, rn, i, k1, c1, hkeep r0 rn er (wf.info_root er ei), ei, by omega⟩
  · intro r1 rn1 i er ei x
    obtain ⟨rn, er0, hid, hinfo, -⟩ := hcases r1 rn1 er
    rw [hinfo] at ei
    rw [wf.members r1 rn i er0 ei x]
    constructor
    · rintro ⟨a, n, k, e, hx, c⟩
      obtain ⟨k1, -, c1⟩ := c.compress hp
      have : ∃ n1, UNION.shrink s.heap path r a = some n1 ∧ n1.id = n.id := by
        rw [shrink_apply]
        by_cases hm : a ∈ path
        · simp [hm, e]
        · simp [hm, e]
      obtain ⟨n1, e1, hid1⟩ := this
      exact ⟨a, n1, k1, e1, by rw [hid1, hx], c1⟩
    · rintro ⟨a, n1, k, e, hx, c⟩
      obtain ⟨n, e0, hid0, -⟩ := hcases a n1 e
      obtain ⟨k0, c0⟩ := hback e0 c
      exact ⟨a, n, k0, e0, by rw [← hid0, hx], c0⟩

/-- The invariant is kept by a `FindSet` that returns. -/
theorem WF.FindSet {s s1 : UnionFind} {x : Nat} {res : UpNode} (wf : WF s)
    (h : FindSet s x = .ok (res, s1)) : WF s1 := by
  obtain ⟨hx, a, ha⟩ := FindSet_ok_live h
  obtain ⟨r, rn, i, k, path, -, -, -, hp, -, hf⟩ := FindSet_live wf hx ha
  rw [hf] at h
  simp only [Res.ok.injEq, Prod.mk.injEq] at h
  rw [← h.2]
  exact wf.shrink hp

/-! ## `Join` -/

theorem derefInfo_eq_ok {n : UpNode} {i : SetData} (e : n.info = some i) : derefInfo n = .ok i := by
  simp [derefInfo, e]

theorem vset_eq_ok {v : List (Option Nat)} {id : Nat} (x : Option Nat) (h1 : 1 ≤ id)
    (h2 : id - 1 < v.length) : vset v id x = .ok (v.set (id - 1) x) := by
  have : id ≠ 0 := by omega
  simp [vset, this, h2]

theorem SetData.Join_spliced {xi yi : SetData} (hx : InfoOK xi) (hy : InfoOK yi) :
    ∃ xi1, SetData.Join xi yi = .ok xi1 ∧ xi1.set_id = xi.set_id ∧
      xi1.size = xi.size + yi.size ∧ xi1.members = xi.members ++ yi.members ∧
      xi1.last = some (xi.members.length + yi.members.length - 1) := by
  obtain ⟨-, -, j, hj, hjl⟩ := hx
  obtain ⟨-, -, j1, hj1, hjl1⟩ := hy
  have hlt : j < xi.members.length := by omega
  refine ⟨{ set_id := xi.set_id, size := xi.size + yi.size
            members := xi.members.take (j + 1) ++ yi.members
            last := yi.last.map (fun j1 => j + 1 + j1) },
    by simp only [SetData.Join, hj, hlt, if_true], rfl, rfl, ?_, ?_⟩
  · simp only
    rw [hjl, List.take_length]
  · simp only [hj1, Option.map_some']
    congr 1; omega

/-- The store after the three assignments of `Join.link` to `x` and `y`. -/
theorem link_heap {h : Heap} {x y : Nat} {xn yn : UpNode} (xi1 : SetData) (xy : x ≠ y)
    (hx : h x = some xn) (hy : h y = some yn) :
    (((h.modify y (fun n => { n with parent := some x })).modify x
        (fun n => { n with info := some xi1 })).modify y (fun n => { n with info := none })) x
      = some { xn with info := some xi1 } ∧
    (((h.modify y (fun n => { n with parent := some x })).modify x
        (fun n => { n with info := some xi1 })).modify y (fun n => { n with info := none })) y
      = some { yn with parent := some x, info := none } ∧
    ∀ c, c ≠ x → c ≠ y →
      (((h.modify y (fun n => { n with parent := some x })).modify x
        (fun n => { n with info := some xi1 })).modify y (fun n => { n with info := none })) c
      = h c := by
  refine ⟨?_, ?_, ?_⟩
  · simp [Heap.modify, xy, hx]
  · simp [Heap.modify, xy, Ne.symm xy, hy]
  · intro c hcx hcy
    simp [Heap.modify, hcx, hcy]

theorem swap_heap {h : Heap} {x y : Nat} {X Y : UpNode} (g1 g2 : UpNode → UpNode) (xy : x ≠ y)
    (hx : h x = some X) (hy : h y = some Y) :
    ((h.modify x g1).modify y g2) x = some (g1 X) ∧ ((h.modify x g1).modify y g2) y = some (g2 Y) ∧
    ∀ c, c ≠ x → c ≠ y → ((h.modify x g1).modify y g2) c = h c := by
  refine ⟨?_, ?_, ?_⟩
  · simp [Heap.modify, xy, hx]
  · simp [Heap.modify, Ne.symm xy, hy]
  · intro c hcx hcy
    simp [Heap.modify, hcx, hcy]

theorem getElem?_set3 (v : List (Option Nat)) {i j : Nat} (hi : i < v.length) (hj : j < v.length)
    (hij : i ≠ j) (a b : Option Nat) (k : Nat) :
    ((v.set i a).set j b)[k]? = if k = i then some a else if k = j then some b else v[k]? := by
  rw [List.getElem?_set, List.getElem?_set]
  by_cases h1 : k = i
  · subst h1; simp [hi, Ne.symm hij]
  · by_cases h2 : k = j
    · subst h2; simp [hj, h1]
    · simp [h1, h2, Ne.symm h1, Ne.symm h2]

theorem Join.link_post {s : UnionFind} (wf : WF s) {p q a b x y : Nat} {xn yn : UpNode}
    {xi yi : SetData} (xy : x ≠ y) (hx : s.heap x = some xn) (hy : s.heap y = some yn)
    (xinfo : xn.info = some xi) (yinfo : yn.info = some yi)
    (hab : (a = x ∧ b = y ∧ xn.id = p ∧ yn.id = q ∧ yi.size ≤ xi.size) ∨
      (a = y ∧ b = x ∧ xn.id = q ∧ yn.id = p ∧ yi.size < xi.size)) :
    ∃ s1, Join.link s a b x y = .ok s1 ∧
      ∃ xn1 yn1 xi1, JoinPost s s1 p q x y xn yn xn1 yn1 xi yi xi1 := by
  have xroot := wf.info_root hx xinfo
  have yroot := wf.info_root hy yinfo
  obtain ⟨xi1, hj, hsid, hsz, hmem, hlast⟩ :=
    SetData.Join_spliced (wf.info_ok hx xinfo) (wf.info_ok hy yinfo)
  obtain ⟨hxid, hxslot⟩ := wf.heap_node x xn hx
  obtain ⟨hyid, hyslot⟩ := wf.heap_node y yn hy
  have hxlt : xn.id - 1 < s.nodes.length := by
    by_contra hlt
    rw [List.getElem?_eq_none (by omega)] at hxslot; cases hxslot
  have hylt : yn.id - 1 < s.nodes.length := by
    by_contra hlt
    rw [List.getElem?_eq_none (by omega)] at hyslot; cases hyslot
  have hlen := wf.len_eq
  have hxs := (wf.root_ok x xn hx xroot).1
  have hys := (wf.root_ok y yn hy yroot).1
  have hslot : xn.id - 1 ≠ yn.id - 1 := by
    intro he
    rw [he, hyslot] at hxslot
    simp only [Option.some.injEq] at hxslot
    exact xy hxslot.symm
  have hcnt : 1 ≤ s.sets_amount := by
    rw [wf.sets_cnt]
    exact Finset.card_pos.mpr ⟨xn.id - 1, mem_rootSet.mpr ⟨⟨x, hxslot⟩, ⟨x, hxs⟩⟩⟩
  have hdec : dec s.sets_amount + 1 = s.sets_amount := by
    unfold dec; have : s.sets_amount ≠ 0 := by omega
    simp [this]; omega
  have e1x : s.heap.modify y (fun n => { n with parent := some x }) x = some xn := by
    rw [Heap.modify_other _ _ xy]; exact hx
  have e1y : s.heap.modify y (fun n => { n with parent := some x }) y
      = some { yn with parent := some x } := by
    rw [Heap.modify_same, hy]; rfl
  obtain ⟨e3x, e3y, e3o⟩ := link_heap xi1 xy hx hy
  unfold Join.link
  simp only [deref_eq_ok e1x, deref_eq_ok e1y, Res.bind_ok, derefInfo_eq_ok xinfo,
    derefInfo_eq_ok (n := { yn with parent := some x }) yinfo, hj]
  by_cases hpol : s.policy = .U_SENSITIVE_ORDER ∨ s.policy = .U_BOTH
  · simp only [hpol, if_true]
    rcases hab with ⟨rfl, rfl, h1, h2, h3⟩ | ⟨rfl, rfl, h1, h2, h3⟩
    · simp only [deref_eq_ok e3x, deref_eq_ok e3y, Res.bind_ok]
      obtain ⟨e5x, e5y, e5o⟩ := swap_heap
        (fun n => { n with id := xn.id, data := xn.data })
        (fun n => { n with id := yn.id, data := yn.data }) xy e3x e3y
      unfold Join.finish
      simp only [deref_eq_ok e5y, Res.bind_ok, vset_eq_ok (some a) hxid hxlt,
        vset_eq_ok (v := s.nodes.set (xn.id - 1) (some a)) (some b) hyid (by simpa using hylt),
        vset_eq_ok (some a) hxid (hlen ▸ hxlt),
        vset_eq_ok (v := s.sets.set (xn.id - 1) (some a)) (some b) hyid
          (by simpa [hlen] using hylt),
        vset_eq_ok (v := (s.sets.set (xn.id - 1) (some a)).set (yn.id - 1) (some b)) none hyid
          (by simpa [hlen] using hylt)]
      refine ⟨_, rfl, { xn with info := some xi1 }, { yn with parent := some a, info := none },
        xi1, ?_⟩
      refine ⟨xy, hx, hy, xroot, yroot, xinfo, yinfo, Or.inl ⟨h1, h2, h3⟩, e5x, e5y,
        fun c hca hcb => (e5o c hca hcb).trans (e3o c hca hcb), xroot, rfl, rfl, rfl,
        hsid, hsz, hmem, hlast, Or.inl ⟨rfl, rfl, rfl, rfl⟩, fun _ => ⟨h1, h2⟩,
        fun _ => ⟨rfl, rfl⟩, ?_, ?_, by simp, by simp, rfl, rfl, rfl, hdec, rfl⟩
      · intro k
        exact getElem?_set3 s.nodes hxlt hylt hslot _ _ k
      · intro k
        show (((s.sets.set (xn.id - 1) (some a)).set (yn.id - 1) (some b)).set (yn.id - 1)
          none)[k]? = _
        rw [List.getElem?_set, getElem?_set3 s.sets (hlen ▸ hxlt) (hlen ▸ hylt) hslot]
        by_cases k1 : k = xn.id - 1
        · subst k1; simp [Ne.symm hslot]
        · by_cases k2 : k = yn.id - 1
          · subst k2; simp [hlen, hylt, k1]
          · simp [k1, k2, Ne.symm k2]
    · simp only [deref_eq_ok e3x, deref_eq_ok e3y, Res.bind_ok]
      obtain ⟨e5x, e5y, e5o⟩ := swap_heap
        (fun n => { n with id := yn.id, data := yn.data })
        (fun n => { n with id := xn.id, data := xn.data }) xy e3x e3y
      unfold Join.finish
      simp only [deref_eq_ok e5y, Res.bind_ok, vset_eq_ok (some b) hyid hylt,
        vset_eq_ok (v := s.nodes.set (yn.id - 1) (some b)) (some a) hxid (by simpa using hxlt),
        vset_eq_ok (some b) hyid (hlen ▸ hylt),
        vset_eq_ok (v := s.sets.set (yn.id - 1) (some b)) (some a) hxid
          (by simpa [hlen] using hxlt),
        vset_eq_ok (v := (s.sets.set (yn.id - 1) (some b)).set (xn.id - 1) (some a)) none hxid
          (by simpa [hlen] using hxlt)]
      refine ⟨_, rfl, { xn with info := some xi1, id := yn.id, data := yn.data },
        { yn with parent := some b, info := none, id := xn.id, data := xn.data }, xi1, ?_⟩
      refine ⟨xy, hx, hy, xroot, yroot, xinfo, yinfo, Or.inr ⟨h1, h2, h3⟩, e5x, e5y,
        fun c hca hcb => (e5o c hca hcb).trans (e3o c hca hcb), xroot, rfl, rfl, rfl,
        hsid, hsz, hmem, hlast, Or.inr ⟨rfl, rfl, rfl, rfl⟩, fun _ => ⟨h2, h1⟩,
        fun h => absurd hpol h, ?_, ?_, by simp, by simp, rfl, rfl, rfl, hdec, rfl⟩
      · intro k
        exact getElem?_set3 s.nodes hylt hxlt (Ne.symm hslot) _ _ k
      · intro k
        show (((s.sets.set (yn.id - 1) (some b)).set (xn.id - 1) (some a)).set (xn.id - 1)
          none)[k]? = _
        rw [List.getElem?_set, getElem?_set3 s.sets (hlen ▸ hylt) (hlen ▸ hxlt) (Ne.symm hslot)]
        by_cases k1 : k = yn.id - 1
        · subst k1; simp [hslot]
        · by_cases k2 : k = xn.id - 1
          · subst k2; simp [hlen, hxlt, k1]
          · simp [k1, k2, Ne.symm k2]
  · simp only [hpol, if_false]
    unfold Join.finish
    simp only [deref_eq_ok e3y, Res.bind_ok,
      vset_eq_ok none hyid (by rw [hlen]; exact hylt)]
    refine ⟨_, rfl, { xn with info := some xi1 }, { yn with parent := some x, info := none },
      xi1, ?_⟩
    refine ⟨xy, hx, hy, xroot, yroot, xinfo, yinfo, ?_, e3x, e3y, e3o, xroot, rfl, rfl, rfl,
      hsid, hsz, hmem, hlast, Or.inl ⟨rfl, rfl, rfl, rfl⟩, fun h => absurd h hpol,
      fun _ => ⟨rfl, rfl⟩, ?_, ?_, rfl, by simp, rfl, rfl, rfl, hdec, rfl⟩
    · rcases hab with ⟨-, -, h1, h2, h3⟩ | ⟨-, -, h1, h2, h3⟩
      · exact Or.inl ⟨h1, h2, h3⟩
      · exact Or.inr ⟨h1, h2, h3⟩
    · intro k
      show s.nodes[k]? = _
      by_cases h1 : k = xn.id - 1
      · simp [h1, hxslot]
      · by_cases h2 : k = yn.id - 1
        · simp [h2, hyslot, Ne.symm hslot]
        · simp [h1, h2]
    · intro k
      show (s.sets.set (yn.id - 1) none)[k]? = _
      rw [List.getElem?_set]
      by_cases h1 : k = xn.id - 1
      · subst h1; simp [Ne.symm hslot, hxs]
      · by_cases h2 : k = yn.id - 1
        · subst h2; simp [hlen, hylt, h1]
        · simp [h1, h2, Ne.symm h2]

theorem liveNode_eq_some {s : UnionFind} {p : Nat} {n : UpNode} :
    liveNode s p = some n ↔ ∃ a, 1 ≤ p ∧ s.nodes[p - 1]? = some (some a) ∧ s.heap a = some n := by
  unfold liveNode
  by_cases hp : p = 0
  · simp [hp]
  · simp only [hp, if_false]
    have hp1 : 1 ≤ p := by omega
    cases hn : s.nodes[p - 1]? with
    | none => simp
    | some o =>
      cases o with
      | none => simp
      | some a => simp [hp1]

theorem isRep_iff {s : UnionFind} {p : Nat} :
    isRep s p = true ↔
      ∃ a n, 1 ≤ p ∧ s.nodes[p - 1]? = some (some a) ∧ s.heap a = some n ∧ n.parent = none := by
  unfold isRep
  cases hl : liveNode s p with
  | none =>
    simp only [Bool.false_eq_true, false_iff]
    rintro ⟨a, n, h1, h2, h3, -⟩
    have := liveNode_eq_some.mpr ⟨a, h1, h2, h3⟩
    rw [hl] at this; cases this
  | some n =>
    obtain ⟨a, h1, h2, h3⟩ := liveNode_eq_some.mp hl
    simp only [Option.isNone_iff_eq_none]
    constructor
    · intro h; exact ⟨a, n, h1, h2, h3, h⟩
    · rintro ⟨a1, n1, -, h4, h5, h6⟩
      rw [h2] at h4; cases h4
      rw [h3] at h5; cases h5; exact h6

theorem GetSetPointer_ok {s : UnionFind} {id a : Nat} (h : GetSetPointer s id = .ok a) :
    1 ≤ id ∧ s.sets[id - 1]? = some (some a) := by
  unfold GetSetPointer at h
  by_cases hg : s.nodes.length < id - 1 ∨ id = 0
  · simp [hg] at h
  · simp only [hg, if_false] at h
    refine ⟨by omega, ?_⟩
    cases hs : s.sets[id - 1]? with
    | none => simp [hs] at h
    | some o =>
      cases o with
      | none => simp [hs] at h
      | some b => simp [hs] at h; rw [h]

theorem WF.slot_lt {s : UnionFind} (wf : WF s) {a : Nat} {n : UpNode} (e : s.heap a = some n) :
    n.id - 1 < s.nodes.length := by
  have := (wf.heap_node a n e).2
  by_contra hlt
  rw [List.getElem?_eq_none (by omega)] at this; cases this

theorem GetSetPointer_rep {s : UnionFind} (wf : WF s) {a : Nat} {n : UpNode}
    (e : s.heap a = some n) (p : n.parent = none) : GetSetPointer s n.id = .ok a := by
  have h1 := (wf.heap_node a n e).1
  have h2 := wf.slot_lt e
  have hg : ¬ (s.nodes.length < n.id - 1 ∨ n.id = 0) := by omega
  simp [GetSetPointer, hg, (wf.root_ok a n e p).1]

/-- On two different live representatives `Join` returns, with the effect
described by `JoinPost`. -/
theorem Join_post {s : UnionFind} (wf : WF s) {a b : Nat} {pn qn : UpNode}
    (ea : s.heap a = some pn) (eb : s.heap b = some qn) (pa : pn.parent = none)
    (pb : qn.parent = none) (hpq : pn.id ≠ qn.id) :
    ∃ s1, Join s pn.id qn.id = .ok s1 ∧
      ∃ x y xn yn xn1 yn1 xi yi xi1, JoinPost s s1 pn.id qn.id x y xn yn xn1 yn1 xi yi xi1 := by
  obtain ⟨-, pi, hpi, -⟩ := wf.root_ok a pn ea pa
  obtain ⟨-, qi, hqi, -⟩ := wf.root_ok b qn eb pb
  have hab : a ≠ b := by
    rintro rfl
    rw [ea] at eb; cases eb; exact hpq rfl
  unfold Join
  simp only [hpq, if_false, GetSetPointer_rep wf ea pa, GetSetPointer_rep wf eb pb, Res.bind_ok,
    deref_eq_ok ea, deref_eq_ok eb, derefInfo_eq_ok hpi, derefInfo_eq_ok hqi]
  by_cases hbig : qi.size > pi.size
  · simp only [hbig, decide_True, if_true]
    obtain ⟨s1, h1, xn1, yn1, xi1, P⟩ := Join.link_post wf (p := pn.id) (q := qn.id)
      (a := a) (b := b) (Ne.symm hab) eb ea hqi hpi (Or.inr ⟨rfl, rfl, rfl, rfl, hbig⟩)
    exact ⟨s1, h1, _, _, _, _, _, _, _, _, _, P⟩
  · simp only [hbig, decide_False, if_false, Bool.false_eq_true]
    obtain ⟨s1, h1, xn1, yn1, xi1, P⟩ := Join.link_post wf (p := pn.id) (q := qn.id)
      (a := a) (b := b) hab ea eb hpi hqi (Or.inl ⟨rfl, rfl, rfl, rfl, by omega⟩)
    exact ⟨s1, h1, _, _, _, _, _, _, _, _, _, P⟩

/-- A `Join(p, q)` with `p != q` that returns was given two live representatives. -/
theorem Join_ok {s s1 : UnionFind} (wf : WF s) {p q : Nat} (hpq : p ≠ q)
    (h : Join s p q = .ok s1) :
    ∃ a b pn qn, s.heap a = some pn ∧ s.heap b = some qn ∧ pn.parent = none ∧
      qn.parent = none ∧ pn.id = p ∧ qn.id = q := by
  unfold Join at h
  simp only [hpq, if_false] at h
  obtain ⟨a, h1, h⟩ := Res.bind_eq_ok h
  obtain ⟨b, h2, h⟩ := Res.bind_eq_ok h
  obtain ⟨qn, h3, h⟩ := Res.bind_eq_ok h
  obtain ⟨qi, h4, h⟩ := Res.bind_eq_ok h
  obtain ⟨pn, h5, h⟩ := Res.bind_eq_ok h
  obtain ⟨pi, h6, h⟩ := Res.bind_eq_ok h
  have ea : s.heap a = some pn := by
    unfold deref at h5
    cases e : s.heap a with
    | none => simp [e] at h5
    | some n => simp [e] at h5; rw [h5]
  have eb : s.heap b = some qn := by
    unfold deref at h3
    cases e : s.heap b with
    | none => simp [e] at h3
    | some n => simp [e] at h3; rw [h3]
  have ia : pn.info = some pi := by
    unfold derefInfo at h6
    cases e : pn.info with
    | none => simp [e] at h6
    | some n => simp [e] at h6; rw [h6]
  have ib : qn.info = some qi := by
    unfold derefInfo at h4
    cases e : qn.info with
    | none => simp [e] at h4
    | some n => simp [e] at h4; rw [h4]
  obtain ⟨hp1, hps⟩ := GetSetPointer_ok h1
  obtain ⟨hq1, hqs⟩ := GetSetPointer_ok h2
  obtain ⟨n1, e1, hid1⟩ := wf.node_heap _ _ (wf.set_node _ _ _ hps ea)
  obtain ⟨n2, e2, hid2⟩ := wf.node_heap _ _ (wf.set_node _ _ _ hqs eb)
  rw [ea] at e1; cases e1
  rw [eb] at e2; cases e2
  exact ⟨a, b, pn, qn, ea, eb, wf.info_root ea ia, wf.info_root eb ib, by omega, by omega⟩
/-- The invariant is kept by a `Join` of two live representatives. -/
theorem WF.of_JoinPost {s s1 : UnionFind} (wf : WF s) {p q x y : Nat} {xn yn xn1 yn1 : UpNode}
    {xi yi xi1 : SetData} (P : JoinPost s s1 p q x y xn yn xn1 yn1 xi yi xi1) : WF s1 := by
  obtain ⟨hxid, hxslot⟩ := wf.heap_node x xn P.hx
  obtain ⟨hyid, hyslot⟩ := wf.heap_node y yn P.hy
  have hxs := (wf.root_ok x xn P.hx P.xroot).1
  have hys := (wf.root_ok y yn P.hy P.yroot).1
  have xy := P.xy
  have hslot : xn.id - 1 ≠ yn.id - 1 := by
    intro he
    rw [he, hyslot] at hxslot
    simp only [Option.some.injEq] at hxslot
    exact xy hxslot.symm
  have ids1 : (xn1.id = xn.id ∧ yn1.id = yn.id) ∨ (xn1.id = yn.id ∧ yn1.id = xn.id) := by
    rcases P.swap with ⟨h1, -, h2, -⟩ | ⟨h1, -, h2, -⟩
    · exact Or.inl ⟨h1, h2⟩
    · exact Or.inr ⟨h1, h2⟩
  have hslot1 : xn1.id - 1 ≠ yn1.id - 1 := by
    rcases ids1 with ⟨h1, h2⟩ | ⟨h1, h2⟩ <;> rw [h1, h2]
    · exact hslot
    · exact Ne.symm hslot
  have hx1id : 1 ≤ xn1.id := by rcases ids1 with ⟨h1, h2⟩ | ⟨h1, h2⟩ <;> omega
  have hy1id : 1 ≤ yn1.id := by rcases ids1 with ⟨h1, h2⟩ | ⟨h1, h2⟩ <;> omega
  have hcases : ∀ c n, s1.heap c = some n →
      (c = x ∧ n = xn1) ∨ (c = y ∧ n = yn1) ∨ (c ≠ x ∧ c ≠ y ∧ s.heap c = some n) := by
    intro c n e
    by_cases hcx : c = x
    · subst hcx; rw [P.hx1] at e; cases e; exact Or.inl ⟨rfl, rfl⟩
    · by_cases hcy : c = y
      · subst hcy; rw [P.hy1] at e; cases e; exact Or.inr (Or.inl ⟨rfl, rfl⟩)
      · rw [P.ho c hcx hcy] at e; exact Or.inr (Or.inr ⟨hcx, hcy, e⟩)
  have hold : ∀ c n, s.heap c = some n → c ≠ x → c ≠ y → s1.heap c = some n := by
    intro c n e hcx hcy
    rw [P.ho c hcx hcy]; exact e
  have hoslot : ∀ c n, s.heap c = some n → c ≠ x → c ≠ y →
      n.id - 1 ≠ xn1.id - 1 ∧ n.id - 1 ≠ yn1.id - 1 := by
    intro c n e hcx hcy
    have hc := (wf.heap_node c n e).2
    have h1 : n.id - 1 ≠ xn.id - 1 := by
      intro he; rw [he, hxslot] at hc
      simp only [Option.some.injEq] at hc; exact hcx hc.symm
    have h2 : n.id - 1 ≠ yn.id - 1 := by
      intro he; rw [he, hyslot] at hc
      simp only [Option.some.injEq] at hc; exact hcy hc.symm
    rcases ids1 with ⟨h3, h4⟩ | ⟨h3, h4⟩ <;> rw [h3, h4]
    · exact ⟨h1, h2⟩
    · exact ⟨h2, h1⟩
  have hatt : ∀ {c r k}, Chain s.heap c r k →
      (r = y → Chain s1.heap c x (k + 1)) ∧ (r ≠ y → Chain s1.heap c r k) := by
    intro c r k ch
    refine Chain.attach ?_ ?_ ?_ ?_ ch
    · rw [P.hx1]; simp [P.xroot1]
    · rw [P.hy1]; simp [P.yparent1]
    · rw [P.hy]; simp [P.yroot]
    · intro c hc
      by_cases hcx : c = x
      · subst hcx; rw [P.hx1, P.hx]; simp [P.xroot1, P.xroot]
      · rw [P.ho c hcx hc]
  have cx1 : Chain s1.heap x x 0 := Chain.root P.hx1 P.xroot1
  have cy1 : Chain s1.heap y x 1 := Chain.link P.hy1 P.yparent1 cx1
  have cx0 : Chain s.heap x x 0 := Chain.root P.hx P.xroot
  have cy0 : Chain s.heap y y 0 := Chain.root P.hy P.yroot
  have okx := wf.info_ok P.hx P.xinfo
  have oky := wf.info_ok P.hy P.yinfo
  have hxm : xn.id ∈ xi.members :=
    (wf.members x xn xi P.hx P.xinfo _).mpr ⟨x, xn, 0, P.hx, rfl, cx0⟩
  have hym : yn.id ∈ yi.members :=
    (wf.members y yn yi P.hy P.yinfo _).mpr ⟨y, yn, 0, P.hy, rfl, cy0⟩
  refine ⟨?_, ?_, ?_, ?_, ?_, ?_, ?_, ?_, ?_, ?_, ?_, ?_, ?_, ?_⟩
  · rw [P.len_nodes, P.len_sets, wf.len_eq]
  · intro k c hk
    rw [P.nodes_eq] at hk
    by_cases k1 : k = xn1.id - 1
    · simp only [k1, if_true, Option.some.injEq] at hk
      subst hk; exact ⟨xn1, P.hx1, by omega⟩
    · by_cases k2 : k = yn1.id - 1
      · simp only [k1, k2, if_true, if_false, Option.some.injEq] at hk
        simp only [hslot1.symm, if_false, Option.some.injEq] at hk
        subst hk; exact ⟨yn1, P.hy1, by omega⟩
      · simp only [k1, k2, if_false] at hk
        obtain ⟨n, e, hid⟩ := wf.node_heap k c hk
        have hcx : c ≠ x := by
          rintro rfl
          rw [P.hx] at e; cases e
          rcases ids1 with ⟨h3, h4⟩ | ⟨h3, h4⟩ <;> omega
        have hcy : c ≠ y := by
          rintro rfl
          rw [P.hy] at e; cases e
          rcases ids1 with ⟨h3, h4⟩ | ⟨h3, h4⟩ <;> omega
        exact ⟨n, hold c n e hcx hcy, hid⟩
  · intro c n e
    rcases hcases c n e with ⟨rfl, rfl⟩ | ⟨rfl, rfl⟩ | ⟨hcx, hcy, e0⟩
    · refine ⟨hx1id, ?_⟩
      rw [P.nodes_eq]; simp
    · refine ⟨hy1id, ?_⟩
      rw [P.nodes_eq]; simp [hslot1.symm]
    · obtain ⟨h1, h2⟩ := wf.heap_node c n e0
      obtain ⟨h3, h4⟩ := hoslot c n e0 hcx hcy
      refine ⟨h1, ?_⟩
      rw [P.nodes_eq]; simp only [h3, h4, if_false]; exact h2
  · intro c n e
    rw [P.brk_eq]
    rcases hcases c n e with ⟨rfl, rfl⟩ | ⟨rfl, rfl⟩ | ⟨hcx, hcy, e0⟩
    · exact wf.heap_brk _ _ P.hx
    · exact wf.heap_brk _ _ P.hy
    · exact wf.heap_brk _ _ e0
  · intro c n e pc
    rcases hcases c n e with ⟨rfl, rfl⟩ | ⟨rfl, rfl⟩ | ⟨hcx, hcy, e0⟩
    · refine ⟨by rw [P.sets_eq]; simp, xi1, P.xinfo1, ?_, ?_, ?_⟩
      · rw [P.members1, List.nodup_append]
        refine ⟨okx.1, oky.1, ?_⟩
        intro z hz1 hz2
        obtain ⟨c1, n1, k1, e1, hid1, ch1⟩ := (wf.members c xn xi P.hx P.xinfo z).mp hz1
        obtain ⟨c2, n2, k2, e2, hid2, ch2⟩ := (wf.members y yn yi P.hy P.yinfo z).mp hz2
        have s1 := (wf.heap_node c1 n1 e1).2
        have s2 := (wf.heap_node c2 n2 e2).2
        rw [hid1] at s1; rw [hid2, s1] at s2
        simp only [Option.some.injEq] at s2
        subst s2
        exact xy (ch2.det ch1).1
      · rw [P.size1, P.members1, List.length_append, okx.2.1, oky.2.1]
      · obtain ⟨j, -, hj⟩ := okx.2.2
        exact ⟨_, P.last1, by rw [P.members1, List.length_append]; omega⟩
    · rw [P.yparent1] at pc; cases pc
    · obtain ⟨h1, h2⟩ := wf.root_ok c n e0 pc
      obtain ⟨h3, h4⟩ := hoslot c n e0 hcx hcy
      refine ⟨?_, h2⟩
      rw [P.sets_eq]; simp only [h3, h4, if_false]; exact h1
  · intro c n b e pc
    rcases hcases c n e with ⟨rfl, rfl⟩ | ⟨rfl, rfl⟩ | ⟨hcx, hcy, e0⟩
    · rw [P.xroot1] at pc; cases pc
    · refine ⟨?_, P.yinfo1⟩
      rw [P.sets_eq]; simp [hslot1.symm]
    · obtain ⟨h1, h2⟩ := wf.child_ok c n b e0 pc
      obtain ⟨h3, h4⟩ := hoslot c n e0 hcx hcy
      refine ⟨?_, h2⟩
      rw [P.sets_eq]; simp only [h3, h4, if_false]; exact h1
  · intro k c hk
    rw [P.brk_eq]
    rw [P.sets_eq] at hk
    by_cases k1 : k = xn1.id - 1
    · simp only [k1, if_true, Option.some.injEq] at hk
      subst hk; exact wf.heap_brk _ _ P.hx
    · by_cases k2 : k = yn1.id - 1
      · simp [k1, k2, hslot1.symm] at hk
      · simp only [k1, k2, if_false] at hk
        exact wf.set_brk k c hk
  · intro k c n hk e
    rw [P.sets_eq] at hk
    rw [P.nodes_eq]
    by_cases k1 : k = xn1.id - 1
    · simp only [k1, if_true] at hk ⊢
      exact hk
    · by_cases k2 : k = yn1.id - 1
      · simp [k1, k2, hslot1.symm] at hk
      · simp only [k1, k2, if_false] at hk ⊢
        have hal : ∃ n0, s.heap c = some n0 := by
          rcases hcases c n e with ⟨rfl, rfl⟩ | ⟨rfl, rfl⟩ | ⟨hcx, hcy, e0⟩
          · exact ⟨_, P.hx⟩
          · exact ⟨_, P.hy⟩
          · exact ⟨_, e0⟩
        obtain ⟨n0, e0⟩ := hal
        exact wf.set_node k c n0 hk e0
  · rw [P.free_eq]; exact wf.free_nodup
  · intro z hz
    rw [P.free_eq] at hz
    obtain ⟨h1, h2⟩ := wf.free_dead z hz
    refine ⟨h1, ?_⟩
    intro c
    rw [P.nodes_eq]
    by_cases k1 : z - 1 = xn1.id - 1
    · exfalso
      rcases ids1 with ⟨h3, h4⟩ | ⟨h3, h4⟩
      · rw [k1, h3] at h2; exact h2 x hxslot
      · rw [k1, h3] at h2; exact h2 y hyslot
    · by_cases k2 : z - 1 = yn1.id - 1
      · exfalso
        rcases ids1 with ⟨h3, h4⟩ | ⟨h3, h4⟩
        · rw [k2, h4] at h2; exact h2 y hyslot
        · rw [k2, h4] at h2; exact h2 x hxslot
      · simp only [k1, k2, if_false]; exact h2 c
  · intro c n e
    have hal : ∃ n0, s.heap c = some n0 := by
      rcases hcases c n e with ⟨rfl, rfl⟩ | ⟨rfl, rfl⟩ | ⟨hcx, hcy, e0⟩
      · exact ⟨_, P.hx⟩
      · exact ⟨_, P.hy⟩
      · exact ⟨_, e0⟩
    obtain ⟨n0, e0⟩ := hal
    obtain ⟨r, rn, i, k, ch, er, ei, hk⟩ := wf.chain c n0 e0
    by_cases hry : r = y
    · subst hry
      rw [P.hy] at er; cases er
      rw [P.yinfo] at ei; cases ei
      exact ⟨x, xn1, xi1, k + 1, (hatt ch).1 rfl, P.hx1, P.xinfo1, by
        rw [P.size1]; have := okx.2.1; obtain ⟨j, -, hj⟩ := okx.2.2; omega⟩
    · by_cases hrx : r = x
      · subst hrx
        rw [P.hx] at er; cases er
        rw [P.xinfo] at ei; cases ei
        exact ⟨r, xn1, xi1, k, (hatt ch).2 hry, P.hx1, P.xinfo1, by rw [P.size1]; omega⟩
      · exact ⟨r, rn, i, k, (hatt ch).2 hry, hold r rn er hrx hry, ei, hk⟩
  · intro r1 rn1 i1 er1 ei1 z
    rcases hcases r1 rn1 er1 with ⟨rfl, rfl⟩ | ⟨rfl, rfl⟩ | ⟨hrx, hry, er0⟩
    · rw [P.xinfo1] at ei1; cases ei1
      rw [P.members1, List.mem_append]
      constructor
      · rintro (hz | hz)
        · obtain ⟨c, n, k, e, hid, ch⟩ := (wf.members r1 xn xi P.hx P.xinfo z).mp hz
          by_cases hcx : c = r1
          · subst hcx
            rw [P.hx] at e; cases e
            rcases P.swap with ⟨h1, -, h2, -⟩ | ⟨h1, -, h2, -⟩
            · exact ⟨c, rn1, 0, P.hx1, by rw [h1, hid], cx1⟩
            · exact ⟨y, yn1, 1, P.hy1, by rw [h2, hid], cy1⟩
          · by_cases hcy : c = y
            · subst hcy
              exact absurd (cy0.det ch).1 xy
            · exact ⟨c, n, k, hold c n e hcx hcy, hid, (hatt ch).2 xy⟩
        · obtain ⟨c, n, k, e, hid, ch⟩ := (wf.members y yn yi P.hy P.yinfo z).mp hz
          by_cases hcy : c = y
          · subst hcy
            rw [P.hy] at e; cases e
            rcases P.swap with ⟨h1, -, h2, -⟩ | ⟨h1, -, h2, -⟩
            · exact ⟨c, yn1, 1, P.hy1, by rw [h2, hid], cy1⟩
            · exact ⟨r1, rn1, 0, P.hx1, by rw [h1, hid], cx1⟩
          · by_cases hcx : c = r1
            · subst hcx
              exact absurd (cx0.det ch).1 (Ne.symm xy)
            · exact ⟨c, n, k + 1, hold c n e hcx hcy, hid, (hatt ch).1 rfl⟩
      · rintro ⟨c, n, k, e, hid, ch⟩
        rcases hcases c n e with ⟨rfl, rfl⟩ | ⟨rfl, rfl⟩ | ⟨hcx, hcy, e0⟩
        · rcases P.swap with ⟨h1, -, h2, -⟩ | ⟨h1, -, h2, -⟩
          · left; rw [← hid, h1]; exact hxm
          · right; rw [← hid, h1]; exact hym
        · rcases P.swap with ⟨h1, -, h2, -⟩ | ⟨h1, -, h2, -⟩
          · right; rw [← hid, h2]; exact hym
          · left; rw [← hid, h2]; exact hxm
        · obtain ⟨r, rn, i, k0, ch0, er, ei, -⟩ := wf.chain c n e0
          by_cases hr : r = y
          · subst hr
            right
            exact (wf.members r yn yi P.hy P.yinfo z).mpr ⟨c, n, k0, e0, hid, ch0⟩
          · have := ((hatt ch0).2 hr).det ch
            left
            rw [← this.1] at ch0
            exact (wf.members r1 xn xi P.hx P.xinfo z).mpr ⟨c, n, k0, e0, hid, ch0⟩
    · rw [P.yinfo1] at ei1; cases ei1
    · rw [wf.members r1 rn1 i1 er0 ei1 z]
      constructor
      · rintro ⟨c, n, k, e, hid, ch⟩
        have hcx : c ≠ x := by
          rintro rfl; exact hrx (cx0.det ch).1
        have hcy : c ≠ y := by
          rintro rfl; exact hry (cy0.det ch).1
        exact ⟨c, n, k, hold c n e hcx hcy, hid, (hatt ch).2 hry⟩
      · rintro ⟨c, n, k, e, hid, ch⟩
        rcases hcases c n e with ⟨rfl, rfl⟩ | ⟨rfl, rfl⟩ | ⟨hcx, hcy, e0⟩
        · exact absurd (cx1.det ch).1 hrx
        · exact absurd (cy1.det ch).1 hrx
        · obtain ⟨r, rn, i, k0, ch0, er, ei, -⟩ := wf.chain c n e0
          by_cases hr : r = y
          · exact absurd (((hatt ch0).1 hr).det ch).1 hrx
          · have := ((hatt ch0).2 hr).det ch
            rw [← this.1] at ch0
            exact ⟨c, n, k0, e0, hid, ch0⟩
  · have hmem : yn1.id - 1 ∈ rootSet s := by
      rw [mem_rootSet]
      rcases ids1 with ⟨h3, h4⟩ | ⟨h3, h4⟩ <;> rw [h4]
      · exact ⟨⟨y, hyslot⟩, ⟨y, hys⟩⟩
      · exact ⟨⟨x, hxslot⟩, ⟨x, hxs⟩⟩
    have hmemx : xn1.id - 1 ∈ rootSet s := by
      rw [mem_rootSet]
      rcases ids1 with ⟨h3, h4⟩ | ⟨h3, h4⟩ <;> rw [h3]
      · exact ⟨⟨x, hxslot⟩, ⟨x, hxs⟩⟩
      · exact ⟨⟨y, hyslot⟩, ⟨y, hys⟩⟩
    have : rootSet s1 = (rootSet s).erase (yn1.id - 1) := by
      ext k
      rw [Finset.mem_erase]
      by_cases k1 : k = xn1.id - 1
      · subst k1
        simp only [hmemx, and_true, ne_eq, hslot1, not_false_eq_true, iff_true]
        rw [mem_rootSet, P.nodes_eq, P.sets_eq]; simp
      · by_cases k2 : k = yn1.id - 1
        · subst k2
          simp only [ne_eq, not_true_eq_false, false_and, iff_false]
          rw [mem_rootSet, P.sets_eq]; simp [hslot1.symm]
        · rw [mem_rootSet, mem_rootSet, P.nodes_eq, P.sets_eq]
          simp [k1, k2]
    have hc := Finset.card_erase_of_mem hmem
    have hpos : 0 < (rootSet s).card := Finset.card_pos.mpr ⟨_, hmem⟩
    have h1 := P.sets_amount_eq
    have h2 := wf.sets_cnt
    rw [this]; omega
  · have : liveSet s1 = liveSet s := by
      ext k
      rw [mem_liveSet, mem_liveSet, P.nodes_eq]
      by_cases k1 : k = xn1.id - 1
      · subst k1
        simp only [if_true, Option.some.injEq, exists_eq', true_iff]
        rcases ids1 with ⟨h3, h4⟩ | ⟨h3, h4⟩ <;> rw [h3]
        · exact ⟨x, hxslot⟩
        · exact ⟨y, hyslot⟩
      · by_cases k2 : k = yn1.id - 1
        · subst k2
          simp only [hslot1.symm, if_false, if_true, Option.some.injEq, exists_eq', true_iff]
          rcases ids1 with ⟨h3, h4⟩ | ⟨h3, h4⟩ <;> rw [h4]
          · exact ⟨y, hyslot⟩
          · exact ⟨x, hxslot⟩
        · simp [k1, k2]
    rw [this, P.items_amount_eq]; exact wf.items_cnt

/-- The invariant is kept by a `Join` that returns. -/
theorem WF.Join {s s1 : UnionFind} (wf : WF s) {p q : Nat} (h : Join s p q = .ok s1) : WF s1 := by
  by_cases hpq : p = q
  · simp [UNION.Join, hpq] at h
    rw [← h]; exact wf
  · obtain ⟨a, b, pn, qn, ea, eb, pa, pb, rfl, rfl⟩ := Join_ok wf hpq h
    obtain ⟨s2, h2, x, y, xn, yn, xn1, yn1, xi, yi, xi1, P⟩ := Join_post wf ea eb pa pb hpq
    rw [h2] at h
    cases h
    exact wf.of_JoinPost P
/-! ## `RemoveSet` -/

theorem dec_pos {n : Nat} (h : 1 ≤ n) : dec n + 1 = n := by
  unfold dec
  have : n ≠ 0 := by omega
  simp only [this, if_false]; omega

/-- The member loop of `RemoveSet`, run on identifiers that are live and
pairwise different: their slots are cleared, their objects deleted. -/
theorem RemoveSet.loop_spec : ∀ (M : List Nat) (st : RemoveState), M.Nodup →
    (∀ m ∈ M, 1 ≤ m ∧ ∃ c n, st.nodes[m - 1]? = some (some c) ∧ st.heap c = some n ∧ n.id = m) →
    M.length ≤ st.items_amount →
    ∃ st1, RemoveSet.loop M st = .ok st1 ∧ st1.free_ids = st.free_ids ++ M ∧
      st1.items_amount + M.length = st.items_amount ∧
      st1.nodes.length = st.nodes.length ∧
      (∀ k, k + 1 ∈ M → st1.nodes[k]? = some none) ∧
      (∀ k, k + 1 ∉ M → st1.nodes[k]? = st.nodes[k]?) ∧
      (∀ c, (∃ m ∈ M, st.nodes[m - 1]? = some (some c)) → st1.heap c = none) ∧
      (∀ c, (¬ ∃ m ∈ M, st.nodes[m - 1]? = some (some c)) → st1.heap c = st.heap c) := by
  intro M
  induction M with
  | nil =>
    intro st _ _ _
    exact ⟨st, rfl, by simp, by simp, rfl, by simp, by simp, by simp, by simp⟩
  | cons m rest ih =>
    intro st nd hlive hcnt
    obtain ⟨hm1, c, n, hc, e, hid⟩ := hlive m (by simp)
    have hm0 : m ≠ 0 := by omega
    have hlt : m - 1 < st.nodes.length := by
      by_contra hlt
      rw [List.getElem?_eq_none (by omega)] at hc; cases hc
    rw [List.nodup_cons] at nd
    have hcnt1 : 1 ≤ st.items_amount := by simp at hcnt; omega
    have hother : ∀ m1 ∈ rest, (st.nodes.set (m - 1) none)[m1 - 1]? = st.nodes[m1 - 1]? := by
      intro m1 hm1r
      have h1 := (hlive m1 (by simp [hm1r])).1
      have : m1 ≠ m := by rintro rfl; exact nd.1 hm1r
      rw [List.getElem?_set_ne (by omega)]
    obtain ⟨st1, hl, hfree, hitems, hlen, hin, hout, hdel, hkeep⟩ :=
      ih { nodes := st.nodes.set (m - 1) none, free_ids := st.free_ids ++ [m]
           heap := st.heap.write c none, items_amount := dec st.items_amount } nd.2
        (by
          intro m1 hm1r
          obtain ⟨h1, c1, n1, hc1, e1, hid1⟩ := hlive m1 (by simp [hm1r])
          refine ⟨h1, c1, n1, ?_, ?_, hid1⟩
          · show (st.nodes.set (m - 1) none)[m1 - 1]? = _
            rw [hother m1 hm1r]; exact hc1
          · have : c1 ≠ c := by
              rintro rfl
              rw [e] at e1; cases e1
              rw [hid] at hid1; subst hid1; exact nd.1 hm1r
            show st.heap.write c none c1 = _
            rw [Heap.write_other _ _ this]; exact e1)
        (by
          show rest.length ≤ dec st.items_amount
          have := dec_pos hcnt1
          simp at hcnt; omega)
    refine ⟨st1, ?_, ?_, ?_, ?_, ?_, ?_, ?_, ?_⟩
    · simp only [RemoveSet.loop, hm0, if_false, hc, e]
      exact hl
    · rw [hfree]; simp
    · have := dec_pos hcnt1
      simp only [List.length_cons]
      simp only at hitems
      omega
    · rw [hlen]; simp
    · intro k hk
      by_cases hkr : k + 1 ∈ rest
      · exact hin k hkr
      · rw [hout k hkr]
        have : k = m - 1 := by
          simp only [List.mem_cons] at hk
          rcases hk with h | h
          · omega
          · exact absurd h hkr
        subst this
        show (st.nodes.set (m - 1) none)[m - 1]? = _
        rw [List.getElem?_set_self hlt]
    · intro k hk
      simp only [List.mem_cons, not_or] at hk
      rw [hout k hk.2]
      show (st.nodes.set (m - 1) none)[k]? = _
      rw [List.getElem?_set_ne (by omega)]
    · rintro c1 ⟨m1, hm1, hc1⟩
      simp only [List.mem_cons] at hm1
      by_cases hr : ∃ m2 ∈ rest, (st.nodes.set (m - 1) none)[m2 - 1]? = some (some c1)
      · exact hdel c1 hr
      · rw [hkeep c1 hr]
        rcases hm1 with rfl | hm1
        · rw [hc] at hc1
          simp only [Option.some.injEq] at hc1
          subst hc1
          show st.heap.write c none c = none
          simp
        · exact absurd ⟨m1, hm1, by rw [hother m1 hm1]; exact hc1⟩ hr
    · intro c1 hc1
      have hr : ¬ ∃ m2 ∈ rest, (st.nodes.set (m - 1) none)[m2 - 1]? = some (some c1) := by
        rintro ⟨m2, hm2, h2⟩
        rw [hother m2 hm2] at h2
        exact hc1 ⟨m2, by simp [hm2], h2⟩
      rw [hkeep c1 hr]
      have : c1 ≠ c := by
        rintro rfl
        exact hc1 ⟨m, by simp, hc⟩
      show st.heap.write c none c1 = _
      rw [Heap.write_other _ _ this]
/-- A trimming loop that returns has cut the slot arrays behind the last live
item. -/
theorem RemoveSet.trim_ok : ∀ (fuel : Nat) (nodes sets : List (Option Nat))
    (v : List (Option Nat) × List (Option Nat)), sets.length = nodes.length →
    RemoveSet.trim fuel nodes sets = .ok v →
    ∃ j, v = (nodes.take j, sets.take j) ∧ 1 ≤ j ∧ j ≤ nodes.length ∧
      (∃ c, nodes[j - 1]? = some (some c)) ∧
      ∀ k, j ≤ k → k < nodes.length → nodes[k]? = some none := by
  intro fuel
  induction fuel with
  | zero => intro nodes sets v _ h; simp [RemoveSet.trim] at h
  | succ fuel ih =>
    intro nodes sets v hlen h
    unfold RemoveSet.trim at h
    cases hl : nodes.getLast? with
    | none => simp [hl] at h
    | some o =>
      have hne : nodes ≠ [] := by
        intro hn; rw [hn] at hl; simp at hl
      have hpos : 1 ≤ nodes.length := by
        cases nodes with
        | nil => exact absurd rfl hne
        | cons _ _ => simp
      cases o with
      | some c =>
        simp only [hl, Res.ok.injEq] at h
        refine ⟨nodes.length, ?_, hpos, le_refl _, ⟨c, ?_⟩, ?_⟩
        · rw [← h, List.take_length, ← hlen, List.take_length]
        · rw [← List.getLast?_eq_getElem?]; exact hl
        · intro k h1 h2; omega
      | none =>
        simp only [hl] at h
        have hs : sets ≠ [] := by
          intro hn; rw [hn] at hlen; simp at hlen; omega
        simp only [hs, if_false] at h
        obtain ⟨j, hv, hj1, hj2, ⟨c, hc⟩, hrest⟩ :=
          ih nodes.dropLast sets.dropLast v (by simp [hlen]) h
        rw [List.length_dropLast] at hj2
        refine ⟨j, ?_, hj1, by omega, ⟨c, ?_⟩, ?_⟩
        · rw [hv, List.dropLast_eq_take, List.dropLast_eq_take, List.take_take, List.take_take,
            hlen, Nat.min_eq_left hj2]
        · rw [List.getElem?_dropLast] at hc
          have : j - 1 < nodes.length - 1 := by omega
          simpa [this] using hc
        · intro k h1 h2
          by_cases hk : k < nodes.length - 1
          · have := hrest k h1 (by rw [List.length_dropLast]; exact hk)
            rw [List.getElem?_dropLast] at this
            simpa [hk] using this
          · have : k = nodes.length - 1 := by omega
            rw [this, ← List.getLast?_eq_getElem?]; exact hl
theorem deref_ok {h : Heap} {a : Nat} {n : UpNode} (e : deref h a = .ok n) : h a = some n := by
  unfold deref at e
  cases e1 : h a with
  | none => simp [e1] at e
  | some m => simp [e1] at e; rw [e]

theorem derefInfo_ok {n : UpNode} {i : SetData} (e : derefInfo n = .ok i) : n.info = some i := by
  unfold derefInfo at e
  cases e1 : n.info with
  | none => simp [e1] at e
  | some m => simp [e1] at e; rw [e]

/-- The members of a set are live identifiers. -/
theorem WF.member_live {s : UnionFind} (wf : WF s) {a : Nat} {n : UpNode} {i : SetData}
    (e : s.heap a = some n) (ei : n.info = some i) {m : Nat} (hm : m ∈ i.members) :
    1 ≤ m ∧ ∃ c nc, s.nodes[m - 1]? = some (some c) ∧ s.heap c = some nc ∧ nc.id = m := by
  obtain ⟨c, nc, k, ec, hid, -⟩ := (wf.members a n i e ei m).mp hm
  obtain ⟨h1, h2⟩ := wf.heap_node c nc ec
  subst hid
  exact ⟨h1, c, nc, h2, ec, rfl⟩

/-- A set has no more members than there are live items. -/
theorem WF.members_le_items {s : UnionFind} (wf : WF s) {a : Nat} {n : UpNode} {i : SetData}
    (e : s.heap a = some n) (ei : n.info = some i) : i.members.length ≤ s.items_amount := by
  rw [wf.items_cnt, ← List.toFinset_card_of_nodup (wf.info_ok e ei).1]
  refine Finset.card_le_card_of_injOn (fun m => m - 1) ?_ ?_
  · intro m hm
    have hm1 : m ∈ i.members := by simpa using hm
    obtain ⟨-, c, -, hc, -⟩ := wf.member_live e ei hm1
    exact mem_liveSet.mpr ⟨c, hc⟩
  · intro m1 h1 m2 h2 heq
    have hm1 : m1 ∈ i.members := by simpa using h1
    have hm2 : m2 ∈ i.members := by simpa using h2
    have p1 := (wf.member_live e ei hm1).1
    have p2 := (wf.member_live e ei hm2).1
    simp only at heq
    omega

/-- What a `RemoveSet` that returns did. -/
theorem RemoveSet_post {s s1 : UnionFind} (wf : WF s) {set_id : Nat}
    (h : RemoveSet s set_id = .ok s1) : ∃ a sn info, RemovePost s s1 set_id a sn info := by
  unfold RemoveSet at h
  obtain ⟨a, h1, h⟩ := Res.bind_eq_ok h
  obtain ⟨sn, h2, h⟩ := Res.bind_eq_ok h
  obtain ⟨info, h3, h⟩ := Res.bind_eq_ok h
  obtain ⟨st, h4, h⟩ := Res.bind_eq_ok h
  obtain ⟨v, h5, h⟩ := Res.bind_eq_ok h
  have ea := deref_ok h2
  have ia := derefInfo_ok h3
  obtain ⟨hid1, hsets⟩ := GetSetPointer_ok h1
  have hslot := wf.set_node _ _ _ hsets ea
  obtain ⟨n1, e1, hidn⟩ := wf.node_heap _ _ hslot
  rw [ea] at e1; cases e1
  have hsid : sn.id = set_id := by omega
  have hroot := wf.info_root ea ia
  obtain ⟨st1, hl, hfree, hitems, hlen, hin, hout, hdel, hkeep⟩ :=
    RemoveSet.loop_spec info.members
      { nodes := s.nodes, free_ids := s.free_ids, heap := s.heap, items_amount := s.items_amount }
      (wf.info_ok ea ia).1 (fun m hm => wf.member_live ea ia hm) (wf.members_le_items ea ia)
  rw [hl] at h4; cases h4
  simp only at hfree hitems hlen hin hout hdel hkeep
  obtain ⟨j, hv, hj1, hj2, ⟨c, hc⟩, hrest⟩ :=
    RemoveSet.trim_ok _ _ _ v (by rw [hlen, wf.len_eq]) h5
  subst hv
  simp only [Res.ok.injEq] at h
  subst h
  have hcnt : 1 ≤ s.sets_amount := by
    rw [wf.sets_cnt]
    exact Finset.card_pos.mpr ⟨set_id - 1, mem_rootSet.mpr ⟨⟨a, hslot⟩, ⟨a, hsets⟩⟩⟩
  have hlen1 : (List.take j st.nodes).length = j := by
    rw [List.length_take]; omega
  refine ⟨a, sn, info, ea, hsid, hroot, ia, ?_, ?_, ?_, ?_, ?_, ?_, ?_, ?_, ?_, ?_, ?_, hfree,
    hitems, dec_pos hcnt, rfl, rfl⟩
  · intro c1 n1 e1 hm
    refine hdel c1 ⟨n1.id, hm, (wf.heap_node c1 n1 e1).2⟩
  · intro c1 n1 e1 hm
    show st.heap c1 = _
    rw [hkeep c1]
    · exact e1
    · rintro ⟨m, hm1, hm2⟩
      obtain ⟨n2, e2, hid2⟩ := wf.node_heap _ _ hm2
      rw [e1] at e2; cases e2
      have := (wf.member_live ea ia hm1).1
      have : n1.id = m := by omega
      rw [this] at hm; exact hm hm1
  · intro c1 e1
    show st.heap c1 = _
    rw [hkeep c1]
    · exact e1
    · rintro ⟨m, hm1, hm2⟩
      obtain ⟨n2, e2, hid2⟩ := wf.node_heap _ _ hm2
      rw [e1] at e2; cases e2
  · show (List.take j st.nodes).length ≤ _
    rw [hlen1, ← hlen]; exact hj2
  · show 1 ≤ (List.take j st.nodes).length
    rw [hlen1]; exact hj1
  · show (List.take j s.sets).length = (List.take j st.nodes).length
    rw [hlen1, List.length_take, wf.len_eq, ← hlen]; omega
  · intro k hk hm
    show (List.take j st.nodes)[k]? = _
    rw [hlen1] at hk
    rw [List.getElem?_take_of_lt hk]; exact hin k hm
  · intro k hk hm
    show (List.take j st.nodes)[k]? = _
    rw [hlen1] at hk
    rw [List.getElem?_take_of_lt hk]; exact hout k hm
  · intro k hk
    show (List.take j s.sets)[k]? = _
    rw [hlen1] at hk
    rw [List.getElem?_take_of_lt hk]
  · intro k hk1 hk2
    rw [hlen1] at hk1
    by_cases hm : k + 1 ∈ info.members
    · exact Or.inl hm
    · right
      rw [← hout k hm]
      exact hrest k hk1 (by rw [hlen]; exact hk2)
  · refine ⟨c, ?_⟩
    show (List.take j st.nodes)[(List.take j st.nodes).length - 1]? = _
    rw [hlen1, List.getElem?_take_of_lt (by omega)]; exact hc
/-- The invariant holds after the removal described by `RemovePost`. -/
theorem WF.of_RemovePost {s s1 : UnionFind} (wf : WF s) {set_id a : Nat} {sn : UpNode}
    {info : SetData} (P : RemovePost s s1 set_id a sn info) : WF s1 := by
  have hchainM : ∀ c n, s.heap c = some n → (n.id ∈ info.members ↔ ∃ k, Chain s.heap c a k) := by
    intro c n e
    rw [wf.members a sn info P.ha P.sinfo]
    constructor
    · rintro ⟨c1, n1, k, e1, hid, ch⟩
      have h1 := (wf.heap_node c1 n1 e1).2
      have h2 := (wf.heap_node c n e).2
      rw [hid, h2] at h1
      simp only [Option.some.injEq] at h1
      subst h1; exact ⟨k, ch⟩
    · rintro ⟨k, ch⟩
      exact ⟨c, n, k, e, rfl, ch⟩
  have hcases : ∀ c n, s1.heap c = some n → s.heap c = some n ∧ n.id ∉ info.members := by
    intro c n e
    cases e0 : s.heap c with
    | none => rw [P.unalloc c e0] at e; cases e
    | some n0 =>
      by_cases hm : n0.id ∈ info.members
      · rw [P.gone c n0 e0 hm] at e; cases e
      · rw [P.kept c n0 e0 hm] at e; cases e; exact ⟨rfl, hm⟩
  have hslot1 : ∀ c n, s.heap c = some n → n.id ∉ info.members → n.id - 1 < s1.nodes.length := by
    intro c n e hm
    obtain ⟨h1, h2⟩ := wf.heap_node c n e
    by_contra hlt
    rcases P.trimmed (n.id - 1) (by omega) (wf.slot_lt e) with h | h
    · rw [Nat.sub_add_cancel h1] at h; exact hm h
    · rw [h2] at h; cases h
  have htrans : ∀ {c r k}, Chain s.heap c r k → r ≠ a → Chain s1.heap c r k := by
    intro c r k ch hr
    refine Chain.delete (fun c => ∃ n, s.heap c = some n ∧ n.id ∈ info.members) ?_ ?_ ch hr
    · intro c hD
      cases e0 : s.heap c with
      | none => exact P.unalloc c e0
      | some n0 =>
        rw [P.kept c n0 e0]
        intro hm; exact hD ⟨n0, e0, hm⟩
    · rintro c ⟨n, e, hm⟩
      exact (hchainM c n e).mp hm
  have hroot_ne : ∀ c n r k, s.heap c = some n → n.id ∉ info.members → Chain s.heap c r k →
      r ≠ a := by
    rintro c n r k e hm ch rfl
    exact hm ((hchainM c n e).mpr ⟨k, ch⟩)
  have hnodes1 : ∀ c n, s.heap c = some n → n.id ∉ info.members →
      s1.nodes[n.id - 1]? = some (some c) := by
    intro c n e hm
    obtain ⟨h1, h2⟩ := wf.heap_node c n e
    rw [P.nodes_out _ (hslot1 c n e hm) (by rw [Nat.sub_add_cancel h1]; exact hm)]
    exact h2
  have hnodes_some : ∀ k c, s1.nodes[k]? = some (some c) →
      k < s1.nodes.length ∧ k + 1 ∉ info.members ∧ s.nodes[k]? = some (some c) := by
    intro k c hk
    have hlt : k < s1.nodes.length := by
      by_contra hlt
      rw [List.getElem?_eq_none (by omega)] at hk; cases hk
    by_cases hm : k + 1 ∈ info.members
    · rw [P.nodes_in k hlt hm] at hk; cases hk
    · rw [P.nodes_out k hlt hm] at hk; exact ⟨hlt, hm, hk⟩
  have hsets_some : ∀ k (o : Option Nat), s1.sets[k]? = some o →
      k < s1.nodes.length ∧ s.sets[k]? = some o := by
    intro k o hk
    have hlt : k < s1.nodes.length := by
      by_contra hlt
      rw [List.getElem?_eq_none (by rw [P.len_sets]; omega)] at hk; cases hk
    rw [P.sets_eq k hlt] at hk; exact ⟨hlt, hk⟩
  refine ⟨P.len_sets, ?_, ?_, ?_, ?_, ?_, ?_, ?_, ?_, ?_, ?_, ?_, ?_, ?_⟩
  · intro k c hk
    obtain ⟨hlt, hm, hk0⟩ := hnodes_some k c hk
    obtain ⟨n, e, hid⟩ := wf.node_heap k c hk0
    exact ⟨n, P.kept c n e (by rw [hid]; exact hm), hid⟩
  · intro c n e
    obtain ⟨e0, hm⟩ := hcases c n e
    exact ⟨(wf.heap_node c n e0).1, hnodes1 c n e0 hm⟩
  · intro c n e
    rw [P.brk_eq]; exact wf.heap_brk c n (hcases c n e).1
  · intro c n e pc
    obtain ⟨e0, hm⟩ := hcases c n e
    obtain ⟨h1, h2⟩ := wf.root_ok c n e0 pc
    refine ⟨?_, h2⟩
    rw [P.sets_eq _ (hslot1 c n e0 hm)]; exact h1
  · intro c n b e pc
    obtain ⟨e0, hm⟩ := hcases c n e
    obtain ⟨h1, h2⟩ := wf.child_ok c n b e0 pc
    refine ⟨?_, h2⟩
    rw [P.sets_eq _ (hslot1 c n e0 hm)]; exact h1
  · intro k c hk
    rw [P.brk_eq]; exact wf.set_brk k c (hsets_some k _ hk).2
  · intro k c n hk e
    obtain ⟨hlt, hk0⟩ := hsets_some k _ hk
    obtain ⟨e0, hm⟩ := hcases c n e
    have h1 := wf.set_node k c n hk0 e0
    obtain ⟨n1, e1, hid⟩ := wf.node_heap k c h1
    rw [e0] at e1; cases e1
    rw [P.nodes_out k hlt (by rw [← hid]; exact hm)]; exact h1
  · rw [P.free_eq, List.nodup_append]
    refine ⟨wf.free_nodup, (wf.info_ok P.ha P.sinfo).1, ?_⟩
    intro z hz1 hz2
    obtain ⟨-, c, -, hc, -⟩ := wf.member_live P.ha P.sinfo hz2
    exact (wf.free_dead z hz1).2 c hc
  · intro z hz
    rw [P.free_eq, List.mem_append] at hz
    rcases hz with hz | hz
    · obtain ⟨h1, h2⟩ := wf.free_dead z hz
      refine ⟨h1, ?_⟩
      intro c hc
      exact h2 c (hnodes_some _ c hc).2.2
    · obtain ⟨h1, -⟩ := wf.member_live P.ha P.sinfo hz
      refine ⟨h1, ?_⟩
      intro c hc
      have := (hnodes_some _ c hc).2.1
      rw [Nat.sub_add_cancel h1] at this
      exact this hz
  · intro c n e
    obtain ⟨e0, hm⟩ := hcases c n e
    obtain ⟨r, rn, i, k, ch, er, ei, hk⟩ := wf.chain c n e0
    have hr := hroot_ne c n r k e0 hm ch
    have hrm : rn.id ∉ info.members := by
      intro hrm
      obtain ⟨k1, ch1⟩ := (hchainM r rn er).mp hrm
      exact hr (ch1.det (Chain.root er (wf.info_root er ei))).1
    exact ⟨r, rn, i, k, htrans ch hr, P.kept r rn er hrm, ei, hk⟩
  · intro r rn i er ei z
    obtain ⟨er0, hrm⟩ := hcases r rn er
    have hra : r ≠ a := by
      rintro rfl
      exact hrm ((hchainM r rn er0).mpr ⟨0, Chain.root er0 (wf.info_root er0 ei)⟩)
    rw [wf.members r rn i er0 ei z]
    constructor
    · rintro ⟨c, n, k, e, hid, ch⟩
      have hm : n.id ∉ info.members := by
        intro hm
        obtain ⟨k1, ch1⟩ := (hchainM c n e).mp hm
        exact hra (ch.det ch1).1.symm
      exact ⟨c, n, k, P.kept c n e hm, hid, htrans ch hra⟩
    · rintro ⟨c, n, k, e, hid, ch⟩
      obtain ⟨e0, hm⟩ := hcases c n e
      obtain ⟨r0, rn0, i0, k0, ch0, -⟩ := wf.chain c n e0
      have hr0 := hroot_ne c n r0 k0 e0 hm ch0
      have := (htrans ch0 hr0).det ch
      rw [← this.1] at ch0
      exact ⟨c, n, k0, e0, hid, ch0⟩
  · have hsm : set_id ∈ info.members := by
      rw [← P.sid]
      exact (hchainM a sn P.ha).mpr ⟨0, Chain.root P.ha P.sroot⟩
    obtain ⟨hs1, hsslot⟩ := wf.heap_node a sn P.ha
    rw [P.sid] at hs1 hsslot
    have hssets := (wf.root_ok a sn P.ha P.sroot).1
    rw [P.sid] at hssets
    have hmem : set_id - 1 ∈ rootSet s := mem_rootSet.mpr ⟨⟨a, hsslot⟩, ⟨a, hssets⟩⟩
    have : rootSet s1 = (rootSet s).erase (set_id - 1) := by
      ext k
      rw [Finset.mem_erase, mem_rootSet, mem_rootSet]
      constructor
      · rintro ⟨⟨c, hc⟩, ⟨b, hb⟩⟩
        obtain ⟨hlt, hm, hc0⟩ := hnodes_some k c hc
        obtain ⟨-, hb0⟩ := hsets_some k _ hb
        refine ⟨?_, ⟨c, hc0⟩, ⟨b, hb0⟩⟩
        rintro rfl
        rw [Nat.sub_add_cancel hs1] at hm
        exact hm hsm
      · rintro ⟨hne, ⟨c, hc⟩, ⟨b, hb⟩⟩
        obtain ⟨n, e, hid⟩ := wf.node_heap k c hc
        have hk : k = n.id - 1 := by omega
        have pn : n.parent = none := by
          cases pp : n.parent with
          | none => rfl
          | some d =>
            have := (wf.child_ok c n d e pp).1
            rw [← hk, hb] at this; cases this
        have hm : n.id ∉ info.members := by
          intro hm
          obtain ⟨k1, ch1⟩ := (hchainM c n e).mp hm
          have hca := (ch1.det (Chain.root e pn)).1
          subst hca
          rw [P.ha] at e; cases e
          rw [P.sid] at hk; exact hne hk
        have hlt := hslot1 c n e hm
        rw [← hk] at hlt
        rw [P.nodes_out k hlt (by rw [← hid]; exact hm), P.sets_eq k hlt]
        exact ⟨⟨c, hc⟩, ⟨b, hb⟩⟩
    have hc := Finset.card_erase_of_mem hmem
    have hpos : 0 < (rootSet s).card := Finset.card_pos.mpr ⟨_, hmem⟩
    have h1 := P.sets_amount_eq
    have h2 := wf.sets_cnt
    rw [this]; omega
  · have hinj : Set.InjOn (fun m : Nat => m - 1) (info.members.toFinset : Set Nat) := by
      intro m1 h1 m2 h2 heq
      have hm1 : m1 ∈ info.members := by simpa using h1
      have hm2 : m2 ∈ info.members := by simpa using h2
      have p1 := (wf.member_live P.ha P.sinfo hm1).1
      have p2 := (wf.member_live P.ha P.sinfo hm2).1
      simp only at heq
      omega
    have hsub : info.members.toFinset.image (fun m => m - 1) ⊆ liveSet s := by
      intro k hk
      rw [Finset.mem_image] at hk
      obtain ⟨m, hm, rfl⟩ := hk
      obtain ⟨-, c, -, hc, -⟩ := wf.member_live P.ha P.sinfo (by simpa using hm)
      exact mem_liveSet.mpr ⟨c, hc⟩
    have : liveSet s1 = liveSet s \ info.members.toFinset.image (fun m => m - 1) := by
      ext k
      rw [Finset.mem_sdiff, mem_liveSet, mem_liveSet, Finset.mem_image]
      constructor
      · rintro ⟨c, hc⟩
        obtain ⟨hlt, hm, hc0⟩ := hnodes_some k c hc
        refine ⟨⟨c, hc0⟩, ?_⟩
        rintro ⟨m, hm1, rfl⟩
        have hm2 : m ∈ info.members := by simpa using hm1
        have := (wf.member_live P.ha P.sinfo hm2).1
        rw [Nat.sub_add_cancel this] at hm
        exact hm hm2
      · rintro ⟨⟨c, hc⟩, hni⟩
        obtain ⟨n, e, hid⟩ := wf.node_heap k c hc
        have hm : n.id ∉ info.members := by
          intro hm
          exact hni ⟨n.id, by simpa using hm, by omega⟩
        have hlt := hslot1 c n e hm
        have hk : n.id - 1 = k := by omega
        rw [hk] at hlt
        rw [P.nodes_out k hlt (by rw [← hid]; exact hm)]
        exact ⟨c, hc⟩
    have h1 := Finset.card_sdiff hsub
    have h2 := Finset.card_image_of_injOn hinj
    have h3 := List.toFinset_card_of_nodup (wf.info_ok P.ha P.sinfo).1
    have h4 := Finset.card_le_card hsub
    have h5 := P.items_amount_eq
    have h6 := wf.items_cnt
    rw [this]; omega

/-- The invariant is kept by a `RemoveSet` that returns. -/
theorem WF.RemoveSet {s s1 : UnionFind} (wf : WF s) {set_id : Nat}
    (h : RemoveSet s set_id = .ok s1) : WF s1 := by
  obtain ⟨a, sn, info, P⟩ := RemoveSet_post wf h
  exact wf.of_RemovePost P

/-- Every state the structure can reach satisfies the invariant. -/
theorem Reachable.wf {s : UnionFind} (r : Reachable s) : WF s := by
  induction r with
  | create policy => exact WF.create policy
  | @step s s1 op _ h ih =>
    cases op with
    | MakeSet data =>
      obtain ⟨v, hv, h1⟩ := Res.bind_eq_ok h
      cases h1
      exact ih.MakeSet (show MakeSet s data = .ok (v.1, v.2) from hv)
    | FindSet id =>
      obtain ⟨v, hv, h1⟩ := Res.bind_eq_ok h
      cases h1
      exact ih.FindSet (show FindSet s id = .ok (v.1, v.2) from hv)
    | Join p q => exact ih.Join h
    | RemoveSet set_id => exact ih.RemoveSet h

/-- States produced by `runD` are reachable. -/
theorem Reachable.runD {s : UnionFind} (r : Reachable s) (ops : List Op) :
    Reachable (runD s ops) := by
  induction ops generalizing s with
  | nil => exact r
  | cons op ops ih =>
    unfold UNION.runD
    cases h : UNION.step s op with
    | ok s1 => exact ih (Reachable.step op r h)
    | throw e => exact ih r
    | ub f => exact ih r
    | nofuel => exact ih r
/-! ## What `FindSet` answers -/

theorem ItemExists_iff {s : UnionFind} {x : Nat} :
    ItemExists s x = true ↔ 1 ≤ x ∧ ∃ a, s.nodes[x - 1]? = some (some a) := by
  unfold ItemExists
  by_cases hg : x > s.nodes.length ∨ x = 0
  · simp only [hg, if_true, Bool.false_eq_true, false_iff]
    rintro ⟨h1, a, ha⟩
    rw [List.getElem?_eq_none (by omega)] at ha; cases ha
  · simp only [hg, if_false]
    have h1 : 1 ≤ x := by omega
    cases hn : s.nodes[x - 1]? with
    | none => simp
    | some o => cases o <;> simp [h1]

theorem SetExists_iff {s : UnionFind} (hlen : s.sets.length = s.nodes.length) {x : Nat} :
    SetExists s x = true ↔ 1 ≤ x ∧ ∃ a, s.sets[x - 1]? = some (some a) := by
  unfold SetExists
  by_cases hg : x > s.nodes.length ∨ x = 0
  · simp only [hg, if_true, Bool.false_eq_true, false_iff]
    rintro ⟨h1, a, ha⟩
    rw [List.getElem?_eq_none (by omega)] at ha; cases ha
  · simp only [hg, if_false]
    have h1 : 1 ≤ x := by omega
    cases hn : s.sets[x - 1]? with
    | none => simp
    | some o => cases o <;> simp [h1]

/-- On a well-formed state `FindSet(x)` answers `r` exactly when the parent
chain of the live item `x` ends at the object whose identifier is `r`. -/
theorem findId_iff {s : UnionFind} (wf : WF s) {x r : Nat} :
    findId s x = some r ↔
      ∃ a ra rn k, 1 ≤ x ∧ s.nodes[x - 1]? = some (some a) ∧ Chain s.heap a ra k ∧
        s.heap ra = some rn ∧ rn.id = r := by
  unfold findId
  constructor
  · intro h
    cases hf : FindSet s x with
    | ok v =>
      obtain ⟨hx, a, ha⟩ := FindSet_ok_live (show FindSet s x = .ok (v.1, v.2) from hf)
      obtain ⟨ra, rn, i, k, path, ch, er, -, -, -, hfs⟩ := FindSet_live wf hx ha
      rw [hfs] at hf
      cases hf
      rw [hfs] at h
      simp only [Option.some.injEq] at h
      exact ⟨a, ra, rn, k, hx, ha, ch, er, h⟩
    | throw e => rw [hf] at h; cases h
    | ub e => rw [hf] at h; cases h
    | nofuel => rw [hf] at h; cases h
  · rintro ⟨a, ra, rn, k, hx, ha, ch, er, hid⟩
    obtain ⟨ra1, rn1, i, k1, path, ch1, er1, -, -, -, hfs⟩ := FindSet_live wf hx ha
    obtain ⟨h1, -⟩ := ch.det ch1
    subst h1
    rw [er] at er1; cases er1
    rw [hfs]
    simp only [hid]

/-- On every live item, and only there, `FindSet` answers. -/
theorem findId_isSome {s : UnionFind} (wf : WF s) {x : Nat} :
    (∃ r, findId s x = some r) ↔ ItemExists s x = true := by
  rw [ItemExists_iff]
  constructor
  · rintro ⟨r, hr⟩
    obtain ⟨a, ra, rn, k, hx, ha, -⟩ := (findId_iff wf).mp hr
    exact ⟨hx, a, ha⟩
  · rintro ⟨hx, a, ha⟩
    obtain ⟨n, e, -⟩ := wf.node_heap _ _ ha
    obtain ⟨ra, rn, i, k, ch, er, -⟩ := wf.chain a n e
    exact ⟨rn.id, (findId_iff wf).mpr ⟨a, ra, rn, k, hx, ha, ch, er, rfl⟩⟩

theorem findId_eq_none {s : UnionFind} (wf : WF s) {x : Nat} :
    findId s x = none ↔ ItemExists s x = false := by
  have := findId_isSome wf (x := x)
  cases h : findId s x with
  | none =>
    simp only [true_iff]
    cases h1 : ItemExists s x with
    | false => rfl
    | true =>
      obtain ⟨r, hr⟩ := this.mpr h1
      rw [h] at hr; cases hr
  | some r =>
    have := this.mp ⟨r, h⟩
    simp [this]

/-- A live representative is found as itself. -/
theorem findId_rep {s : UnionFind} (wf : WF s) {a : Nat} {n : UpNode} (e : s.heap a = some n)
    (p : n.parent = none) : findId s n.id = some n.id := by
  obtain ⟨h1, h2⟩ := wf.heap_node a n e
  exact (findId_iff wf).mpr ⟨a, a, n, 0, h1, h2, Chain.root e p, e, rfl⟩

/-- The answers of `FindSet` after a `Join`. -/
theorem JoinPost.answers {s s1 : UnionFind} (wf : WF s) {p q x y : Nat}
    {xn yn xn1 yn1 : UpNode} {xi yi xi1 : SetData}
    (P : JoinPost s s1 p q x y xn yn xn1 yn1 xi yi xi1) (z : Nat) :
    (∀ r, UNION.findId s z = some r → (r = xn.id ∨ r = yn.id) →
      UNION.findId s1 z = some xn1.id) ∧
    (∀ r, UNION.findId s z = some r → r ≠ xn.id → r ≠ yn.id → UNION.findId s1 z = some r) ∧
    (UNION.findId s z = none → UNION.findId s1 z = none) := by
  have wf1 := wf.of_JoinPost P
  obtain ⟨hxid, hxslot⟩ := wf.heap_node x xn P.hx
  obtain ⟨hyid, hyslot⟩ := wf.heap_node y yn P.hy
  have xy := P.xy
  have ids1 : (xn1.id = xn.id ∧ yn1.id = yn.id) ∨ (xn1.id = yn.id ∧ yn1.id = xn.id) := by
    rcases P.swap with ⟨h1, -, h2, -⟩ | ⟨h1, -, h2, -⟩
    · exact Or.inl ⟨h1, h2⟩
    · exact Or.inr ⟨h1, h2⟩
  have hatt : ∀ {c r k}, Chain s.heap c r k →
      (r = y → Chain s1.heap c x (k + 1)) ∧ (r ≠ y → Chain s1.heap c r k) := by
    intro c r k ch
    refine Chain.attach ?_ ?_ ?_ ?_ ch
    · rw [P.hx1]; simp [P.xroot1]
    · rw [P.hy1]; simp [P.yparent1]
    · rw [P.hy]; simp [P.yroot]
    · intro c hc
      by_cases hcx : c = x
      · subst hcx; rw [P.hx1, P.hx]; simp [P.xroot1, P.xroot]
      · rw [P.ho c hcx hc]
  have cx1 : Chain s1.heap x x 0 := Chain.root P.hx1 P.xroot1
  have cy1 : Chain s1.heap y x 1 := Chain.link P.hy1 P.yparent1 cx1
  have hx1id : 1 ≤ xn1.id := by rcases ids1 with ⟨h1, h2⟩ | ⟨h1, h2⟩ <;> omega
  have hy1id : 1 ≤ yn1.id := by rcases ids1 with ⟨h1, h2⟩ | ⟨h1, h2⟩ <;> omega
  have hx1slot := (wf1.heap_node x xn1 P.hx1).2
  have hy1slot := (wf1.heap_node y yn1 P.hy1).2
  -- the answer for an item whose old chain is known
  have key : ∀ a ra rn k, 1 ≤ z → s.nodes[z - 1]? = some (some a) → Chain s.heap a ra k →
      s.heap ra = some rn →
      ((ra = x ∨ ra = y) → UNION.findId s1 z = some xn1.id) ∧
      (ra ≠ x → ra ≠ y → UNION.findId s1 z = some rn.id) := by
    intro a ra rn k hz ha ch er
    obtain ⟨n, e, hid⟩ := wf.node_heap _ _ ha
    -- the object of `z` after the call
    have hnew : ∃ a1, s1.nodes[z - 1]? = some (some a1) ∧
        ∃ k1, Chain s1.heap a1 (if ra = y then x else ra) k1 := by
      by_cases hax : a = x
      · subst hax
        have hra : ra = a := (Chain.root P.hx P.xroot).det ch |>.1
        subst hra
        rw [P.hx] at e; cases e
        simp only [xy, if_false]
        rcases ids1 with ⟨h1, h2⟩ | ⟨h1, h2⟩
        · exact ⟨ra, by rw [show z - 1 = xn1.id - 1 by omega]; exact hx1slot, 0, cx1⟩
        · exact ⟨y, by rw [show z - 1 = yn1.id - 1 by omega]; exact hy1slot, 1, cy1⟩
      · by_cases hay : a = y
        · subst hay
          have hra : ra = a := (Chain.root P.hy P.yroot).det ch |>.1
          subst hra
          rw [P.hy] at e; cases e
          simp only [if_true]
          rcases ids1 with ⟨h1, h2⟩ | ⟨h1, h2⟩
          · exact ⟨ra, by rw [show z - 1 = yn1.id - 1 by omega]; exact hy1slot, 1, cy1⟩
          · exact ⟨x, by rw [show z - 1 = xn1.id - 1 by omega]; exact hx1slot, 0, cx1⟩
        · have e1 : s1.heap a = some n := by rw [P.ho a hax hay]; exact e
          have := (wf1.heap_node a n e1).2
          rw [show n.id - 1 = z - 1 by omega] at this
          refine ⟨a, this, ?_⟩
          by_cases hr : ra = y
          · simp only [hr, if_true]; exact ⟨k + 1, (hatt ch).1 hr⟩
          · simp only [hr, if_false]; exact ⟨k, (hatt ch).2 hr⟩
    obtain ⟨a1, ha1, k1, ch1⟩ := hnew
    constructor
    · intro hr
      have : (if ra = y then x else ra) = x := by
        rcases hr with h | h
        · simp [h, xy]
        · simp [h]
      rw [this] at ch1
      exact (findId_iff wf1).mpr ⟨a1, x, xn1, k1, hz, ha1, ch1, P.hx1, rfl⟩
    · intro h1 h2
      simp only [h2, if_false] at ch1
      exact (findId_iff wf1).mpr ⟨a1, ra, rn, k1, hz, ha1, ch1,
        by rw [P.ho ra h1 h2]; exact er, rfl⟩
  refine ⟨?_, ?_, ?_⟩
  · intro r hr hor
    obtain ⟨a, ra, rn, k, hz, ha, ch, er, hid⟩ := (findId_iff wf).mp hr
    refine (key a ra rn k hz ha ch er).1 ?_
    have hslot := (wf.heap_node ra rn er).2
    rcases hor with h | h
    · left
      rw [hid, h, hxslot] at hslot
      simp only [Option.some.injEq] at hslot; exact hslot.symm
    · right
      rw [hid, h, hyslot] at hslot
      simp only [Option.some.injEq] at hslot; exact hslot.symm
  · intro r hr h1 h2
    obtain ⟨a, ra, rn, k, hz, ha, ch, er, hid⟩ := (findId_iff wf).mp hr
    rw [← hid]
    refine (key a ra rn k hz ha ch er).2 ?_ ?_
    · rintro rfl
      rw [P.hx] at er; cases er; exact h1 hid.symm
    · rintro rfl
      rw [P.hy] at er; cases er; exact h2 hid.symm
  · intro hn
    rw [findId_eq_none wf] at hn
    rw [findId_eq_none wf1]
    cases h1 : ItemExists s1 z with
    | false => rfl
    | true =>
      exfalso
      obtain ⟨hz, a, ha⟩ := ItemExists_iff.mp h1
      have : ItemExists s z = true := by
        rw [ItemExists_iff]
        refine ⟨hz, ?_⟩
        rw [P.nodes_eq] at ha
        by_cases k1 : z - 1 = xn1.id - 1
        · rcases ids1 with ⟨h3, h4⟩ | ⟨h3, h4⟩
          · exact ⟨x, by rw [k1, h3]; exact hxslot⟩
          · exact ⟨y, by rw [k1, h3]; exact hyslot⟩
        · by_cases k2 : z - 1 = yn1.id - 1
          · rcases ids1 with ⟨h3, h4⟩ | ⟨h3, h4⟩
            · exact ⟨y, by rw [k2, h4]; exact hyslot⟩
            · exact ⟨x, by rw [k2, h4]; exact hxslot⟩
          · simp only [k1, k2, if_false] at ha
            exact ⟨a, ha⟩
      rw [this] at hn; cases hn
/-- A live item is a representative exactly when `FindSet` answers with the
item itself. -/
theorem isRep_iff_findId {s : UnionFind} (wf : WF s) {c : Nat} :
    isRep s c = true ↔ findId s c = some c := by
  rw [isRep_iff, findId_iff wf]
  constructor
  · rintro ⟨a, n, hc, ha, e, p⟩
    obtain ⟨n1, e1, hid⟩ := wf.node_heap _ _ ha
    rw [e] at e1; cases e1
    exact ⟨a, a, n, 0, hc, ha, Chain.root e p, e, by omega⟩
  · rintro ⟨a, ra, rn, k, hc, ha, ch, er, hid⟩
    have := (wf.heap_node ra rn er).2
    rw [hid, ha] at this
    simp only [Option.some.injEq] at this
    subst this
    obtain ⟨m, em, pm⟩ := ch.dst
    exact ⟨a, m, hc, ha, em, pm⟩

theorem isRep_heap {s : UnionFind} (wf : WF s) {p : Nat} (hp : isRep s p = true) :
    ∃ a n, s.heap a = some n ∧ n.parent = none ∧ n.id = p := by
  obtain ⟨a, n, h1, h2, h3, h4⟩ := isRep_iff.mp hp
  obtain ⟨n1, e1, hid⟩ := wf.node_heap _ _ h2
  rw [h3] at e1; cases e1
  exact ⟨a, n, h3, h4, by omega⟩

theorem heap_isRep {s : UnionFind} (wf : WF s) {a : Nat} {n : UpNode} (e : s.heap a = some n)
    (p : n.parent = none) : isRep s n.id = true :=
  (isRep_iff_findId wf).mpr (findId_rep wf e p)

/-- The call `Join` on two different live representatives. -/
theorem Join_reps {s : UnionFind} (wf : WF s) {p q : Nat} (hpq : p ≠ q)
    (hp : isRep s p = true) (hq : isRep s q = true) :
    ∃ s1, Join s p q = .ok s1 ∧
      ∃ x y xn yn xn1 yn1 xi yi xi1, JoinPost s s1 p q x y xn yn xn1 yn1 xi yi xi1 := by
  obtain ⟨a, pn, ea, pa, rfl⟩ := isRep_heap wf hp
  obtain ⟨b, qn, eb, pb, rfl⟩ := isRep_heap wf hq
  exact Join_post wf ea eb pa pb hpq

/-- A returning `FindSet` answers with `findId` and changes no answer. -/
theorem FindSet_findId {s s2 : UnionFind} (wf : WF s) {x : Nat} {res : UpNode}
    (h : FindSet s x = .ok (res, s2)) :
    findId s x = some res.id ∧ ∀ z, findId s2 z = findId s z := by
  have wf2 := wf.FindSet h
  refine ⟨by unfold findId; rw [h], ?_⟩
  obtain ⟨hx, a, ha⟩ := FindSet_ok_live h
  obtain ⟨r, rn, i, k, path, -, -, -, hp, -, hf⟩ := FindSet_live wf hx ha
  rw [hf] at h
  simp only [Res.ok.injEq, Prod.mk.injEq] at h
  obtain ⟨-, rfl⟩ := h
  intro z
  cases hz : findId s z with
  | some r0 =>
    obtain ⟨b, rb, rnb, kb, h1, h2, ch, er, hid⟩ := (findId_iff wf).mp hz
    obtain ⟨k1, -, ch1⟩ := ch.compress hp
    obtain ⟨m, em, pm⟩ := ch.dst
    rw [er] at em; cases em
    have hrp : rb ∉ path := by
      intro hm
      obtain ⟨j, cj⟩ := hp rb hm
      have := (cj.det (Chain.root er pm)).2
      omega
    refine (findId_iff wf2).mpr ⟨b, rb, rnb, k1, h1, h2, ch1, ?_, hid⟩
    show shrink s.heap path r rb = _
    rw [shrink_apply]; simp [hrp, er]
  | none =>
    rw [findId_eq_none wf] at hz
    rw [findId_eq_none wf2]
    exact hz

/-- C1 (Join merges exactly the two sets).  On every reachable state, for
different live representatives `p` and `q`, `Join(p, q)` returns; afterwards
all items that `FindSet` resolved to `p` or to `q` resolve to one common
representative `r`, and every other identifier gets the same answer as before.
Moreover, for a third live representative `c`, running `FindSet(p)` and then
`Join(FindSet(p).id, c)` returns and leaves `p`, `q` and `c` with one common
representative. -/
theorem C1_join_merges_two_sets (s : UnionFind) (hs : Reachable s) (p q : Nat) (hpq : p ≠ q)
    (hp : isRep s p = true) (hq : isRep s q = true) :
    ∃ s1, Join s p q = .ok s1 ∧
      (∃ r, (∀ x, findId s x = some p ∨ findId s x = some q → findId s1 x = some r) ∧
        (∀ x, findId s x ≠ some p → findId s x ≠ some q → findId s1 x = findId s x)) ∧
      (∀ c, c ≠ p → c ≠ q → isRep s c = true →
        ∃ n s2 s3, FindSet s1 p = .ok (n, s2) ∧ Join s2 n.id c = .ok s3 ∧
          ∃ r, findId s3 p = some r ∧ findId s3 q = some r ∧ findId s3 c = some r) := by
  have wf := hs.wf
  obtain ⟨s1, hj, x, y, xn, yn, xn1, yn1, xi, yi, xi1, P⟩ := Join_reps wf hpq hp hq
  have wf1 := wf.of_JoinPost P
  have hpick : (p = xn.id ∨ p = yn.id) ∧ (q = xn.id ∨ q = yn.id) ∧
      ∀ r, r ≠ p → r ≠ q → r ≠ xn.id ∧ r ≠ yn.id := by
    rcases P.pick with ⟨h1, h2, -⟩ | ⟨h1, h2, -⟩
    · exact ⟨Or.inl h1.symm, Or.inr h2.symm, fun r hr1 hr2 => ⟨by rw [h1]; exact hr1,
        by rw [h2]; exact hr2⟩⟩
    · exact ⟨Or.inr h2.symm, Or.inl h1.symm, fun r hr1 hr2 => ⟨by rw [h1]; exact hr2,
        by rw [h2]; exact hr1⟩⟩
  have hmerge : ∀ z, findId s z = some p ∨ findId s z = some q → findId s1 z = some xn1.id := by
    intro z hz
    rcases hz with hz | hz
    · exact (P.answers wf z).1 p hz hpick.1
    · exact (P.answers wf z).1 q hz hpick.2.1
  have hframe : ∀ z, findId s z ≠ some p → findId s z ≠ some q → findId s1 z = findId s z := by
    intro z h1 h2
    cases hz : findId s z with
    | none => exact (P.answers wf z).2.2 hz
    | some r =>
      have hr1 : r ≠ p := by rintro rfl; exact h1 hz
      have hr2 : r ≠ q := by rintro rfl; exact h2 hz
      obtain ⟨h3, h4⟩ := hpick.2.2 r hr1 hr2
      exact (P.answers wf z).2.1 r hz h3 h4
  refine ⟨s1, hj, ⟨xn1.id, hmerge, hframe⟩, ?_⟩
  intro c hcp hcq hc
  have fp := (isRep_iff_findId wf).mp hp
  have fq := (isRep_iff_findId wf).mp hq
  have fc := (isRep_iff_findId wf).mp hc
  have fp1 : findId s1 p = some xn1.id := hmerge p (Or.inl fp)
  have fq1 : findId s1 q = some xn1.id := hmerge q (Or.inr fq)
  have fc1 : findId s1 c = some c := by
    rw [hframe c (by rw [fc]; simpa using hcp) (by rw [fc]; simpa using hcq)]; exact fc
  have fw1 : findId s1 xn1.id = some xn1.id := findId_rep wf1 P.hx1 P.xroot1
  -- the call `FindSet(p)`
  have hfs : ∃ n s2, FindSet s1 p = .ok (n, s2) := by
    unfold findId at fp1
    cases hf : FindSet s1 p with
    | ok v => exact ⟨v.1, v.2, rfl⟩
    | throw e => rw [hf] at fp1; cases fp1
    | ub e => rw [hf] at fp1; cases fp1
    | nofuel => rw [hf] at fp1; cases fp1
  obtain ⟨n, s2, hf⟩ := hfs
  obtain ⟨hn, hsame⟩ := FindSet_findId wf1 hf
  have wf2 := wf1.FindSet hf
  rw [fp1] at hn
  simp only [Option.some.injEq] at hn
  have hwc : n.id ≠ c := by
    rw [← hn]
    rcases P.swap with ⟨h1, -⟩ | ⟨h1, -⟩ <;> rw [h1] <;>
      rcases P.pick with ⟨h2, h3, -⟩ | ⟨h2, h3, -⟩ <;> omega
  have rw2 : isRep s2 n.id = true := by
    rw [isRep_iff_findId wf2, hsame, ← hn]; exact fw1
  have rc2 : isRep s2 c = true := by
    rw [isRep_iff_findId wf2, hsame]; exact fc1
  obtain ⟨s3, hj3, x3, y3, xn3, yn3, xn4, yn4, xi3, yi3, xi4, P3⟩ := Join_reps wf2 hwc rw2 rc2
  have hpick3 : (n.id = xn3.id ∨ n.id = yn3.id) ∧ (c = xn3.id ∨ c = yn3.id) := by
    rcases P3.pick with ⟨h1, h2, -⟩ | ⟨h1, h2, -⟩
    · exact ⟨Or.inl h1.symm, Or.inr h2.symm⟩
    · exact ⟨Or.inr h2.symm, Or.inl h1.symm⟩
  refine ⟨n, s2, s3, hf, hj3, xn4.id, ?_, ?_, ?_⟩
  · exact (P3.answers wf2 p).1 n.id (by rw [hsame, ← hn]; exact fp1) hpick3.1
  · exact (P3.answers wf2 q).1 n.id (by rw [hsame, ← hn]; exact fq1) hpick3.1
  · exact (P3.answers wf2 c).1 c (by rw [hsame]; exact fc1) hpick3.2
theorem liveNode_heap {s : UnionFind} (wf : WF s) {a : Nat} {n : UpNode} (e : s.heap a = some n) :
    liveNode s n.id = some n := by
  obtain ⟨h1, h2⟩ := wf.heap_node a n e
  exact liveNode_eq_some.mpr ⟨a, h1, h2, e⟩

theorem setSize_heap {s : UnionFind} (wf : WF s) {a : Nat} {n : UpNode} {i : SetData}
    (e : s.heap a = some n) (ei : n.info = some i) : setSize s n.id = i.size := by
  simp [setSize, infoOf, liveNode_heap wf e, ei]

theorem membersOf_heap {s : UnionFind} (wf : WF s) {a : Nat} {n : UpNode} {i : SetData}
    (e : s.heap a = some n) (ei : n.info = some i) : membersOf s n.id = i.members := by
  simp [membersOf, infoOf, liveNode_heap wf e, ei]

theorem SetExists_of_slot {s : UnionFind} (wf : WF s) {x a : Nat} (hx : 1 ≤ x)
    (h : s.sets[x - 1]? = some (some a)) : SetExists s x = true :=
  (SetExists_iff wf.len_eq).mpr ⟨hx, a, h⟩

theorem SetExists_of_null {s : UnionFind} (wf : WF s) {x : Nat}
    (h : s.sets[x - 1]? = some none) : SetExists s x = false := by
  cases hs : SetExists s x with
  | false => rfl
  | true =>
    obtain ⟨-, a, ha⟩ := (SetExists_iff wf.len_eq).mp hs
    rw [h] at ha; cases ha

/-- The two objects of a `Join`, seen through the public calls. -/
theorem JoinPost.public {s s1 : UnionFind} (wf : WF s) {p q x y : Nat}
    {xn yn xn1 yn1 : UpNode} {xi yi xi1 : SetData}
    (P : JoinPost s s1 p q x y xn yn xn1 yn1 xi yi xi1) :
    isRep s1 xn1.id = true ∧ SetExists s1 xn1.id = true ∧ isRep s1 yn1.id = false ∧
    SetExists s1 yn1.id = false ∧ ItemExists s1 yn1.id = true ∧
    findId s1 yn1.id = some xn1.id ∧ findId s1 xn1.id = some xn1.id ∧
    setSize s1 xn1.id = setSize s xn.id + setSize s yn.id := by
  have wf1 := wf.of_JoinPost P
  obtain ⟨hx1, hxslot⟩ := wf1.heap_node x xn1 P.hx1
  obtain ⟨hy1, hyslot⟩ := wf1.heap_node y yn1 P.hy1
  have fy : findId s1 yn1.id = some xn1.id :=
    (findId_iff wf1).mpr ⟨y, x, xn1, 1, hy1, hyslot,
      Chain.link P.hy1 P.yparent1 (Chain.root P.hx1 P.xroot1), P.hx1, rfl⟩
  have hne : yn1.id ≠ xn1.id := by
    intro he
    rw [he, hxslot] at hyslot
    simp only [Option.some.injEq] at hyslot
    exact P.xy hyslot
  refine ⟨heap_isRep wf1 P.hx1 P.xroot1,
    SetExists_of_slot wf1 hx1 (wf1.root_ok x xn1 P.hx1 P.xroot1).1, ?_,
    SetExists_of_null wf1 (wf1.child_ok y yn1 x P.hy1 P.yparent1).1,
    ItemExists_iff.mpr ⟨hy1, y, hyslot⟩, fy, findId_rep wf1 P.hx1 P.xroot1, ?_⟩
  · cases hr : isRep s1 yn1.id with
    | false => rfl
    | true =>
      rw [isRep_iff_findId wf1, fy] at hr
      simp only [Option.some.injEq] at hr
      exact absurd hr.symm hne
  · rw [setSize_heap wf1 P.hx1 P.xinfo1, setSize_heap wf P.hx P.xinfo, setSize_heap wf P.hy P.yinfo,
      P.size1]
theorem run_ok_runD {s s1 : UnionFind} {ops : List Op} (h : run s ops = .ok s1) :
    runD s ops = s1 := by
  induction ops generalizing s with
  | nil => simp [run] at h; simp [runD, h]
  | cons op ops ih =>
    unfold run at h
    obtain ⟨s2, h2, h3⟩ := Res.bind_eq_ok h
    unfold runD
    rw [h2]
    exact ih h3

theorem run_isOk {s : UnionFind} {ops : List Op} (h : (run s ops).isOk = true) :
    run s ops = .ok (runD s ops) := by
  cases hr : run s ops with
  | ok s1 => rw [run_ok_runD hr]
  | throw e => rw [hr] at h; cases h
  | ub e => rw [hr] at h; cases h
  | nofuel => rw [hr] at h; cases h

theorem isRep_le {s : UnionFind} {i : Nat} (h : isRep s i = true) : i ≤ s.nodes.length := by
  obtain ⟨a, n, h1, h2, -⟩ := isRep_iff.mp h
  by_contra hlt
  rw [List.getElem?_eq_none (by omega)] at h2; cases h2

theorem SetExists_le {s : UnionFind} {i : Nat} (h : SetExists s i = true) :
    i ≤ s.nodes.length := by
  unfold SetExists at h
  by_cases hg : i > s.nodes.length ∨ i = 0
  · simp [hg] at h
  · omega

set_option maxRecDepth 100000 in
/-- C2 (weighted union without order preservation).  Under `U_NONE` or
`U_OPTIMIZE`, on every reachable state and for different live representatives
`p`, `q`, `Join(p, q)` returns; the survivor `w` is `q` when `size(q) > size(p)`
and `p` otherwise: it is a representative, both `p` and `q` resolve to it and
its size is `size(p) + size(q)`; the other identifier is no longer a set;
`GetSetsAmount()` went down by one and `GetItemsAmount()` is unchanged.
`JoinTest` of `main.cpp` runs without failure and leaves exactly the
representatives 1 and 2, each of size 11, and `GetSetsAmount() == 2`. -/
theorem C2_weighted_union :
    (∀ (s : UnionFind) (p q : Nat), Reachable s →
      (s.policy = .U_NONE ∨ s.policy = .U_OPTIMIZE) → p ≠ q →
      isRep s p = true → isRep s q = true →
      ∃ s1, Join s p q = .ok s1 ∧
        isRep s1 (if setSize s q > setSize s p then q else p) = true ∧
        SetExists s1 (if setSize s q > setSize s p then q else p) = true ∧
        findId s1 p = some (if setSize s q > setSize s p then q else p) ∧
        findId s1 q = some (if setSize s q > setSize s p then q else p) ∧
        isRep s1 (if setSize s q > setSize s p then p else q) = false ∧
        SetExists s1 (if setSize s q > setSize s p then p else q) = false ∧
        setSize s1 (if setSize s q > setSize s p then q else p) = setSize s p + setSize s q ∧
        GetSetsAmount s1 + 1 = GetSetsAmount s ∧ GetItemsAmount s1 = GetItemsAmount s) ∧
    (∃ s1, run (UnionFind.create .U_NONE) JoinTest = .ok s1 ∧
      (∀ i, isRep s1 i = true ↔ (i = 1 ∨ i = 2)) ∧
      (∀ i, SetExists s1 i = true ↔ (i = 1 ∨ i = 2)) ∧
      setSize s1 1 = 11 ∧ setSize s1 2 = 11 ∧ GetSetsAmount s1 = 2) := by
  constructor
  · intro s p q hs hpol hpq hp hq
    have wf := hs.wf
    obtain ⟨s1, hj, x, y, xn, yn, xn1, yn1, xi, yi, xi1, P⟩ := Join_reps wf hpq hp hq
    have hnp : ¬ (s.policy = .U_SENSITIVE_ORDER ∨ s.policy = .U_BOTH) := by
      rcases hpol with h | h <;> rw [h] <;> decide
    obtain ⟨hx1, hy1⟩ := P.plain hnp
    obtain ⟨r1, r2, r3, r4, -, r6, r7, r8⟩ := P.public wf
    have sx := setSize_heap wf P.hx P.xinfo
    have sy := setSize_heap wf P.hy P.yinfo
    rw [hx1] at r1 r2 r6 r7 r8
    rw [hy1] at r3 r4 r6
    refine ⟨s1, hj, ?_⟩
    rcases P.pick with ⟨h1, h2, h3⟩ | ⟨h1, h2, h3⟩
    · rw [h1] at r1 r2 r6 r7 r8 sx
      rw [h2] at r3 r4 r6 r8 sy
      have hbig : ¬ (setSize s q > setSize s p) := by rw [sx, sy]; omega
      simp only [hbig, if_false]
      exact ⟨r1, r2, r7, r6, r3, r4, r8, P.sets_amount_eq, P.items_amount_eq⟩
    · rw [h1] at r1 r2 r6 r7 r8 sx
      rw [h2] at r3 r4 r6 r8 sy
      have hbig : setSize s q > setSize s p := by rw [sx, sy]; omega
      simp only [hbig, if_true]
      exact ⟨r1, r2, r6, r7, r3, r4, by rw [r8]; omega, P.sets_amount_eq, P.items_amount_eq⟩
  · refine ⟨runD (UnionFind.create .U_NONE) JoinTest, run_isOk (by decide), ?_, ?_,
      by decide, by decide, by decide⟩
    · intro i
      constructor
      · intro h
        have hle : i < 23 := Nat.lt_succ_of_le (isRep_le h)
        have hall : ∀ j < 23, isRep (runD (UnionFind.create .U_NONE) JoinTest) j = true →
            (j = 1 ∨ j = 2) := by decide
        exact hall i hle h
      · rintro (rfl | rfl) <;> decide
    · intro i
      constructor
      · intro h
        have hle : i < 23 := Nat.lt_succ_of_le (SetExists_le h)
        have hall : ∀ j < 23, SetExists (runD (UnionFind.create .U_NONE) JoinTest) j = true →
            (j = 1 ∨ j = 2) := by decide
        exact hall i hle h
      · rintro (rfl | rfl) <;> decide

/-- C2, applied to `Join(1, 2)` on the sets `{1}` and `{2, 3}`: the larger set
`2` survives with size 3. -/
theorem C2_weighted_union_witness :
    Reachable (exPair .U_NONE) ∧ isRep (exPair .U_NONE) 1 = true ∧
    isRep (exPair .U_NONE) 2 = true ∧ setSize (exPair .U_NONE) 1 = 1 ∧
    setSize (exPair .U_NONE) 2 = 2 ∧
    ∃ s1, Join (exPair .U_NONE) 1 2 = .ok s1 ∧
      isRep s1 2 = true ∧ SetExists s1 2 = true ∧ findId s1 1 = some 2 ∧ findId s1 2 = some 2 ∧
      isRep s1 1 = false ∧ SetExists s1 1 = false ∧ setSize s1 2 = 3 ∧
      GetSetsAmount s1 + 1 = 2 ∧ GetItemsAmount s1 = 3 :=
  ⟨Reachable.runD (Reachable.create _) _, by decide, by decide, by decide, by decide,
    C2_weighted_union.1 (exPair .U_NONE) 1 2 (Reachable.runD (Reachable.create _) _)
      (by decide) (by decide) (by decide) (by decide)⟩

/-- C3 (order preservation).  Under `U_SENSITIVE_ORDER` or `U_BOTH`, on every
reachable state and for different live representatives `p`, `q` (whichever set
is larger), `Join(p, q)` returns; afterwards `p` is the representative of the
merged set, `q` is a live item that is no longer a set and resolves to `p`, and
every item of the two former sets resolves to `p`. -/
theorem C3_order_preservation (s : UnionFind) (hs : Reachable s)
    (hpol : s.policy = .U_SENSITIVE_ORDER ∨ s.policy = .U_BOTH) (p q : Nat) (hpq : p ≠ q)
    (hp : isRep s p = true) (hq : isRep s q = true) :
    ∃ s1, Join s p q = .ok s1 ∧
      SetExists s1 p = true ∧ isRep s1 p = true ∧ findId s1 p = some p ∧
      SetExists s1 q = false ∧ isRep s1 q = false ∧ ItemExists s1 q = true ∧
      findId s1 q = some p ∧
      ∀ x, (findId s x = some p ∨ findId s x = some q) → findId s1 x = some p := by
  have wf := hs.wf
  obtain ⟨s1, hj, x, y, xn, yn, xn1, yn1, xi, yi, xi1, P⟩ := Join_reps wf hpq hp hq
  obtain ⟨hx1, hy1⟩ := P.order hpol
  obtain ⟨r1, r2, r3, r4, r5, r6, r7, -⟩ := P.public wf
  rw [hx1] at r1 r2 r6 r7
  rw [hy1] at r3 r4 r5 r6
  refine ⟨s1, hj, r2, r1, r7, r4, r3, r5, r6, ?_⟩
  intro z hz
  have hpick : (p = xn.id ∨ p = yn.id) ∧ (q = xn.id ∨ q = yn.id) := by
    rcases P.pick with ⟨h1, h2, -⟩ | ⟨h1, h2, -⟩
    · exact ⟨Or.inl h1.symm, Or.inr h2.symm⟩
    · exact ⟨Or.inr h2.symm, Or.inl h1.symm⟩
  rw [← hx1]
  rcases hz with hz | hz
  · exact (P.answers wf z).1 p hz hpick.1
  · exact (P.answers wf z).1 q hz hpick.2

/-- C3, applied to `Join(1, 2)` on the sets `{1}` and `{2, 3}` under
`U_SENSITIVE_ORDER`: the second set is the larger one and `1` stays the
representative. -/
theorem C3_order_preservation_witness :
    Reachable (exPair .U_SENSITIVE_ORDER) ∧ setSize (exPair .U_SENSITIVE_ORDER) 1 = 1 ∧
    setSize (exPair .U_SENSITIVE_ORDER) 2 = 2 ∧
    ∃ s1, Join (exPair .U_SENSITIVE_ORDER) 1 2 = .ok s1 ∧
      SetExists s1 1 = true ∧ isRep s1 1 = true ∧ findId s1 1 = some 1 ∧
      SetExists s1 2 = false ∧ isRep s1 2 = false ∧ ItemExists s1 2 = true ∧
      findId s1 2 = some 1 ∧
      ∀ x, (findId (exPair .U_SENSITIVE_ORDER) x = some 1 ∨
        findId (exPair .U_SENSITIVE_ORDER) x = some 2) → findId s1 x = some 1 :=
  ⟨Reachable.runD (Reachable.create _) _, by decide, by decide,
    C3_order_preservation (exPair .U_SENSITIVE_ORDER) (Reachable.runD (Reachable.create _) _)
      (by decide) 1 2 (by decide) (by decide) (by decide)⟩

/-- C1, applied to `Join(1, 2)` on three fresh singleton sets under `U_BOTH`. -/
theorem C1_join_merges_two_sets_witness :
    Reachable (exThree .U_BOTH) ∧ isRep (exThree .U_BOTH) 1 = true ∧
    isRep (exThree .U_BOTH) 2 = true ∧
    ∃ s1, Join (exThree .U_BOTH) 1 2 = .ok s1 ∧
      (∃ r, (∀ x, findId (exThree .U_BOTH) x = some 1 ∨ findId (exThree .U_BOTH) x = some 2 →
          findId s1 x = some r) ∧
        (∀ x, findId (exThree .U_BOTH) x ≠ some 1 → findId (exThree .U_BOTH) x ≠ some 2 →
          findId s1 x = findId (exThree .U_BOTH) x)) ∧
      (∀ c, c ≠ 1 → c ≠ 2 → isRep (exThree .U_BOTH) c = true →
        ∃ n s2 s3, FindSet s1 1 = .ok (n, s2) ∧ Join s2 n.id c = .ok s3 ∧
          ∃ r, findId s3 1 = some r ∧ findId s3 2 = some r ∧ findId s3 c = some r) :=
  ⟨Reachable.runD (Reachable.create _) _, by decide, by decide,
    C1_join_merges_two_sets (exThree .U_BOTH) (Reachable.runD (Reachable.create _) _) 1 2
      (by decide) (by decide) (by decide)⟩
/-! ## Allocation of identifiers -/

/-- With an empty free pool `MakeSet` appends: it returns `nodes.size() + 1`. -/
theorem MakeSet_dense {s : UnionFind} (hf : s.free_ids = []) (data : Option Nat) :
    ∃ s1, MakeSet s data = .ok (s.nodes.length + 1, s1) ∧ s1.free_ids = [] ∧
      s1.nodes.length = s.nodes.length + 1 := by
  refine ⟨{ sets := s.sets ++ [some s.brk], nodes := s.nodes ++ [some s.brk], free_ids := []
            sets_amount := s.sets_amount + 1, items_amount := s.items_amount + 1
            policy := s.policy
            heap := s.heap.write s.brk (some (UpNode.create (s.nodes.length + 1) data))
            brk := s.brk + 1 }, ?_, rfl, by simp⟩
  unfold MakeSet
  simp [hf]

/-- Calls other than `RemoveSet` keep an empty free pool empty and add one slot
per `MakeSet`. -/
theorem runC_dense : ∀ (ops : List Op) (s s1 : UnionFind), Reachable s → s.free_ids = [] →
    (∀ op ∈ ops, op.isRemoveSet = false) → runC s ops = .ok s1 →
    s1.free_ids = [] ∧ s1.nodes.length = s.nodes.length + ops.countP Op.isMakeSet := by
  intro ops
  induction ops with
  | nil =>
    intro s s1 _ hf _ h
    simp [runC] at h
    subst h
    exact ⟨hf, by simp⟩
  | cons op ops ih =>
    intro s s1 hs hf hno h
    have hno2 : ∀ op ∈ ops, op.isRemoveSet = false := fun o ho => hno o (by simp [ho])
    unfold runC at h
    cases h2 : step s op with
    | ok s2 =>
      rw [h2] at h
      have h3 : runC s2 ops = .ok s1 := h
      have hs2 : Reachable s2 := Reachable.step op hs h2
      cases op with
      | MakeSet data =>
        obtain ⟨v, hv, hv2⟩ := Res.bind_eq_ok h2
        cases hv2
        obtain ⟨s3, hm, hf3, hl3⟩ := MakeSet_dense hf data
        rw [hm] at hv
        cases hv
        obtain ⟨r1, r2⟩ := ih _ s1 hs2 hf3 hno2 h3
        refine ⟨r1, ?_⟩
        rw [r2, hl3, List.countP_cons]
        simp [Op.isMakeSet]; omega
      | FindSet id =>
        obtain ⟨v, hv, hv2⟩ := Res.bind_eq_ok h2
        cases hv2
        obtain ⟨hx, a, ha⟩ := FindSet_ok_live (show FindSet s id = .ok (v.1, v.2) from hv)
        obtain ⟨r, rn, i, k, path, -, -, -, -, -, hfs⟩ := FindSet_live hs.wf hx ha
        rw [hfs] at hv
        cases hv
        obtain ⟨r1, r2⟩ := ih _ s1 hs2 hf hno2 h3
        refine ⟨r1, ?_⟩
        rw [r2, List.countP_cons]
        simp [Op.isMakeSet]
      | Join p q =>
        have hfl : s2.free_ids = s.free_ids ∧ s2.nodes.length = s.nodes.length := by
          by_cases hpq : p = q
          · simp [step, Join, hpq] at h2
            subst h2; exact ⟨rfl, rfl⟩
          · have hj : Join s p q = .ok s2 := h2
            obtain ⟨a, b, pn, qn, ea, eb, pa, pb, rfl, rfl⟩ := Join_ok hs.wf hpq hj
            obtain ⟨s3, hj3, x, y, xn, yn, xn1, yn1, xi, yi, xi1, P⟩ :=
              Join_post hs.wf ea eb pa pb hpq
            rw [hj3] at hj
            cases hj
            exact ⟨P.free_eq, P.len_nodes⟩
        obtain ⟨r1, r2⟩ := ih _ s1 hs2 (by rw [hfl.1]; exact hf) hno2 h3
        refine ⟨r1, ?_⟩
        rw [r2, hfl.2, List.countP_cons]
        simp [Op.isMakeSet]
      | RemoveSet set_id =>
        have := hno (.RemoveSet set_id) (by simp)
        simp [Op.isRemoveSet] at this
    | throw e =>
      rw [h2] at h
      have h3 : runC s ops = .ok s1 := h
      obtain ⟨r1, r2⟩ := ih s s1 hs hf hno2 h3
      refine ⟨r1, ?_⟩
      cases op with
      | MakeSet data =>
        obtain ⟨s3, hm, -⟩ := MakeSet_dense hf data
        simp [step, hm] at h2
      | FindSet id => rw [r2, List.countP_cons]; simp [Op.isMakeSet]
      | Join p q => rw [r2, List.countP_cons]; simp [Op.isMakeSet]
      | RemoveSet set_id => rw [r2, List.countP_cons]; simp [Op.isMakeSet]
    | ub f => rw [h2] at h; cases h
    | nofuel => rw [h2] at h; cases h

theorem runC_isOk {s : UnionFind} {ops : List Op} (h : (runC s ops).isOk = true) :
    runC s ops = .ok (runD s ops) := by
  induction ops generalizing s with
  | nil => rfl
  | cons op ops ih =>
    unfold runC at h ⊢
    unfold runD
    cases h2 : step s op with
    | ok s2 => rw [h2] at h; exact ih h
    | throw e => rw [h2] at h; exact ih h
    | ub f => rw [h2] at h; cases h
    | nofuel => rw [h2] at h; cases h

/-- Consecutive `MakeSet` calls on a state with an empty free pool return
consecutive identifiers. -/
theorem runIds_replicate : ∀ (k : Nat) (s : UnionFind), s.free_ids = [] →
    ∃ s1, runIds s (List.replicate k (.MakeSet none)) = .ok (List.range' (s.nodes.length + 1) k, s1)
  | 0, s, _ => ⟨s, rfl⟩
  | k + 1, s, hf => by
    obtain ⟨s2, hm, hf2, hl2⟩ := MakeSet_dense hf none
    obtain ⟨s1, h1⟩ := runIds_replicate k s2 hf2
    refine ⟨s1, ?_⟩
    rw [List.replicate_succ]
    unfold runIds
    rw [hm]
    simp only [Res.bind_ok]
    rw [h1, hl2]
    simp only [Res.bind_ok]
    rw [List.range'_succ]

/-- C4 (dense allocation).  Take any calls other than `RemoveSet` on the empty
structure (the caller catches the exceptions), none of them running
into undefined behaviour; when `n` of them were `MakeSet`, the next `MakeSet`
returns `n + 1`.  The 1000 `MakeSet` calls of `MakeSetsTest` return
1, 2, ..., 1000 in order. -/
theorem C4_dense_allocation :
    (∀ (policy : POLICY) (ops : List Op) (s : UnionFind) (data : Option Nat),
      (∀ op ∈ ops, op.isRemoveSet = false) → runC (UnionFind.create policy) ops = .ok s →
      ∃ s1, MakeSet s data = .ok (ops.countP Op.isMakeSet + 1, s1)) ∧
    (∃ s1, runIds (UnionFind.create .U_NONE) MakeSetsTest = .ok (List.range' 1 1000, s1)) := by
  constructor
  · intro policy ops s data hno h
    obtain ⟨hf, hl⟩ := runC_dense ops _ s (Reachable.create policy) rfl hno h
    obtain ⟨s1, hm, -⟩ := MakeSet_dense hf data
    refine ⟨s1, ?_⟩
    rw [hm, hl]
    simp [UnionFind.create]
  · exact runIds_replicate 1000 (UnionFind.create .U_NONE) rfl

/-- C4, applied to `MakeSet, MakeSet, Join(1, 2), FindSet(7), FindSet(2)` (the
call `FindSet(7)` throws): the third `MakeSet` returns 3. -/
theorem C4_dense_allocation_witness :
    (step (runD (UnionFind.create .U_OPTIMIZE) [.MakeSet none, .MakeSet none, .Join 1 2])
      (.FindSet 7)).thrown = some .uf_set_not_exists ∧
    ∃ s s1, runC (UnionFind.create .U_OPTIMIZE)
        [.MakeSet none, .MakeSet none, .Join 1 2, .FindSet 7, .FindSet 2] = .ok s ∧
      MakeSet s none = .ok (3, s1) := by
  obtain ⟨s1, h⟩ := C4_dense_allocation.1 .U_OPTIMIZE
    [.MakeSet none, .MakeSet none, .Join 1 2, .FindSet 7, .FindSet 2] _ none (by decide)
    (runC_isOk (by decide))
  exact ⟨by decide, _, s1, runC_isOk (by decide), h⟩

theorem Res.val_eq_some {α : Type} {r : Res α} {v : α} (h : r.val = some v) : r = .ok v := by
  cases r with
  | ok w => simp [Res.val] at h; rw [h]
  | throw e => simp [Res.val] at h
  | ub e => simp [Res.val] at h
  | nofuel => simp [Res.val] at h

/-- C6 (allocation uniqueness).  On every reachable state, the identifier a
`MakeSet` call returns is not the identifier of a live item at the moment of
the call (and names a live item afterwards), and two different live objects
never carry the same identifier. -/
theorem C6_allocation_uniqueness (s : UnionFind) (hs : Reachable s) :
    (∀ data id s1, MakeSet s data = .ok (id, s1) →
      ItemExists s id = false ∧ ItemExists s1 id = true) ∧
    (∀ a b na nb, s.heap a = some na → s.heap b = some nb → na.id = nb.id → a = b) := by
  have wf := hs.wf
  constructor
  · intro data id s1 h
    have P := MakeSet_post wf h
    constructor
    · cases hi : ItemExists s id with
      | false => rfl
      | true =>
        obtain ⟨-, a, ha⟩ := ItemExists_iff.mp hi
        exact absurd ha (P.vacant a)
    · rw [ItemExists_iff]
      refine ⟨P.id_pos, s.brk, ?_⟩
      rw [P.nodes_eq]; simp
  · intro a b na nb ea eb hid
    have h1 := (wf.heap_node a na ea).2
    have h2 := (wf.heap_node b nb eb).2
    rw [hid, h2] at h1
    simp only [Option.some.injEq] at h1
    exact h1.symm

/-- C6, applied to the state after `MakeSet, MakeSet, RemoveSet(1)`: the next
`MakeSet` returns the freed identifier 1, which names no live item. -/
theorem C6_allocation_uniqueness_witness :
    Reachable exRemoved ∧ ItemExists exRemoved 2 = true ∧
    ∃ s1, MakeSet exRemoved none = .ok (1, s1) ∧
      ItemExists exRemoved 1 = false ∧ ItemExists s1 1 = true := by
  have hr : Reachable exRemoved := Reachable.runD (Reachable.create _) _
  have h1 : ((MakeSet exRemoved none).val.map Prod.fst) = some 1 := by decide
  cases hv : (MakeSet exRemoved none).val with
  | none => rw [hv] at h1; cases h1
  | some v =>
    obtain ⟨id, s1⟩ := v
    rw [hv] at h1
    simp only [Option.map_some', Option.some.injEq] at h1
    subst h1
    have hm := Res.val_eq_some hv
    exact ⟨hr, by decide, s1, hm, (C6_allocation_uniqueness exRemoved hr).1 none 1 s1 hm⟩

set_option maxRecDepth 10000 in
/-- C5 (`MakeSet` never fails): refuted by evaluation.  After `MakeSet` three
times, `Join(2, 3)` and `RemoveSet(2)`, all of which return, the slot array has
length 1 and the free pool is `[2, 3]`; the next `MakeSet` takes identifier 3
and writes `nodes[2]`, past the end of the array. -/
theorem C5_makeSet_writes_out_of_bounds :
    (run (UnionFind.create .U_NONE)
      [.MakeSet none, .MakeSet none, .MakeSet none, .Join 2 3, .RemoveSet 2]).isOk = true ∧
    Reachable exStale ∧ exStale.nodes.length = 1 ∧ exStale.free_ids = [2, 3] ∧
    (MakeSet exStale none).fault = some .out_of_bounds :=
  ⟨by decide, Reachable.runD (Reachable.runD (Reachable.create _) _) _, by decide, by decide,
    by decide⟩

set_option maxRecDepth 10000 in
/-- C7 (recycling order): refuted by evaluation.  On the sets `{1}` and
`{2, 3}`, `RemoveSet(2)` removes the member sequence `[2, 3]` and returns, but
the next two `MakeSet` calls do not return 3 and 2: the first of them runs into
an out-of-bounds write. -/
theorem C7_recycling_hits_out_of_bounds :
    Reachable (exPair .U_NONE) ∧ isRep (exPair .U_NONE) 2 = true ∧
    membersOf (exPair .U_NONE) 2 = [2, 3] ∧
    (RemoveSet (exPair .U_NONE) 2).isOk = true ∧
    (runIds (exPair .U_NONE) [.RemoveSet 2, .MakeSet none, .MakeSet none]).fault
      = some .out_of_bounds :=
  ⟨Reachable.runD (Reachable.create _) _, by decide, by decide, by decide, by decide⟩

set_option maxRecDepth 10000 in
/-- C9 (a removed set is no longer a set): refuted by evaluation.  After
`MakeSet, MakeSet, RemoveSet(1)`, which all return, identifier 1 names no live
item, yet `SetExists(1)` is true: `RemoveSet` cleared `nodes[0]` but left the
pointer in `sets[0]`. -/
theorem C9_removed_set_still_exists :
    (run (UnionFind.create .U_NONE) [.MakeSet none, .MakeSet none, .RemoveSet 1]).isOk = true ∧
    Reachable exRemoved ∧ ItemExists exRemoved 1 = false ∧ isRep exRemoved 1 = false ∧
    SetExists exRemoved 1 = true :=
  ⟨by decide, Reachable.runD (Reachable.create _) _, by decide, by decide, by decide⟩

set_option maxRecDepth 10000 in
/-- C10 (set-level validation): refuted by evaluation.  With `N = 1` allocated
slot, `RemoveSet(2)` and `Join(1, 2)` pass the guard `nodes.size() < id - 1` and
read `sets[1]` past the end instead of throwing; and after
`MakeSet, MakeSet, RemoveSet(1)` the calls `RemoveSet(1)` and `Join(1, 2)` use
the deleted object that `sets[0]` still points to instead of throwing. -/
theorem C10_validation_misses_cases :
    Reachable exOne ∧ exOne.nodes.length = 1 ∧
    (RemoveSet exOne 2).fault = some .out_of_bounds ∧
    (Join exOne 1 2).fault = some .out_of_bounds ∧
    (Join exOne 2 1).fault = some .out_of_bounds ∧
    Reachable exRemoved ∧ isRep exRemoved 1 = false ∧
    (RemoveSet exRemoved 1).fault = some .dangling ∧
    (Join exRemoved 1 2).fault = some .dangling ∧
    (Join exRemoved 2 1).fault = some .dangling :=
  ⟨Reachable.runD (Reachable.create _) _, by decide, by decide, by decide, by decide,
    Reachable.runD (Reachable.create _) _, by decide, by decide, by decide, by decide⟩

set_option maxRecDepth 10000 in
/-- C8 (`RemoveSet` removes exactly the members): refuted by evaluation where
the removed set holds every live item.  After one `MakeSet`, identifier 1 is a
live representative with member sequence `[1]`, and `RemoveSet(1)` does not
return: once the only slot is popped the trimming loop reads the last element
of the empty array. -/
theorem C8_removeSet_of_all_items_fails :
    Reachable exOne ∧ isRep exOne 1 = true ∧ membersOf exOne 1 = [1] ∧
    (RemoveSet exOne 1).fault = some .empty_back :=
  ⟨Reachable.runD (Reachable.create _) _, by decide, by decide, by decide⟩
/-- The trimming loop returns when some slot is live. -/
theorem RemoveSet.trim_total : ∀ (fuel : Nat) (nodes sets : List (Option Nat)),
    sets.length = nodes.length → nodes.length < fuel →
    (∃ (k c : Nat), nodes[k]? = some (some c)) → ∃ v, RemoveSet.trim fuel nodes sets = .ok v := by
  intro fuel
  induction fuel with
  | zero => intro nodes sets _ h; omega
  | succ fuel ih =>
    intro nodes sets hlen hfuel ⟨k, c, hk⟩
    unfold RemoveSet.trim
    have hklt : k < nodes.length := by
      by_contra hlt
      rw [List.getElem?_eq_none (by omega)] at hk; cases hk
    cases hl : nodes.getLast? with
    | none =>
      rw [List.getLast?_eq_none_iff] at hl
      rw [hl] at hklt; simp at hklt
    | some o =>
      cases o with
      | some c1 => exact ⟨_, rfl⟩
      | none =>
        have hs : sets ≠ [] := by
          intro hn; rw [hn] at hlen; simp at hlen; omega
        simp only [hs, if_false]
        refine ih nodes.dropLast sets.dropLast (by simp [hlen]) (by simp; omega) ⟨k, c, ?_⟩
        have hne : k ≠ nodes.length - 1 := by
          rintro rfl
          rw [List.getLast?_eq_getElem?, hk] at hl; cases hl
        rw [List.getElem?_dropLast]
        have : k < nodes.length - 1 := by omega
        simp [this, hk]

/-- On a live representative `RemoveSet` returns as long as some live item
lies outside the set. -/
theorem RemoveSet_total {s : UnionFind} (wf : WF s) {set_id : Nat} (hrep : isRep s set_id = true)
    (hother : ∃ z, ItemExists s z = true ∧ z ∉ membersOf s set_id) :
    ∃ s1, RemoveSet s set_id = .ok s1 := by
  obtain ⟨a, sn, ea, pa, rfl⟩ := isRep_heap wf hrep
  obtain ⟨-, info, ia, -⟩ := wf.root_ok a sn ea pa
  rw [membersOf_heap wf ea ia] at hother
  obtain ⟨z, hz, hzm⟩ := hother
  obtain ⟨hz1, c, hc⟩ := ItemExists_iff.mp hz
  obtain ⟨st1, hl, hfree, hitems, hlen, hin, hout, hdel, hkeep⟩ :=
    RemoveSet.loop_spec info.members
      { nodes := s.nodes, free_ids := s.free_ids, heap := s.heap, items_amount := s.items_amount }
      (wf.info_ok ea ia).1 (fun m hm => wf.member_live ea ia hm) (wf.members_le_items ea ia)
  simp only at hlen hout
  obtain ⟨v, hv⟩ := RemoveSet.trim_total (st1.nodes.length + 1) st1.nodes s.sets
    (by rw [hlen, wf.len_eq]) (by omega)
    ⟨z - 1, c, by rw [hout (z - 1) (by rw [Nat.sub_add_cancel hz1]; exact hzm)]; exact hc⟩
  refine ⟨{ sets := v.2, nodes := v.1, free_ids := st1.free_ids
            sets_amount := dec s.sets_amount, items_amount := st1.items_amount
            policy := s.policy, heap := st1.heap, brk := s.brk }, ?_⟩
  unfold RemoveSet
  simp only [GetSetPointer_rep wf ea pa, deref_eq_ok ea, derefInfo_eq_ok ia, hl, hv, Res.bind_ok]

/-- What `RemoveSet` does on a reachable state when some live item lies outside
the removed set: it returns, the members of the set are no longer items, the
other identifiers are as before, and the counters went down by the size of the
set and by one. -/
theorem RemoveSet_removes_members (s : UnionFind) (hs : Reachable s) (set_id : Nat)
    (hrep : isRep s set_id = true)
    (hother : ∃ z, ItemExists s z = true ∧ z ∉ membersOf s set_id) :
    ∃ s1, RemoveSet s set_id = .ok s1 ∧
      (∀ m ∈ membersOf s set_id, ItemExists s1 m = false) ∧
      (∀ z, z ∉ membersOf s set_id → ItemExists s1 z = ItemExists s z) ∧
      GetItemsAmount s1 + (membersOf s set_id).length = GetItemsAmount s ∧
      GetSetsAmount s1 + 1 = GetSetsAmount s := by
  have wf := hs.wf
  obtain ⟨s1, h⟩ := RemoveSet_total wf hrep hother
  obtain ⟨a, sn, info, P⟩ := RemoveSet_post wf h
  have hmem : membersOf s set_id = info.members := by
    rw [← P.sid]; exact membersOf_heap wf P.ha P.sinfo
  rw [hmem]
  have hsome : ∀ k c, s1.nodes[k]? = some (some c) →
      k < s1.nodes.length ∧ k + 1 ∉ info.members ∧ s.nodes[k]? = some (some c) := by
    intro k c hk
    have hlt : k < s1.nodes.length := by
      by_contra hlt
      rw [List.getElem?_eq_none (by omega)] at hk; cases hk
    by_cases hm : k + 1 ∈ info.members
    · rw [P.nodes_in k hlt hm] at hk; cases hk
    · rw [P.nodes_out k hlt hm] at hk; exact ⟨hlt, hm, hk⟩
  refine ⟨s1, h, ?_, ?_, P.items_amount_eq, P.sets_amount_eq⟩
  · intro m hm
    cases hi : ItemExists s1 m with
    | false => rfl
    | true =>
      obtain ⟨h1, c, hc⟩ := ItemExists_iff.mp hi
      have := (hsome _ c hc).2.1
      rw [Nat.sub_add_cancel h1] at this
      exact absurd hm this
  · intro z hz
    cases hi : ItemExists s z with
    | true =>
      obtain ⟨h1, c, hc⟩ := ItemExists_iff.mp hi
      rw [ItemExists_iff]
      refine ⟨h1, c, ?_⟩
      have hlt : z - 1 < s1.nodes.length := by
        by_contra hlt
        have hlt0 : z - 1 < s.nodes.length := by
          by_contra hlt0
          rw [List.getElem?_eq_none (by omega)] at hc; cases hc
        rcases P.trimmed (z - 1) (by omega) hlt0 with h2 | h2
        · rw [Nat.sub_add_cancel h1] at h2; exact hz h2
        · rw [hc] at h2; cases h2
      rw [P.nodes_out _ hlt (by rw [Nat.sub_add_cancel h1]; exact hz)]
      exact hc
    | false =>
      cases hi1 : ItemExists s1 z with
      | false => rfl
      | true =>
        obtain ⟨h1, c, hc⟩ := ItemExists_iff.mp hi1
        have := ItemExists_iff.mpr ⟨h1, c, (hsome _ c hc).2.2⟩
        rw [hi] at this; cases this
/-! ## The fuel of the model is never used up -/

/-- The trimming loop of `RemoveSet` ends before its fuel does. -/
theorem RemoveSet.trim_fuel : ∀ (fuel : Nat) (nodes sets : List (Option Nat)),
    nodes.length < fuel → RemoveSet.trim fuel nodes sets ≠ .nofuel := by
  intro fuel
  induction fuel with
  | zero => intro nodes sets h; omega
  | succ fuel ih =>
    intro nodes sets hfuel
    unfold RemoveSet.trim
    cases hl : nodes.getLast? with
    | none => simp
    | some o =>
      cases o with
      | some c => simp
      | none =>
        by_cases hs : sets = []
        · simp [hs]
        · simp only [hs, if_false]
          have hne : nodes ≠ [] := by
            intro hn; rw [hn] at hl; simp at hl
          have hpos : 1 ≤ nodes.length := by
            cases nodes with
            | nil => exact absurd rfl hne
            | cons _ _ => simp
          exact ih _ _ (by rw [List.length_dropLast]; omega)

/-- On a reachable state the walk of `FindSet` ends before its fuel does. -/
theorem FindSet_fuel (s : UnionFind) (hs : Reachable s) (x : Nat) : FindSet s x ≠ .nofuel := by
  have wf := hs.wf
  by_cases hg : s.nodes.length < x ∨ x = 0
  · simp [FindSet, hg]
  · cases hn : s.nodes[x - 1]? with
    | none => simp [FindSet, hg, hn]
    | some o =>
      cases o with
      | none => simp [FindSet, hg, hn]
      | some a =>
        obtain ⟨r, rn, i, k, path, -, -, -, -, -, hf⟩ := FindSet_live wf (by omega) hn
        rw [hf]; simp
/-! ## Lookups: `GetSet`, `FindSet`, `GetItem` -/

/-- The walk of `FindSet` throws nothing. -/
theorem walk_no_throw (h : Heap) (c : Bool) : ∀ (fuel a : Nat) (e : uf_error),
    walk h c fuel a ≠ .throw e := by
  intro fuel
  induction fuel with
  | zero => intro a e; simp [walk]
  | succ fuel ih =>
    intro a e
    unfold walk
    cases hh : h a with
    | none => simp
    | some n =>
      cases hp : n.parent with
      | none => simp [hp]
      | some b =>
        cases hb : walk h c fuel b with
        | ok v => simp [hp, hb]
        | throw e1 => exact absurd hb (ih b e1)
        | ub f => simp [hp, hb]
        | nofuel => simp [hp, hb]

/-- C11 (`GetSet` succeeds exactly on live representatives): refuted.  After one
`MakeSet`, identifier 1 is a live representative, yet `GetSet(1)` throws
`uf_set_not_exists`: the guard `nodes.size() >= id` rejects every identifier
inside the allocated range; `GetSet(2)`, outside the range, passes the guard
and reads `sets[1]` past the end.  On every reachable state `GetSet` returns
for no identifier at all: it throws `uf_set_not_exists` for every identifier up
to the number of slots and reads past the end of `sets` for every larger one. -/
theorem C11_getSet_never_returns :
    (Reachable exOne ∧ isRep exOne 1 = true ∧
      (GetSet exOne 1).thrown = some .uf_set_not_exists ∧
      (GetSet exOne 2).fault = some .out_of_bounds) ∧
    (∀ s, Reachable s → ∀ id, (GetSet s id).isOk = false) ∧
    (∀ s id, id ≤ s.nodes.length → (GetSet s id).thrown = some .uf_set_not_exists) ∧
    (∀ s, Reachable s → ∀ id, s.nodes.length < id →
      (GetSet s id).fault = some .out_of_bounds) := by
  refine ⟨⟨Reachable.runD (Reachable.create _) _, by decide, by decide, by decide⟩, ?_, ?_, ?_⟩
  · intro s hs id
    have wf := hs.wf
    unfold GetSet
    by_cases hg : s.nodes.length ≥ id ∨ id = 0
    · simp [hg, Res.isOk]
    · simp only [hg, if_false]
      rw [List.getElem?_eq_none (by rw [wf.len_eq]; omega)]
      rfl
  · intro s id hid
    have hg : s.nodes.length ≥ id ∨ id = 0 := Or.inl hid
    simp [GetSet, hg, Res.thrown]
  · intro s hs id hid
    have wf := hs.wf
    have hg : ¬ (s.nodes.length ≥ id ∨ id = 0) := by omega
    unfold GetSet
    simp only [hg, if_false]
    rw [List.getElem?_eq_none (by rw [wf.len_eq]; omega)]
    rfl

/-- C12 (`FindSet` reports a missing item as `ItemNotFound`): refuted.
`FindSet(0)` on the empty structure, `FindSet(2)` with one allocated slot and
`FindSet(1)` on a vacant slot all throw `uf_set_not_exists`; `FindSet` never
throws `uf_item_not_exists`.  On every reachable state it does return on every
live item and throws `uf_set_not_exists` on every other identifier. -/
theorem C12_findSet_throws_set_error :
    ((FindSet (UnionFind.create .U_NONE) 0).thrown = some .uf_set_not_exists ∧
      (FindSet exOne 2).thrown = some .uf_set_not_exists ∧
      ItemExists exRemoved 1 = false ∧
      (FindSet exRemoved 1).thrown = some .uf_set_not_exists) ∧
    (∀ s x, (FindSet s x).thrown ≠ some .uf_item_not_exists) ∧
    (∀ s, Reachable s → ∀ x,
      (ItemExists s x = true → (FindSet s x).isOk = true) ∧
      (ItemExists s x = false → (FindSet s x).thrown = some .uf_set_not_exists)) := by
  refine ⟨⟨by decide, by decide, by decide, by decide⟩, ?_, ?_⟩
  · intro s x
    unfold FindSet
    by_cases hg : s.nodes.length < x ∨ x = 0
    · simp [hg, Res.thrown]
    · simp only [hg, if_false]
      cases hn : s.nodes[x - 1]? with
      | none => simp [Res.thrown]
      | some o =>
        cases o with
        | none => simp [Res.thrown]
        | some a =>
          simp only
          cases hw : walk s.heap (decide (s.policy = .U_OPTIMIZE ∨ s.policy = .U_BOTH))
              s.nodes.length a with
          | ok r =>
            simp only [Res.bind_ok]
            cases hd : deref (shrink s.heap r.2 r.1) r.1 with
            | ok root =>
              simp only [Res.bind_ok]
              cases hc : root.copy with
              | ok res => simp [Res.thrown]
              | throw e => simp [UpNode.copy] at hc; cases hi : root.info <;> simp [hi] at hc
              | ub f => simp [Res.thrown]
              | nofuel => simp [Res.thrown]
            | throw e => simp [deref] at hd; cases hh : shrink s.heap r.2 r.1 r.1 <;> simp [hh] at hd
            | ub f => simp [Res.thrown]
            | nofuel => simp [Res.thrown]
          | throw e => exact absurd hw (walk_no_throw _ _ _ _ _)
          | ub f => simp [Res.thrown]
          | nofuel => simp [Res.thrown]
  · intro s hs x
    have wf := hs.wf
    constructor
    · intro hx
      obtain ⟨h1, a, ha⟩ := ItemExists_iff.mp hx
      obtain ⟨r, rn, i, k, path, -, -, -, -, -, hf⟩ := FindSet_live wf h1 ha
      rw [hf]; rfl
    · intro hx
      unfold FindSet
      by_cases hg : s.nodes.length < x ∨ x = 0
      · simp [hg, Res.thrown]
      · simp only [hg, if_false]
        cases hn : s.nodes[x - 1]? with
        | none =>
          rw [List.getElem?_eq_none_iff] at hn
          omega
        | some o =>
          cases o with
          | none => simp [Res.thrown]
          | some a =>
            have := ItemExists_iff.mpr ⟨by omega, a, hn⟩
            rw [hx] at this; cases this

/-- C13 (`GetItem` succeeds on every live item): refuted.  After
`MakeSet, MakeSet, Join(1, 2)` item 2 is live and is a child of 1; `Join` set its
`info` to `NULL`, and `GetItem(2)` copies the node through that null pointer.
The same happens on every reachable state for every live item that is not a
representative; on a representative `GetItem` returns the copy with the
identifier and the payload of the item, and on an identifier that names no
live item it throws `uf_item_not_exists`. -/
theorem C13_getItem_of_child_derefs_null :
    (Reachable exChild ∧ ItemExists exChild 2 = true ∧ isRep exChild 2 = false ∧
      (GetItem exChild 2).fault = some .null_deref) ∧
    (∀ s, Reachable s → ∀ id, ItemExists s id = true → isRep s id = false →
      (GetItem s id).fault = some .null_deref) ∧
    (∀ s, Reachable s → ∀ id, isRep s id = true →
      ∃ res n, GetItem s id = .ok res ∧ liveNode s id = some n ∧ res.id = id ∧
        res.data = n.data) ∧
    (∀ s id, ItemExists s id = false → (GetItem s id).thrown = some .uf_item_not_exists) := by
  refine ⟨⟨Reachable.runD (Reachable.create _) _, by decide, by decide, by decide⟩, ?_, ?_, ?_⟩
  · intro s hs id hx hr
    have wf := hs.wf
    obtain ⟨h1, a, ha⟩ := ItemExists_iff.mp hx
    obtain ⟨n, e, hid⟩ := wf.node_heap _ _ ha
    have hlt : id - 1 < s.nodes.length := by
      by_contra hlt
      rw [List.getElem?_eq_none (by omega)] at ha; cases ha
    have hg : ¬ (s.nodes.length < id ∨ id = 0) := by omega
    cases hp : n.parent with
    | none =>
      have := isRep_iff.mpr ⟨a, n, h1, ha, e, hp⟩
      rw [hr] at this; cases this
    | some b =>
      have hi := (wf.child_ok a n b e hp).2
      simp [GetItem, hg, ha, deref_eq_ok e, UpNode.copy, hi, Res.fault]
  · intro s hs id hr
    have wf := hs.wf
    obtain ⟨a, n, h1, ha, e, hp⟩ := isRep_iff.mp hr
    obtain ⟨n1, e1, hid⟩ := wf.node_heap _ _ ha
    rw [e] at e1; cases e1
    obtain ⟨-, i, hi, -⟩ := wf.root_ok a n e hp
    have hlt : id - 1 < s.nodes.length := by
      by_contra hlt
      rw [List.getElem?_eq_none (by omega)] at ha; cases ha
    have hg : ¬ (s.nodes.length < id ∨ id = 0) := by omega
    refine ⟨{ id := n.id, parent := none, data := n.data, info := some i.copy }, n, ?_,
      liveNode_eq_some.mpr ⟨a, h1, ha, e⟩, by simp; omega, rfl⟩
    simp [GetItem, hg, ha, deref_eq_ok e, UpNode.copy, hi]
  · intro s id hx
    unfold ItemExists at hx
    unfold GetItem
    by_cases hg : s.nodes.length < id ∨ id = 0
    · simp [hg, Res.thrown]
    · have hg1 : ¬ (id > s.nodes.length ∨ id = 0) := hg
      simp only [hg1, if_false] at hx
      simp only [hg, if_false]
      rw [List.getElem?_eq_getElem (by omega)] at hx ⊢
      cases ho : s.nodes[id - 1] with
      | none => rfl
      | some a => rw [ho] at hx; cases hx
/-! ## Parent chains as lists of objects -/

theorem Path.chain {h : Heap} {a r : Nat} {l : List Nat} (p : Path h a l r) :
    Chain h a r l.length := by
  induction p with
  | root e pn => exact Chain.root e pn
  | link e pn _ ih => exact Chain.link e pn ih

theorem Chain.path {h : Heap} {a r k : Nat} (c : Chain h a r k) :
    ∃ l, Path h a l r ∧ l.length = k := by
  induction c with
  | root e pn => exact ⟨[], Path.root e pn, rfl⟩
  | link e pn _ ih =>
    obtain ⟨l, hl, hk⟩ := ih
    exact ⟨_ :: l, Path.link e pn hl, by simp [hk]⟩

/-- Every object listed by a path is allocated, has a parent, and reaches the
root in fewer steps than the start does. -/
theorem Path.mem {h : Heap} {a r : Nat} {l : List Nat} (p : Path h a l r) :
    ∀ c ∈ l, ∃ j, j < l.length ∧ Chain h c r (j + 1) := by
  induction p with
  | root _ _ => intro c hc; simp at hc
  | @link a b r l n e pn p ih =>
    intro c hc
    simp only [List.mem_cons] at hc
    rcases hc with rfl | hc
    · exact ⟨l.length, by simp, Chain.link e pn p.chain⟩
    · obtain ⟨j, hj, ch⟩ := ih c hc
      exact ⟨j, by simp; omega, ch⟩

/-- A parent chain visits no object twice. -/
theorem Path.nodup {h : Heap} {a r : Nat} {l : List Nat} (p : Path h a l r) :
    (l ++ [r]).Nodup := by
  induction p with
  | root _ _ => simp
  | @link a b r l n e pn p ih =>
    rw [List.cons_append, List.nodup_cons]
    refine ⟨?_, ih⟩
    intro hm
    rw [List.mem_append] at hm
    have ca : Chain h a r (l.length + 1) := Chain.link e pn p.chain
    rcases hm with hm | hm
    · obtain ⟨j, hj, ch⟩ := p.mem a hm
      have := (ch.det ca).2
      omega
    · simp only [List.mem_singleton] at hm
      subst hm
      obtain ⟨m, em, pm⟩ := p.chain.dst
      have := ((Chain.root em pm).det ca).2
      omega

/-- With more fuel than the chain is long, the walk of `FindSet` returns the
root and (when compressing) exactly the non-root objects of the chain. -/
theorem Path.walk {h : Heap} (c : Bool) {a r : Nat} {l : List Nat} (p : Path h a l r) :
    ∀ fuel, l.length < fuel → UNION.walk h c fuel a = .ok (r, if c then l else []) := by
  induction p with
  | @root a n e pn =>
    intro fuel hk
    obtain ⟨f, rfl⟩ : ∃ f, fuel = f + 1 := ⟨fuel - 1, by omega⟩
    cases c <;> simp [UNION.walk, e, pn]
  | @link a b r l n e pn _ ih =>
    intro fuel hk
    obtain ⟨f, rfl⟩ : ∃ f, fuel = f + 1 := ⟨fuel - 1, by simp at hk; omega⟩
    have := ih f (by simp at hk; omega)
    cases c <;> simp [UNION.walk, e, pn, this]

/-- The call `FindSet` on a live item, with the compressed path spelled out. -/
theorem FindSet_path {s : UnionFind} (wf : WF s) {x a : Nat} (hx : 1 ≤ x)
    (ha : s.nodes[x - 1]? = some (some a)) :
    ∃ l r rn i, Path s.heap a l r ∧ s.heap r = some rn ∧ rn.info = some i ∧
      l.length + 1 ≤ i.size ∧
      FindSet s x = .ok ({ id := rn.id, parent := none, data := rn.data, info := some i.copy },
        { s with heap := shrink s.heap (if decide (s.policy = .U_OPTIMIZE ∨ s.policy = .U_BOTH) then l else []) r }) := by
  obtain ⟨n, e, -⟩ := wf.node_heap _ _ ha
  obtain ⟨r, rn, i, k, c, er, ei, hk⟩ := wf.chain a n e
  obtain ⟨l, p, hl⟩ := c.path
  have hsz := wf.size_le er ei
  have hw := p.walk (decide (s.policy = .U_OPTIMIZE ∨ s.policy = .U_BOTH)) s.nodes.length
    (by omega)
  refine ⟨l, r, rn, i, p, er, ei, by omega, ?_⟩
  have hlt : x - 1 < s.nodes.length := by
    by_contra hlt
    rw [List.getElem?_eq_none (by omega)] at ha
    cases ha
  have hguard : ¬ (s.nodes.length < x ∨ x = 0) := by omega
  have hrl : r ∉ l := by
    intro hm
    have := p.nodup
    rw [List.nodup_append] at this
    exact this.2.2 hm (by simp)
  have hroot : shrink s.heap
      (if decide (s.policy = .U_OPTIMIZE ∨ s.policy = .U_BOTH) then l else []) r r = some rn := by
    rw [shrink_apply]
    have : r ∉ (if decide (s.policy = .U_OPTIMIZE ∨ s.policy = .U_BOTH) then l else []) := by
      split
      · exact hrl
      · simp
    rw [if_neg this]; exact er
  unfold FindSet
  simp only [hguard, if_false, ha, hw, Res.bind_ok, deref_eq_ok hroot, UpNode.copy, ei]

/-- C19 (the parent structure is a forest and `FindSet` terminates).  On every
reachable state, following `parent` from a live item reaches a parentless object
after at most `GetItemsAmount() - 1` steps, visits no object twice, and every
object on the way is the object of a live item; the walk of `FindSet` returns
within `GetItemsAmount()` rounds, and `FindSet` returns. -/
theorem C19_forest_and_termination (s : UnionFind) (hs : Reachable s) (x : Nat)
    (hx : ItemExists s x = true) :
    ∃ a l r, s.nodes[x - 1]? = some (some a) ∧ Path s.heap a l r ∧
      l.length + 1 ≤ GetItemsAmount s ∧ (l ++ [r]).Nodup ∧
      (∀ c ∈ l ++ [r], ∃ n, s.heap c = some n ∧ ItemExists s n.id = true ∧
        s.nodes[n.id - 1]? = some (some c)) ∧
      (∀ c : Bool, walk s.heap c (GetItemsAmount s) a = .ok (r, if c then l else [])) ∧
      (FindSet s x).isOk = true := by
  have wf := hs.wf
  obtain ⟨h1, a, ha⟩ := ItemExists_iff.mp hx
  obtain ⟨l, r, rn, i, p, er, ei, hk, hf⟩ := FindSet_path wf h1 ha
  have hsz : i.size ≤ s.items_amount := by
    rw [(wf.info_ok er ei).2.1]; exact wf.members_le_items er ei
  have hlen : l.length + 1 ≤ GetItemsAmount s := by
    unfold GetItemsAmount; omega
  refine ⟨a, l, r, ha, p, hlen, p.nodup, ?_, ?_, by rw [hf]; rfl⟩
  · intro c hc
    have hal : ∃ n, s.heap c = some n := by
      rw [List.mem_append] at hc
      rcases hc with hc | hc
      · obtain ⟨j, -, ch⟩ := p.mem c hc
        exact ch.src
      · simp only [List.mem_singleton] at hc
        subst hc; exact ⟨rn, er⟩
    obtain ⟨n, e⟩ := hal
    obtain ⟨h2, h3⟩ := wf.heap_node c n e
    exact ⟨n, e, ItemExists_iff.mpr ⟨h2, c, h3⟩, h3⟩
  · intro c
    exact p.walk c _ (by omega)

/-- C19, applied to item 22 after `JoinTest`: its chain is one step long. -/
theorem C19_forest_and_termination_witness :
    Reachable (runD (UnionFind.create .U_NONE) JoinTest) ∧
    ItemExists (runD (UnionFind.create .U_NONE) JoinTest) 22 = true ∧
    ∃ a l r, (runD (UnionFind.create .U_NONE) JoinTest).nodes[22 - 1]? = some (some a) ∧
      Path (runD (UnionFind.create .U_NONE) JoinTest).heap a l r ∧
      l.length + 1 ≤ GetItemsAmount (runD (UnionFind.create .U_NONE) JoinTest) ∧
      (l ++ [r]).Nodup ∧
      (∀ c ∈ l ++ [r], ∃ n, (runD (UnionFind.create .U_NONE) JoinTest).heap c = some n ∧
        ItemExists (runD (UnionFind.create .U_NONE) JoinTest) n.id = true ∧
        (runD (UnionFind.create .U_NONE) JoinTest).nodes[n.id - 1]? = some (some c)) ∧
      (∀ c : Bool, walk (runD (UnionFind.create .U_NONE) JoinTest).heap c
        (GetItemsAmount (runD (UnionFind.create .U_NONE) JoinTest)) a
          = .ok (r, if c then l else [])) ∧
      (FindSet (runD (UnionFind.create .U_NONE) JoinTest) 22).isOk = true :=
  ⟨Reachable.runD (Reachable.create _) _, by decide,
    C19_forest_and_termination _ (Reachable.runD (Reachable.create _) _) 22 (by decide)⟩
/-- C17 (path compression changes only the walked path).  On every reachable
state and for every live item `x`, `FindSet(x)` returns the root `r` of the
parent chain `l` of `x`; the slot arrays, the free pool, the counters and the
policy are unchanged and every object keeps its identifier, payload and
aggregate.  Under `U_OPTIMIZE` or `U_BOTH` every non-root object of the chain
gets `r` as direct parent and every other object (the root included) is
unchanged; under `U_NONE` or `U_SENSITIVE_ORDER` the whole state is unchanged.
In both cases `FindSet` gives the same representative for every identifier
before and after the call. -/
theorem C17_path_compression_frame (s : UnionFind) (hs : Reachable s) (x : Nat)
    (hx : ItemExists s x = true) :
    ∃ a l r rn res s1, s.nodes[x - 1]? = some (some a) ∧ Path s.heap a l r ∧
      s.heap r = some rn ∧ FindSet s x = .ok (res, s1) ∧ res.id = rn.id ∧
      s1.nodes = s.nodes ∧ s1.sets = s.sets ∧ s1.free_ids = s.free_ids ∧
      GetSetsAmount s1 = GetSetsAmount s ∧ GetItemsAmount s1 = GetItemsAmount s ∧
      s1.policy = s.policy ∧ s1.brk = s.brk ∧ s1.heap r = some rn ∧
      (∀ c, (s1.heap c).map (fun n => (n.id, n.data, n.info))
        = (s.heap c).map (fun n => (n.id, n.data, n.info))) ∧
      (s.policy = .U_OPTIMIZE ∨ s.policy = .U_BOTH →
        (∀ c ∈ l, ∃ n, s.heap c = some n ∧ s1.heap c = some { n with parent := some r }) ∧
        (∀ c, c ∉ l → s1.heap c = s.heap c)) ∧
      (s.policy = .U_NONE ∨ s.policy = .U_SENSITIVE_ORDER → s1 = s) ∧
      findId s x = some rn.id ∧ findId s1 x = some rn.id ∧
      (∀ y, findId s1 y = findId s y) ∧
      (∀ y, ItemExists s y = true → ∃ v w, FindSet s y = .ok v ∧ FindSet s1 y = .ok w ∧
        w.1.id = v.1.id) := by
  have wf := hs.wf
  obtain ⟨h1, a, ha⟩ := ItemExists_iff.mp hx
  obtain ⟨l, r, rn, i, p, er, ei, hk, hf⟩ := FindSet_path wf h1 ha
  have hfi := FindSet_findId wf hf
  have hrl : r ∉ l := by
    intro hm
    have := p.nodup
    rw [List.nodup_append] at this
    exact this.2.2 hm (by simp)
  have hcomp : ∀ c n, s.heap c = some n → c ∈ l →
      UNION.shrink s.heap l r c = some { n with parent := some r } := by
    intro c n e hm
    rw [shrink_apply]; simp [hm, e]
  have hkeep : ∀ (pth : List Nat) c, c ∉ pth → UNION.shrink s.heap pth r c = s.heap c := by
    intro pth c hm
    rw [shrink_apply]; simp [hm]
  refine ⟨a, l, r, rn, _, _, ha, p, er, hf, rfl, rfl, rfl, rfl, rfl, rfl, rfl, rfl, ?_, ?_, ?_,
    ?_, hfi.1, ?_, hfi.2, ?_⟩
  · show UNION.shrink s.heap _ r r = some rn
    rw [hkeep _ r (by split; exact hrl; simp)]; exact er
  · intro c
    show (UNION.shrink s.heap _ r c).map _ = _
    generalize (if decide (s.policy = .U_OPTIMIZE ∨ s.policy = .U_BOTH) then l else []) = pth
    rw [shrink_apply]
    by_cases hm : c ∈ pth
    · rw [if_pos hm]; cases s.heap c <;> rfl
    · rw [if_neg hm]
  · intro hpol
    simp only [hpol, decide_True, if_true]
    refine ⟨?_, fun c hc => hkeep l c hc⟩
    intro c hc
    obtain ⟨j, -, ch⟩ := p.mem c hc
    obtain ⟨n, e⟩ := ch.src
    exact ⟨n, e, hcomp c n e hc⟩
  · intro hpol
    have : ¬ (s.policy = .U_OPTIMIZE ∨ s.policy = .U_BOTH) := by
      rcases hpol with h | h <;> rw [h] <;> decide
    simp only [this, decide_False, Bool.false_eq_true, if_false]
    rfl
  · rw [hfi.2]; exact hfi.1
  · intro y hy
    obtain ⟨ry, hry⟩ := (findId_isSome wf).mpr hy
    have hry1 : findId _ y = some ry := (hfi.2 y).trans hry
    unfold findId at hry hry1
    cases hv : FindSet s y with
    | ok v =>
      rw [hv] at hry
      revert hry1
      split
      · rename_i w hw
        intro hry1
        refine ⟨v, w, rfl, hw, ?_⟩
        simp only [Option.some.injEq] at hry hry1
        omega
      · intro hry1; cases hry1
    | throw _ => rw [hv] at hry; cases hry
    | ub _ => rw [hv] at hry; cases hry
    | nofuel => rw [hv] at hry; cases hry

/-- C17, applied to item 4 of `exDeep`, whose chain has two non-root objects. -/
theorem C17_path_compression_frame_witness :
    Reachable exDeep ∧ ItemExists exDeep 4 = true ∧
    ∃ a l r rn res s1, exDeep.nodes[4 - 1]? = some (some a) ∧ Path exDeep.heap a l r ∧
      exDeep.heap r = some rn ∧ FindSet exDeep 4 = .ok (res, s1) ∧ res.id = rn.id ∧
      s1.nodes = exDeep.nodes ∧ s1.sets = exDeep.sets ∧ s1.free_ids = exDeep.free_ids ∧
      GetSetsAmount s1 = GetSetsAmount exDeep ∧ GetItemsAmount s1 = GetItemsAmount exDeep ∧
      s1.policy = exDeep.policy ∧ s1.brk = exDeep.brk ∧ s1.heap r = some rn ∧
      (∀ c, (s1.heap c).map (fun n => (n.id, n.data, n.info))
        = (exDeep.heap c).map (fun n => (n.id, n.data, n.info))) ∧
      (exDeep.policy = .U_OPTIMIZE ∨ exDeep.policy = .U_BOTH →
        (∀ c ∈ l, ∃ n, exDeep.heap c = some n ∧ s1.heap c = some { n with parent := some r }) ∧
        (∀ c, c ∉ l → s1.heap c = exDeep.heap c)) ∧
      (exDeep.policy = .U_NONE ∨ exDeep.policy = .U_SENSITIVE_ORDER → s1 = exDeep) ∧
      findId exDeep 4 = some rn.id ∧ findId s1 4 = some rn.id ∧
      (∀ y, findId s1 y = findId exDeep y) ∧
      (∀ y, ItemExists exDeep y = true → ∃ v w, FindSet exDeep y = .ok v ∧
        FindSet s1 y = .ok w ∧ w.1.id = v.1.id) :=
  ⟨Reachable.runD (Reachable.create _) _, by decide,
    C17_path_compression_frame exDeep (Reachable.runD (Reachable.create _) _) 4 (by decide)⟩
/-! ## Member lists and sizes over the whole structure -/

theorem mem_liveIds {s : UnionFind} {x : Nat} : x ∈ liveIds s ↔ ItemExists s x = true := by
  unfold liveIds
  rw [List.mem_filter, List.mem_range]
  constructor
  · exact fun h => h.2
  · intro h
    refine ⟨?_, h⟩
    obtain ⟨h1, a, ha⟩ := ItemExists_iff.mp h
    by_contra hlt
    rw [List.getElem?_eq_none (by omega)] at ha; cases ha

theorem mem_repIds {s : UnionFind} {r : Nat} : r ∈ repIds s ↔ isRep s r = true := by
  unfold repIds
  rw [List.mem_filter, List.mem_range]
  constructor
  · exact fun h => h.2
  · intro h
    exact ⟨by have := isRep_le h; omega, h⟩

theorem liveIds_nodup (s : UnionFind) : (liveIds s).Nodup :=
  (List.nodup_range _).filter _

theorem repIds_nodup (s : UnionFind) : (repIds s).Nodup :=
  (List.nodup_range _).filter _

/-- The member sequence of a root lists exactly the identifiers that `FindSet`
resolves to it. -/
theorem members_iff_findId {s : UnionFind} (wf : WF s) {a : Nat} {rn : UpNode} {i : SetData}
    (er : s.heap a = some rn) (ei : rn.info = some i) (x : Nat) :
    x ∈ i.members ↔ findId s x = some rn.id := by
  rw [wf.members a rn i er ei, findId_iff wf]
  constructor
  · rintro ⟨c, n, k, e, hid, ch⟩
    obtain ⟨h1, h2⟩ := wf.heap_node c n e
    subst hid
    exact ⟨c, a, rn, k, h1, h2, ch, er, rfl⟩
  · rintro ⟨c, ra, rn1, k, hx, hc, ch, era, hid⟩
    have h1 := (wf.heap_node ra rn1 era).2
    have h2 := (wf.heap_node a rn er).2
    rw [hid, h2] at h1
    simp only [Option.some.injEq] at h1
    subst h1
    obtain ⟨n, e, hn⟩ := wf.node_heap _ _ hc
    exact ⟨c, n, k, e, by omega, ch⟩

/-- The aggregate of a live representative, seen through the observers. -/
theorem isRep_info {s : UnionFind} (wf : WF s) {r : Nat} (hr : isRep s r = true) :
    ∃ a rn i, s.heap a = some rn ∧ rn.parent = none ∧ rn.id = r ∧ rn.info = some i ∧ InfoOK i ∧
      membersOf s r = i.members ∧ setSize s r = i.size := by
  obtain ⟨a, rn, e, p, hid⟩ := isRep_heap wf hr
  obtain ⟨-, i, ei, ok⟩ := wf.root_ok a rn e p
  refine ⟨a, rn, i, e, p, hid, ei, ok, ?_, ?_⟩
  · rw [← hid]; exact membersOf_heap wf e ei
  · rw [← hid]; exact setSize_heap wf e ei

theorem mem_membersOf {s : UnionFind} (wf : WF s) {r : Nat} (hr : isRep s r = true) (x : Nat) :
    x ∈ membersOf s r ↔ findId s x = some r := by
  obtain ⟨a, rn, i, e, -, hid, ei, -, hm, -⟩ := isRep_info wf hr
  rw [hm, members_iff_findId wf e ei, hid]

theorem findId_isRep {s : UnionFind} (wf : WF s) {x r : Nat} (h : findId s x = some r) :
    isRep s r = true := by
  obtain ⟨c, ra, rn, k, -, -, ch, era, hid⟩ := (findId_iff wf).mp h
  obtain ⟨m, em, pm⟩ := ch.dst
  rw [era] at em; cases em
  rw [← hid]; exact heap_isRep wf era pm

/-- The member sequences of the live representatives, one after the other. -/
theorem members_flat {s : UnionFind} (wf : WF s) :
    ((repIds s).flatMap (membersOf s)).Nodup ∧
    ∀ x, x ∈ (repIds s).flatMap (membersOf s) ↔ ItemExists s x = true := by
  constructor
  · rw [List.nodup_flatMap]
    constructor
    · intro r hr
      obtain ⟨a, rn, i, -, -, -, -, ok, hm, -⟩ := isRep_info wf (mem_repIds.mp hr)
      rw [hm]; exact ok.1
    · refine List.Pairwise.imp_of_mem ?_ (repIds_nodup s)
      intro r1 r2 h1 h2 hne
      show List.Disjoint (membersOf s r1) (membersOf s r2)
      intro x hx1 hx2
      rw [mem_membersOf wf (mem_repIds.mp h1)] at hx1
      rw [mem_membersOf wf (mem_repIds.mp h2), hx1] at hx2
      exact hne (Option.some.inj hx2)
  · intro x
    rw [List.mem_flatMap]
    constructor
    · rintro ⟨r, hr, hx⟩
      rw [mem_membersOf wf (mem_repIds.mp hr)] at hx
      exact (findId_isSome wf).mp ⟨r, hx⟩
    · intro hx
      obtain ⟨r, hr⟩ := (findId_isSome wf).mpr hx
      have hrep := findId_isRep wf hr
      exact ⟨r, mem_repIds.mpr hrep, (mem_membersOf wf hrep x).mpr hr⟩

/-- C15 (member lists partition the live identifiers).  On every reachable
state the member sequences of the live representatives, put one after the other,
are a rearrangement of the list of live identifiers, with no identifier twice
and nothing but live identifiers; and the member sequence of a live
representative `r` holds exactly the identifiers `x` for which `FindSet(x)`
returns the representative `r`. -/
theorem C15_members_partition (s : UnionFind) (hs : Reachable s) :
    ((repIds s).flatMap (membersOf s)).Perm (liveIds s) ∧
    ((repIds s).flatMap (membersOf s)).Nodup ∧
    (∀ x, x ∈ (repIds s).flatMap (membersOf s) ↔ ItemExists s x = true) ∧
    (∀ r, isRep s r = true → ∀ x, x ∈ membersOf s r ↔ findId s x = some r) ∧
    (∀ r, isRep s r = true → ∀ x, x ∈ membersOf s r ↔
      ∃ res s1, FindSet s x = .ok (res, s1) ∧ res.id = r) := by
  have wf := hs.wf
  obtain ⟨nd, hm⟩ := members_flat wf
  refine ⟨?_, nd, hm, fun r hr x => mem_membersOf wf hr x, ?_⟩
  · rw [List.perm_ext_iff_of_nodup nd (liveIds_nodup s)]
    intro x
    rw [hm, mem_liveIds]
  · intro r hr x
    rw [mem_membersOf wf hr x]
    unfold findId
    constructor
    · intro h
      cases hf : FindSet s x with
      | ok v => rw [hf] at h; exact ⟨v.1, v.2, rfl, Option.some.inj h⟩
      | throw _ => rw [hf] at h; cases h
      | ub _ => rw [hf] at h; cases h
      | nofuel => rw [hf] at h; cases h
    · rintro ⟨res, s1, hf, hid⟩
      rw [hf, ← hid]

/-- C15, applied to the state after `JoinTest`. -/
theorem C15_members_partition_witness :
    Reachable (runD (UnionFind.create .U_NONE) JoinTest) ∧
    ((repIds (runD (UnionFind.create .U_NONE) JoinTest)).flatMap
      (membersOf (runD (UnionFind.create .U_NONE) JoinTest))).Perm
        (liveIds (runD (UnionFind.create .U_NONE) JoinTest)) :=
  ⟨Reachable.runD (Reachable.create _) _,
    (C15_members_partition _ (Reachable.runD (Reachable.create _) _)).1⟩
/-- There are as many live identifiers as `items_amount` counts. -/
theorem liveIds_length {s : UnionFind} (wf : WF s) : (liveIds s).length = s.items_amount := by
  rw [wf.items_cnt, ← List.toFinset_card_of_nodup (liveIds_nodup s)]
  have : (liveIds s).toFinset = (liveSet s).image (fun k => k + 1) := by
    ext x
    rw [List.mem_toFinset, mem_liveIds, ItemExists_iff, Finset.mem_image]
    constructor
    · rintro ⟨h1, a, ha⟩
      exact ⟨x - 1, mem_liveSet.mpr ⟨a, ha⟩, by omega⟩
    · rintro ⟨k, hk, rfl⟩
      obtain ⟨a, ha⟩ := mem_liveSet.mp hk
      exact ⟨by omega, a, by simpa using ha⟩
  rw [this, Finset.card_image_of_injective _ (fun a b h => by simpa using h)]

/-- C14 (size conservation).  On every reachable state the aggregate sizes of
the live representatives add up to `GetItemsAmount()`, and the aggregate size of
a live representative `r` is the number of live identifiers that `FindSet`
resolves to `r`, which are the live items whose parent chain ends at the object
of `r`. -/
theorem C14_size_conservation (s : UnionFind) (hs : Reachable s) :
    ((repIds s).map (setSize s)).sum = GetItemsAmount s ∧
    (∀ r, isRep s r = true →
      setSize s r = ((liveIds s).filter (fun x => decide (findId s x = some r))).length) ∧
    (∀ x r, findId s x = some r ↔
      ∃ a b n k, 1 ≤ x ∧ s.nodes[x - 1]? = some (some a) ∧ Chain s.heap a b k ∧
        s.heap b = some n ∧ n.id = r) := by
  have wf := hs.wf
  obtain ⟨nd, hm⟩ := members_flat wf
  refine ⟨?_, ?_, fun x r => findId_iff wf⟩
  · have hperm : ((repIds s).flatMap (membersOf s)).Perm (liveIds s) := by
      rw [List.perm_ext_iff_of_nodup nd (liveIds_nodup s)]
      intro x
      rw [hm, mem_liveIds]
    have hmap : (repIds s).map (setSize s) = (repIds s).map (List.length ∘ membersOf s) := by
      apply List.map_congr_left
      intro r hr
      obtain ⟨a, rn, i, -, -, -, -, ok, h1, h2⟩ := isRep_info wf (mem_repIds.mp hr)
      simp only [Function.comp]
      rw [h1, h2, ok.2.1]
    rw [hmap, ← List.length_flatMap, hperm.length_eq, liveIds_length wf]
    rfl
  · intro r hr
    obtain ⟨a, rn, i, -, -, -, -, ok, h1, h2⟩ := isRep_info wf hr
    rw [h2, ok.2.1, ← h1]
    apply List.Perm.length_eq
    rw [List.perm_ext_iff_of_nodup (by rw [h1]; exact ok.1) ((liveIds_nodup s).filter _)]
    intro x
    rw [mem_membersOf wf hr, List.mem_filter, mem_liveIds]
    constructor
    · intro h
      exact ⟨(findId_isSome wf).mp ⟨r, h⟩, by simpa using h⟩
    · rintro ⟨-, h⟩
      simpa using h

/-- C14, applied to the state after `JoinTest`. -/
theorem C14_size_conservation_witness :
    Reachable (runD (UnionFind.create .U_NONE) JoinTest) ∧
    ((repIds (runD (UnionFind.create .U_NONE) JoinTest)).map
      (setSize (runD (UnionFind.create .U_NONE) JoinTest))).sum
        = GetItemsAmount (runD (UnionFind.create .U_NONE) JoinTest) :=
  ⟨Reachable.runD (Reachable.create _) _,
    (C14_size_conservation _ (Reachable.runD (Reachable.create _) _)).1⟩
/-- C16 (`Join` concatenates member sequences in order).  On every reachable
state and for different live representatives `p`, `q`, `Join(p, q)` returns;
the member sequence of the representative of the merged set is the sequence of
`p` followed by that of `q` when `size(p) >= size(q)` and the sequence of `q`
followed by that of `p` otherwise; it holds no identifier twice, its length and
the aggregate size are the sum of the two sizes, and the tail reference is at
its last cell. -/
theorem C16_join_concatenates (s : UnionFind) (hs : Reachable s) (p q : Nat) (hpq : p ≠ q)
    (hp : isRep s p = true) (hq : isRep s q = true) :
    ∃ s1 r i, Join s p q = .ok s1 ∧ isRep s1 r = true ∧ findId s1 p = some r ∧
      findId s1 q = some r ∧ infoOf s1 r = some i ∧ membersOf s1 r = i.members ∧
      i.members = (if setSize s p ≥ setSize s q then membersOf s p ++ membersOf s q
        else membersOf s q ++ membersOf s p) ∧
      i.members.Nodup ∧ i.size = setSize s p + setSize s q ∧
      i.members.length = setSize s p + setSize s q ∧ 0 < i.members.length ∧
      i.last = some (i.members.length - 1) := by
  have wf := hs.wf
  obtain ⟨s1, hj, x, y, xn, yn, xn1, yn1, xi, yi, xi1, P⟩ := Join_reps wf hpq hp hq
  have wf1 := wf.of_JoinPost P
  have pub := P.public wf
  have hxs := setSize_heap wf P.hx P.xinfo
  have hys := setSize_heap wf P.hy P.yinfo
  have hxm := membersOf_heap wf P.hx P.xinfo
  have hym := membersOf_heap wf P.hy P.yinfo
  have hfp := (isRep_iff_findId wf).mp hp
  have hfq := (isRep_iff_findId wf).mp hq
  obtain ⟨nd, hsz, j, hlast, hj1⟩ := wf1.info_ok P.hx1 P.xinfo1
  have hinfo : infoOf s1 xn1.id = some xi1 := by
    simp [infoOf, liveNode_heap wf1 P.hx1, P.xinfo1]
  have hpid : p = xn.id ∨ p = yn.id := by
    rcases P.pick with h | h
    · exact Or.inl h.1.symm
    · exact Or.inr h.2.1.symm
  have hqid : q = xn.id ∨ q = yn.id := by
    rcases P.pick with h | h
    · exact Or.inr h.2.1.symm
    · exact Or.inl h.1.symm
  have hmem : xi1.members = (if setSize s p ≥ setSize s q then membersOf s p ++ membersOf s q
      else membersOf s q ++ membersOf s p) := by
    rcases P.pick with ⟨h1, h2, h3⟩ | ⟨h1, h2, h3⟩
    · rw [← h1, ← h2, hxs, hys, hxm, hym, if_pos h3]; exact P.members1
    · rw [← h1, ← h2, hxs, hys, hxm, hym, if_neg (by omega)]; exact P.members1
  have hsum : xi1.size = setSize s p + setSize s q := by
    rw [P.size1]
    rcases P.pick with ⟨h1, h2, -⟩ | ⟨h1, h2, -⟩
    · rw [← h1, ← h2, hxs, hys]
    · rw [← h1, ← h2, hxs, hys]; omega
  refine ⟨s1, xn1.id, xi1, hj, pub.1, ((P.answers wf p).1 p hfp hpid),
    ((P.answers wf q).1 q hfq hqid), hinfo, by simp [membersOf, hinfo], hmem, nd, hsum,
    by rw [← hsz]; exact hsum, by omega, ?_⟩
  rw [hlast]; congr 1; omega

/-- C16, applied to `Join(1, 2)` on the sets `{1}` and `{2, 3}`: the larger set
`2` comes first. -/
theorem C16_join_concatenates_witness :
    Reachable (exPair .U_NONE) ∧ isRep (exPair .U_NONE) 1 = true ∧
    isRep (exPair .U_NONE) 2 = true ∧ membersOf (exPair .U_NONE) 1 = [1] ∧
    membersOf (exPair .U_NONE) 2 = [2, 3] ∧
    ∃ s1 r i, Join (exPair .U_NONE) 1 2 = .ok s1 ∧ isRep s1 r = true ∧ findId s1 1 = some r ∧
      findId s1 2 = some r ∧ infoOf s1 r = some i ∧ membersOf s1 r = i.members ∧
      i.members = (if setSize (exPair .U_NONE) 1 ≥ setSize (exPair .U_NONE) 2
        then membersOf (exPair .U_NONE) 1 ++ membersOf (exPair .U_NONE) 2
        else membersOf (exPair .U_NONE) 2 ++ membersOf (exPair .U_NONE) 1) ∧
      i.members.Nodup ∧ i.size = setSize (exPair .U_NONE) 1 + setSize (exPair .U_NONE) 2 ∧
      i.members.length = setSize (exPair .U_NONE) 1 + setSize (exPair .U_NONE) 2 ∧
      0 < i.members.length ∧ i.last = some (i.members.length - 1) :=
  ⟨Reachable.runD (Reachable.create _) _, by decide, by decide, by decide, by decide,
    C16_join_concatenates (exPair .U_NONE) (Reachable.runD (Reachable.create _) _) 1 2
      (by decide) (by decide) (by decide)⟩
/-! ## The height bound of union by size -/

theorem Balanced.init (policy : POLICY) : Balanced (UnionFind.create policy) := by
  intro a r k rn i c
  obtain ⟨n, e⟩ := c.src
  simp [UnionFind.create] at e

theorem Balanced.after_MakeSet {s s1 : UnionFind} {data : Option Nat} {id : Nat} (wf : WF s)
    (B : Balanced s) (h : MakeSet s data = .ok (id, s1)) : Balanced s1 := by
  have P := MakeSet_post wf h
  have wf1 := wf.MakeSet h
  have fresh := wf.fresh
  intro a r k rn i c er ei
  by_cases ha : a = s.brk
  · subst ha
    have hnew : s1.heap s.brk = some (UpNode.create id data) := by rw [P.heap_eq]; simp
    obtain ⟨-, h2⟩ := (Chain.root hnew rfl).det c
    subst h2
    obtain ⟨r1, rn1, i1, k1, c1, er1, ei1, hk1⟩ := wf1.chain r rn er
    obtain ⟨m, em, pm⟩ := c.dst
    obtain ⟨h3, -⟩ := (Chain.root em pm).det c1
    subst h3
    rw [er] at er1; cases er1
    rw [ei] at ei1; cases ei1
    simp; omega
  · obtain ⟨n, e⟩ := c.src
    rw [P.heap_eq, Heap.write_other _ _ ha] at e
    obtain ⟨r0, rn0, i0, k0, c0, er0, ei0, -⟩ := wf.chain a n e
    have c1 : Chain s1.heap a r0 k0 := by rw [P.heap_eq]; exact c0.write_fresh _ fresh
    obtain ⟨h1, h2⟩ := c1.det c
    subst h1; subst h2
    have hr : r ≠ s.brk := by rintro rfl; rw [fresh] at er0; cases er0
    rw [P.heap_eq, Heap.write_other _ _ hr, er0] at er
    cases er
    rw [ei0] at ei; cases ei
    exact B _ _ _ _ _ c0 er0 ei0

theorem Balanced.after_shrink {s : UnionFind} (wf : WF s) (B : Balanced s) {path : List Nat} {r : Nat}
    (hp : ∀ p ∈ path, ∃ j, Chain s.heap p r (j + 1)) :
    Balanced { s with heap := UNION.shrink s.heap path r } := by
  intro a r1 k rn i c er ei
  have hinfo : ∀ b m, UNION.shrink s.heap path r b = some m →
      ∃ m0, s.heap b = some m0 ∧ m.info = m0.info := by
    intro b m e
    rw [shrink_apply] at e
    cases e0 : s.heap b with
    | none => rw [e0] at e; simp at e
    | some m0 =>
      rw [e0] at e
      by_cases hm : b ∈ path
      · simp only [hm, if_true, Option.map_some', Option.some.injEq] at e
        subst e; exact ⟨m0, rfl, rfl⟩
      · simp only [hm, if_false, Option.some.injEq] at e
        subst e; exact ⟨m0, rfl, rfl⟩
  obtain ⟨n, e⟩ := c.src
  obtain ⟨n0, e0, -⟩ := hinfo a n e
  obtain ⟨r0, rn0, i0, k0, c0, er0, ei0, -⟩ := wf.chain a n0 e0
  obtain ⟨k1, hk1, c1⟩ := c0.compress hp
  obtain ⟨h1, h2⟩ := c1.det c
  subst h1; subst h2
  obtain ⟨m0, em0, hm0⟩ := hinfo r1 rn er
  rw [er0] at em0; cases em0
  rw [ei, ei0] at hm0; cases hm0
  exact le_trans (Nat.pow_le_pow_right (by omega) hk1) (B a r1 k0 rn0 i c0 er0 ei0)

theorem Balanced.after_FindSet {s s1 : UnionFind} {x : Nat} {res : UpNode} (wf : WF s)
    (B : Balanced s) (h : FindSet s x = .ok (res, s1)) : Balanced s1 := by
  obtain ⟨hx, a, ha⟩ := FindSet_ok_live h
  obtain ⟨r, rn, i, k, path, -, -, -, hp, -, hf⟩ := FindSet_live wf hx ha
  rw [hf] at h
  simp only [Res.ok.injEq, Prod.mk.injEq] at h
  rw [← h.2]
  exact B.after_shrink wf hp

theorem Balanced.after_JoinPost {s s1 : UnionFind} (wf : WF s) (B : Balanced s) {p q x y : Nat}
    {xn yn xn1 yn1 : UpNode} {xi yi xi1 : SetData}
    (P : JoinPost s s1 p q x y xn yn xn1 yn1 xi yi xi1) : Balanced s1 := by
  have hatt : ∀ {c r k}, Chain s.heap c r k →
      (r = y → Chain s1.heap c x (k + 1)) ∧ (r ≠ y → Chain s1.heap c r k) := by
    intro c r k ch
    refine Chain.attach ?_ ?_ ?_ ?_ ch
    · rw [P.hx1]; simp [P.xroot1]
    · rw [P.hy1]; simp [P.yparent1]
    · rw [P.hy]; simp [P.yroot]
    · intro c hc
      by_cases hcx : c = x
      · subst hcx; rw [P.hx1, P.hx]; simp [P.xroot1, P.xroot]
      · rw [P.ho c hcx hc]
  have hle : yi.size ≤ xi.size := by
    rcases P.pick with ⟨-, -, h⟩ | ⟨-, -, h⟩ <;> omega
  intro a r k rn i c er ei
  have hsrc : ∃ n0, s.heap a = some n0 := by
    by_cases hax : a = x
    · subst hax; exact ⟨xn, P.hx⟩
    · by_cases hay : a = y
      · subst hay; exact ⟨yn, P.hy⟩
      · obtain ⟨n, e⟩ := c.src
        rw [P.ho a hax hay] at e; exact ⟨n, e⟩
  obtain ⟨n0, e0⟩ := hsrc
  obtain ⟨r0, rn0, i0, k0, c0, er0, ei0, -⟩ := wf.chain a n0 e0
  have hB := B a r0 k0 rn0 i0 c0 er0 ei0
  by_cases hr0 : r0 = y
  · subst hr0
    obtain ⟨h1, h2⟩ := ((hatt c0).1 rfl).det c
    subst h1; subst h2
    rw [P.hx1] at er; cases er
    rw [P.xinfo1] at ei; cases ei
    rw [P.hy] at er0; cases er0
    rw [P.yinfo] at ei0; cases ei0
    rw [P.size1, pow_succ]; omega
  · obtain ⟨h1, h2⟩ := ((hatt c0).2 hr0).det c
    subst h1; subst h2
    by_cases hrx : r = x
    · subst hrx
      rw [P.hx1] at er; cases er
      rw [P.xinfo1] at ei; cases ei
      rw [P.hx] at er0; cases er0
      rw [P.xinfo] at ei0; cases ei0
      rw [P.size1]; omega
    · rw [P.ho r hrx hr0, er0] at er; cases er
      rw [ei0] at ei; cases ei
      exact hB

theorem Balanced.after_Join {s s1 : UnionFind} (wf : WF s) (B : Balanced s) {p q : Nat}
    (h : Join s p q = .ok s1) : Balanced s1 := by
  by_cases hpq : p = q
  · simp [UNION.Join, hpq] at h
    rw [← h]; exact B
  · obtain ⟨a, b, pn, qn, ea, eb, pa, pb, rfl, rfl⟩ := Join_ok wf hpq h
    obtain ⟨s2, h2, x, y, xn, yn, xn1, yn1, xi, yi, xi1, P⟩ := Join_post wf ea eb pa pb hpq
    rw [h2] at h
    cases h
    exact B.after_JoinPost wf P

theorem Balanced.after_RemovePost {s s1 : UnionFind} (wf : WF s) (B : Balanced s)
    {set_id a : Nat} {sn : UpNode} {info : SetData} (P : RemovePost s s1 set_id a sn info) :
    Balanced s1 := by
  have hchainM : ∀ c n, s.heap c = some n → (n.id ∈ info.members ↔ ∃ k, Chain s.heap c a k) := by
    intro c n e
    rw [wf.members a sn info P.ha P.sinfo]
    constructor
    · rintro ⟨c1, n1, k, e1, hid, ch⟩
      have h1 := (wf.heap_node c1 n1 e1).2
      have h2 := (wf.heap_node c n e).2
      rw [hid, h2] at h1
      simp only [Option.some.injEq] at h1
      subst h1; exact ⟨k, ch⟩
    · rintro ⟨k, ch⟩
      exact ⟨c, n, k, e, rfl, ch⟩
  have hcases : ∀ c n, s1.heap c = some n → s.heap c = some n ∧ n.id ∉ info.members := by
    intro c n e
    cases e0 : s.heap c with
    | none => rw [P.unalloc c e0] at e; cases e
    | some n0 =>
      by_cases hm : n0.id ∈ info.members
      · rw [P.gone c n0 e0 hm] at e; cases e
      · rw [P.kept c n0 e0 hm] at e; cases e; exact ⟨rfl, hm⟩
  have htrans : ∀ {c r k}, Chain s.heap c r k → r ≠ a → Chain s1.heap c r k := by
    intro c r k ch hr
    refine Chain.delete (fun c => ∃ n, s.heap c = some n ∧ n.id ∈ info.members) ?_ ?_ ch hr
    · intro c hD
      cases e0 : s.heap c with
      | none => exact P.unalloc c e0
      | some n0 =>
        rw [P.kept c n0 e0]
        intro hm; exact hD ⟨n0, e0, hm⟩
    · rintro c ⟨n, e, hm⟩
      exact (hchainM c n e).mp hm
  intro c r k rn i ch er ei
  obtain ⟨n, e⟩ := ch.src
  obtain ⟨e0, hm⟩ := hcases c n e
  obtain ⟨r0, rn0, i0, k0, c0, er0, ei0, -⟩ := wf.chain c n e0
  have hr0 : r0 ≠ a := by
    rintro rfl
    exact hm ((hchainM c n e0).mpr ⟨k0, c0⟩)
  obtain ⟨h1, h2⟩ := (htrans c0 hr0).det ch
  subst h1; subst h2
  obtain ⟨er1, -⟩ := hcases r rn er
  rw [er0] at er1; cases er1
  rw [ei0] at ei; cases ei
  exact B _ _ _ _ _ c0 er0 ei0

theorem Balanced.after_RemoveSet {s s1 : UnionFind} (wf : WF s) (B : Balanced s) {set_id : Nat}
    (h : RemoveSet s set_id = .ok s1) : Balanced s1 := by
  obtain ⟨a, sn, info, P⟩ := RemoveSet_post wf h
  exact B.after_RemovePost wf P

/-- Every state the structure can reach satisfies the height bound. -/
theorem Reachable.balanced {s : UnionFind} (r : Reachable s) : Balanced s := by
  induction r with
  | create policy => exact Balanced.init policy
  | @step s s1 op hr h ih =>
    have wf := hr.wf
    cases op with
    | MakeSet data =>
      obtain ⟨v, hv, h1⟩ := Res.bind_eq_ok h
      cases h1
      exact ih.after_MakeSet wf (show MakeSet s data = .ok (v.1, v.2) from hv)
    | FindSet id =>
      obtain ⟨v, hv, h1⟩ := Res.bind_eq_ok h
      cases h1
      exact ih.after_FindSet wf (show FindSet s id = .ok (v.1, v.2) from hv)
    | Join p q => exact ih.after_Join wf h
    | RemoveSet set_id => exact ih.after_RemoveSet wf h
theorem pow_foldr_max (N : Nat) (hN : 1 ≤ N) :
    ∀ l : List Nat, (∀ d ∈ l, 2 ^ d ≤ N) → 2 ^ (l.foldr max 0) ≤ N := by
  intro l
  induction l with
  | nil => intro _; simpa using hN
  | cons d l ih =>
    intro h
    rw [List.foldr_cons]
    rcases le_total d (l.foldr max 0) with hle | hle
    · rw [max_eq_right hle]
      exact ih (fun e he => h e (List.mem_cons_of_mem _ he))
    · rw [max_eq_left hle]
      exact h d (List.mem_cons_self _ _)

theorem le_foldr_max : ∀ (l : List Nat) (d : Nat), d ∈ l → d ≤ l.foldr max 0 := by
  intro l
  induction l with
  | nil => intro d hd; simp at hd
  | cons e l ih =>
    intro d hd
    rw [List.foldr_cons]
    rcases List.mem_cons.mp hd with rfl | hd
    · exact le_max_left _ _
    · exact le_trans (ih d hd) (le_max_right _ _)

/-- The walk of `FindSet` from a live item counts the links of its chain. -/
theorem depth_path {s : UnionFind} (wf : WF s) {x a b : Nat} {l : List Nat} (hx : 1 ≤ x)
    (ha : s.nodes[x - 1]? = some (some a)) (p : Path s.heap a l b) : depth s x = l.length := by
  obtain ⟨n, e, -⟩ := wf.node_heap _ _ ha
  obtain ⟨r, rn, i, k, c, er, ei, hk⟩ := wf.chain a n e
  obtain ⟨h1, h2⟩ := c.det p.chain
  have hsz := wf.size_le er ei
  have hw := p.walk true s.nodes.length (by omega)
  have hx0 : x ≠ 0 := by omega
  unfold depth
  simp [hx0, ha, hw]

/-- C18 (weighted union bounds tree height).  On every reachable state, under
any policy, every live representative `r` has `size(r) >= 2 ^ height(r)`, where
`height(r)` is the length of the longest parent chain from a live item to `r`;
every parent chain from a live item is counted by `depth`, is no longer than the
height of its root, and has length at most `log2` of the number of live items. -/
theorem C18_height_bound (s : UnionFind) (hs : Reachable s) :
    (∀ r, isRep s r = true →
      1 ≤ setSize s r ∧ 2 ^ height s r ≤ setSize s r ∧ setSize s r ≤ GetItemsAmount s ∧
      height s r ≤ Nat.log 2 (GetItemsAmount s)) ∧
    (∀ x a l b rn, 1 ≤ x → s.nodes[x - 1]? = some (some a) → Path s.heap a l b →
      s.heap b = some rn →
      isRep s rn.id = true ∧ findId s x = some rn.id ∧ depth s x = l.length ∧
      l.length ≤ height s rn.id ∧ 2 ^ l.length ≤ setSize s rn.id ∧
      l.length ≤ Nat.log 2 (GetItemsAmount s)) := by
  have wf := hs.wf
  have B := hs.balanced
  have hpath : ∀ x a l b rn, 1 ≤ x → s.nodes[x - 1]? = some (some a) → Path s.heap a l b →
      s.heap b = some rn →
      isRep s rn.id = true ∧ findId s x = some rn.id ∧ depth s x = l.length ∧
      2 ^ l.length ≤ setSize s rn.id := by
    intro x a l b rn hx ha p eb
    obtain ⟨m, em, pm⟩ := p.chain.dst
    rw [eb] at em; cases em
    obtain ⟨-, i, ei, -⟩ := wf.root_ok b rn eb pm
    refine ⟨heap_isRep wf eb pm, (findId_iff wf).mpr ⟨a, b, rn, _, hx, ha, p.chain, eb, rfl⟩,
      depth_path wf hx ha p, ?_⟩
    rw [setSize_heap wf eb ei]
    exact B a b _ rn i p.chain eb ei
  have hrep : ∀ r, isRep s r = true →
      1 ≤ setSize s r ∧ 2 ^ height s r ≤ setSize s r ∧ setSize s r ≤ GetItemsAmount s := by
    intro r hr
    obtain ⟨a, rn, i, e, pr, hid, ei, ok, -, hsz⟩ := isRep_info wf hr
    have h1 : 1 ≤ setSize s r := by
      have := B a a 0 rn i (Chain.root e pr) e ei
      rw [hsz]; simpa using this
    refine ⟨h1, ?_, ?_⟩
    · unfold height
      apply pow_foldr_max _ h1
      intro d hd
      obtain ⟨x, hx, rfl⟩ := List.mem_map.mp hd
      obtain ⟨hx1, hx2⟩ := List.mem_filter.mp hx
      have hf : findId s x = some r := by simpa using hx2
      obtain ⟨c, rb, rm, k, hx0, hc, ch, erb, hrid⟩ := (findId_iff wf).mp hf
      obtain ⟨l, p, -⟩ := ch.path
      have := (hpath x c l rb rm hx0 hc p erb).2.2
      rw [hrid] at this
      rw [this.1]; exact this.2
    · rw [hsz, ok.2.1]
      exact wf.members_le_items e ei
  refine ⟨?_, ?_⟩
  · intro r hr
    obtain ⟨h1, h2, h3⟩ := hrep r hr
    exact ⟨h1, h2, h3, Nat.le_log_of_pow_le (by omega) (le_trans h2 h3)⟩
  · intro x a l b rn hx ha p eb
    obtain ⟨h1, h2, h3, h4⟩ := hpath x a l b rn hx ha p eb
    obtain ⟨-, -, h5⟩ := hrep rn.id h1
    refine ⟨h1, h2, h3, ?_, h4, Nat.le_log_of_pow_le (by omega) (le_trans h4 h5)⟩
    unfold height
    apply le_foldr_max
    rw [← h3]
    exact List.mem_map.mpr ⟨x, List.mem_filter.mpr
      ⟨mem_liveIds.mpr (ItemExists_iff.mpr ⟨hx, a, ha⟩), by simpa using h2⟩, rfl⟩


set_option maxRecDepth 100000 in
/-- C18, applied to `exChild`: the tree of representative 1 has height 1 and
size 2. -/
theorem C18_height_bound_witness :
    Reachable exChild ∧ isRep exChild 1 = true ∧ height exChild 1 = 1 ∧ setSize exChild 1 = 2 ∧
    (1 ≤ setSize exChild 1 ∧ 2 ^ height exChild 1 ≤ setSize exChild 1 ∧
      setSize exChild 1 ≤ GetItemsAmount exChild ∧
      height exChild 1 ≤ Nat.log 2 (GetItemsAmount exChild)) :=
  ⟨Reachable.runD (Reachable.create _) _, by decide, by decide, by decide,
    (C18_height_bound exChild (Reachable.runD (Reachable.create _) _)).1 1 (by decide)⟩
/-- When every slot is vacant the trimming loop empties the array and then reads
the last element of the empty array. -/
theorem RemoveSet.trim_vacant : ∀ (fuel : Nat) (nodes sets : List (Option Nat)),
    nodes.length < fuel → (∀ k, k < nodes.length → nodes[k]? = some none) →
    RemoveSet.trim fuel nodes sets = .ub .empty_back := by
  intro fuel
  induction fuel with
  | zero => intro nodes sets h; omega
  | succ fuel ih =>
    intro nodes sets hfuel hall
    unfold RemoveSet.trim
    cases hl : nodes.getLast? with
    | none => rfl
    | some o =>
      have hne : nodes ≠ [] := by
        rintro rfl; simp at hl
      have hpos : 0 < nodes.length := List.length_pos.mpr hne
      rw [List.getLast?_eq_getElem?, hall _ (by omega)] at hl
      cases hl
      by_cases hs : sets = []
      · simp [hs]
      · simp only [hs, if_false]
        apply ih
        · rw [List.length_dropLast]; omega
        · intro k hk
          rw [List.length_dropLast] at hk
          rw [List.getElem?_dropLast, if_pos hk]
          exact hall k (by omega)

/-- The call `RemoveSet` on a live representative whose set holds every live
item reads the last element of an empty array. -/
theorem RemoveSet_all {s : UnionFind} (wf : WF s) {set_id : Nat} (hrep : isRep s set_id = true)
    (hall : ∀ z, ItemExists s z = true → z ∈ membersOf s set_id) :
    RemoveSet s set_id = .ub .empty_back := by
  obtain ⟨a, sn, ea, pa, rfl⟩ := isRep_heap wf hrep
  obtain ⟨-, info, ia, -⟩ := wf.root_ok a sn ea pa
  rw [membersOf_heap wf ea ia] at hall
  obtain ⟨st1, hl, hfree, hitems, hlen, hin, hout, hdel, hkeep⟩ :=
    RemoveSet.loop_spec info.members
      { nodes := s.nodes, free_ids := s.free_ids, heap := s.heap, items_amount := s.items_amount }
      (wf.info_ok ea ia).1 (fun m hm => wf.member_live ea ia hm) (wf.members_le_items ea ia)
  simp only at hlen hout
  have hv := RemoveSet.trim_vacant (st1.nodes.length + 1) st1.nodes s.sets (by omega)
    (by
      intro k hk
      by_cases hm : k + 1 ∈ info.members
      · exact hin k hm
      · rw [hout k hm]
        rw [hlen] at hk
        rw [List.getElem?_eq_getElem hk]
        cases ho : s.nodes[k] with
        | none => rfl
        | some c =>
          exfalso
          apply hm
          apply hall
          refine ItemExists_iff.mpr ⟨by omega, c, ?_⟩
          rw [Nat.add_sub_cancel, List.getElem?_eq_getElem hk, ho])
  unfold RemoveSet
  simp only [GetSetPointer_rep wf ea pa, deref_eq_ok ea, derefInfo_eq_ok ia, hl, hv, Res.bind_ok,
    Res.bind]

set_option maxRecDepth 100000 in
/-- C20 (`RemoveSet` trims trailing vacant slots safely): refuted.  On every
reachable state, `RemoveSet` of a live representative whose set holds every
live item empties the slot array and then reads its last element, which is
undefined behaviour; for instance after `MakeSet`, `MakeSet`, `Join(1, 2)` the
call `RemoveSet(1)` does so.  When some live item lies outside the set the call
returns, and then the two slot arrays have the same length, are not empty, and
end in a live item. -/
theorem C20_trim_reads_empty_array :
    (Reachable exChild ∧ isRep exChild 1 = true ∧ membersOf exChild 1 = [1, 2] ∧
      (RemoveSet exChild 1).isOk = false ∧ (RemoveSet exChild 1).fault = some .empty_back) ∧
    (∀ s, Reachable s → ∀ r, isRep s r = true →
      (∀ z, ItemExists s z = true → z ∈ membersOf s r) →
      (RemoveSet s r).fault = some .empty_back) ∧
    (∀ s, Reachable s → ∀ r, isRep s r = true →
      (∃ z, ItemExists s z = true ∧ z ∉ membersOf s r) →
      ∃ s1, RemoveSet s r = .ok s1 ∧ s1.sets.length = s1.nodes.length ∧
        1 ≤ s1.nodes.length ∧ ∃ c, s1.nodes[s1.nodes.length - 1]? = some (some c)) := by
  refine ⟨⟨Reachable.runD (Reachable.create _) _, by decide, by decide, by decide, by decide⟩,
    ?_, ?_⟩
  · intro s hs r hr hall
    rw [RemoveSet_all hs.wf hr hall]; rfl
  · intro s hs r hr hother
    obtain ⟨s1, h⟩ := RemoveSet_total hs.wf hr hother
    obtain ⟨a, sn, info, P⟩ := RemoveSet_post hs.wf h
    exact ⟨s1, h, P.len_sets, P.len_pos, P.last_live⟩
end UNION
